import Mathlib

/-!
# Verification of the locale synchronization tool

A shallow embedding of the translation-audit script (the i18n
check-locales tool).  The script keeps every locale JSON document in
sync with the reference document en.json: it flattens nested objects
into dotted key paths, diffs the key sets, injects missing keys with
placeholder values and (in all-locales mode) prunes extraneous keys.

JSON values are modelled by the inductive type Json below; JS strings
are modelled as lists of characters so that the script's string
operations (split on a dot, startsWith, slice) become ordinary list
operations.  JS objects are association lists in insertion order,
matching the enumeration order of Object.keys; JSON documents have
unique keys per level, which theorems track through the wfF predicate.
A JS TypeError aborting the process is modelled by Option: none means
the script crashed before reaching the write.  File input/output and
console reporting are outside the core and are not modelled; a
"written" document stands for the object tree passed to writeFileSync.
-/

namespace LocaleSync

/-- A JSON value.  Arrays and objects carry their elements/fields in
document order.  Numbers are modelled as integers: no claim depends on
numeric values, only on the leaf/branch distinction. -/
inductive Json where
  | str (s : List Char)
  | num (n : Int)
  | bool (b : Bool)
  | null
  | arr (es : List Json)
  | obj (fs : List (List Char × Json))

instance : Inhabited Json := ⟨.null⟩

/-- Object keys: JS strings as character lists. -/
abbrev Key := List Char

/-- The fields of a JS object, in enumeration (insertion) order. -/
abbrev Fields := List (Key × Json)

/-- Boolean equality on Json values (JS deep structural equality,
used only by the meta-theory, not by the script itself). -/
def Json.beq : Json → Json → Bool
  | .str a, .str b => a = b
  | .num a, .num b => a = b
  | .bool a, .bool b => a = b
  | .null, .null => true
  | .arr a, .arr b => beqA a b
  | .obj a, .obj b => beqF a b
  | _, _ => false
where
  beqA : List Json → List Json → Bool
    | [], [] => true
    | x :: xs, y :: ys => Json.beq x y && beqA xs ys
    | _, _ => false
  beqF : Fields → Fields → Bool
    | [], [] => true
    | (k, x) :: xs, (l, y) :: ys => k = l && Json.beq x y && beqF xs ys
    | _, _ => false

theorem Json.beq_iff : ∀ a b : Json, Json.beq a b = true ↔ a = b := by
  apply @Json.beq.induct
      (fun xs ys => Json.beq.beqA xs ys = true ↔ xs = ys)
      (fun a b => Json.beq a b = true ↔ a = b)
      (fun xs ys => Json.beq.beqF xs ys = true ↔ xs = ys)
  all_goals intros
  all_goals try (simp_all [Json.beq, Json.beq.beqA, Json.beq.beqF]; done)
  case _ =>
    rename_i t x h1 h2 h3 h4 h5 h6
    cases t <;> cases x <;>
      first
        | solve_by_elim
        | simp [Json.beq]
  all_goals
    rename_i t x h1 h2
    cases t <;> cases x <;>
      first
        | solve_by_elim
        | simp [Json.beq.beqA, Json.beq.beqF]

instance : DecidableEq Json := fun a b =>
  decidable_of_iff (Json.beq a b = true) (Json.beq_iff a b)

/-! ## JS primitives on objects and strings -/

/-- JS property read obj[k] for a data object: value of the first
binding of k (JSON objects have unique keys, so the first is the only
one). -/
def lookupF (fs : Fields) (k : Key) : Option Json :=
  (fs.find? (fun p => p.1 == k)).map (·.2)

/-- JS own-property membership: the test behind Object.keys
enumeration and behind assignment's decision to update in place.  This
is NOT the `in` operator, which also consults the prototype chain
(jsInObj below). -/
def hasKeyF (fs : Fields) (k : Key) : Bool :=
  fs.any (fun p => p.1 == k)

/-- The string-keyed own properties of Object.prototype (V8/Node):
the `in` operator finds every one of these on any plain object with
the default prototype, and "__proto__" is an accessor whose inherited
setter swallows assignments. -/
def objProtoKeys : List Key :=
  ["__proto__".toList, "constructor".toList, "hasOwnProperty".toList,
   "isPrototypeOf".toList, "propertyIsEnumerable".toList, "toLocaleString".toList,
   "toString".toList, "valueOf".toList, "__defineGetter__".toList,
   "__defineSetter__".toList, "__lookupGetter__".toList, "__lookupSetter__".toList]

/-- The `in` operator (k in obj) on a plain object with the default
prototype: an own property, or a member inherited from
Object.prototype. -/
def jsInObj (fs : Fields) (k : Key) : Bool :=
  hasKeyF fs k || objProtoKeys.contains k

/-- JS property assignment obj[k] = v: an existing own binding keeps
its enumeration position and gets the new value; a new key is appended
at the end — except "__proto__": with no own binding shadowing it, the
assignment invokes the setter inherited from Object.prototype and
creates no own property, so the binding is swallowed.  (The setter's
[[Prototype]] mutation is invisible to Object.keys and to JSON
serialization; it can only resurface through later `in` or property
reads, and every theorem below confines itself to documents whose keys
shadow nothing on the prototype chain.) -/
def setKeyF (fs : Fields) (k : Key) (v : Json) : Fields :=
  if hasKeyF fs k then fs.map (fun p => if p.1 == k then (k, v) else p)
  else if k = "__proto__".toList then fs
  else fs ++ [(k, v)]

/-- JS String.prototype.split(".") on character lists: "".split is
[""], "a.".split is ["a", ""], etc. -/
def splitDot : List Char → List (List Char)
  | [] => [[]]
  | c :: t =>
    match splitDot t with
    | s :: rest => if c = '.' then [] :: s :: rest else (c :: s) :: rest
    | [] => []

/-- Join segments with dots: the inverse of splitDot. -/
def joinDot : List (List Char) → List Char
  | [] => []
  | [s] => s
  | s :: rest => s ++ '.' :: joinDot rest

/-- typeof v === "object" in JS: true for objects, arrays and null. -/
def Json.isObjectType : Json → Bool
  | .obj _ => true
  | .arr _ => true
  | .null => true
  | _ => false

/-- typeof v === "object" && v !== null && !Array.isArray(v): the
script's test for a plain object (a Branch). -/
def Json.isPlainObject : Json → Bool
  | .obj _ => true
  | _ => false

/-! ## The Flattener (flattenObject, script lines 20-31)

The script's flattenObject builds a fresh accumulator per recursive
call and merges it into the outer one with Object.assign.  Since
Object.assign copies the source's keys in enumeration order with
JS-assignment semantics (existing key: update in place; new key:
append), this is equivalent to threading one accumulator through the
traversal and performing each acc[path] = value as a setKeyF, which is
how the model is written. -/

/-- prefix ? `${prefix}.${key}` : key (line 22).  An empty prefix is
falsy in JS, hence the test against the empty string. -/
def propertyPath (pre k : List Char) : List Char :=
  if pre = [] then k else pre ++ '.' :: k

mutual

/-- One step of the flattening loop body for the value at path p: a
plain object descends (the recursive flattenObject call of line 25),
every other value (string, number, boolean, null, array) is recorded
as a leaf at its dotted path (line 27). -/
def flattenValue : Json → List Char → Fields → Fields
  | .obj cs, p, acc => flattenObject cs p acc
  | v, p, acc => setKeyF acc p v

/-- flattenObject from the script: fold the loop body over the fields
in enumeration order. -/
def flattenObject : Fields → List Char → Fields → Fields
  | [], _, acc => acc
  | (k, v) :: rest, pre, acc =>
    flattenObject rest pre (flattenValue v (propertyPath pre k) acc)

end

/-- The flat key list Object.keys(flattenObject(content)). -/
def flattenedKeysOf (content : Fields) : List (List Char) :=
  (flattenObject content [] []).map (·.1)

/-! ## The DiffEngine (script lines 128-129) -/

/-- referenceKeys.filter(key => !flattenedKeys.includes(key)). -/
def missingDiff (referenceKeys targetKeys : List (List Char)) : List (List Char) :=
  referenceKeys.filter (fun k => !(targetKeys.contains k))

/-- flattenedKeys.filter(key => !referenceKeys.includes(key)). -/
def extraneousDiff (referenceKeys targetKeys : List (List Char)) : List (List Char) :=
  targetKeys.filter (fun k => !(referenceKeys.contains k))

/-! ## The Pruner (removeKeysFromObject, script lines 70-101) -/

/-- The suffix paths passed to the recursive call (lines 87-89):
keysToRemove.filter(k => k.startsWith(key + ".")).map(k => k.slice(key.length + 1)). -/
def nestedKeysToRemove (keysToRemove : List (List Char)) (key : Key) : List (List Char) :=
  (keysToRemove.filter (fun s => (key ++ ['.']).isPrefixOf s)).map
    (fun s => s.drop (key.length + 1))

mutual

/-- The recursive prune of line 90 applied to the value, which the
script only reaches when the value is a plain object. -/
def pruneValue : Json → List (List Char) → Fields
  | .obj cs, keysToRemove => removeKeysFromObject cs keysToRemove
  | _, _ => []

/-- removeKeysFromObject from the script.  For each binding in order:
an exact match in keysToRemove is skipped (lines 80-83); a plain
object with nested removals is pruned recursively and dropped when the
cleaned object is empty (lines 85-94); otherwise the binding is kept
when !shouldRemoveKey || hasNestedRemovals (line 95, a condition that
is in fact always true at that point, mirrored literally).  Both kept
bindings go through result[key] = value: for key "__proto__" that
assignment hits the inherited setter and creates no own property, so
the binding is swallowed (its JSON-invisible [[Prototype]] side effect
is untracked, as for setKeyF). -/
def removeKeysFromObject : Fields → List (List Char) → Fields
  | [], _ => []
  | (k, v) :: rest, keysToRemove =>
    let shouldRemoveKey :=
      keysToRemove.any (fun s => s == k || (k ++ ['.']).isPrefixOf s)
    let hasNestedRemovals :=
      keysToRemove.any (fun s => (k ++ ['.']).isPrefixOf s)
    if keysToRemove.contains k then removeKeysFromObject rest keysToRemove
    else if v.isPlainObject && hasNestedRemovals then
      let cleaned := pruneValue v (nestedKeysToRemove keysToRemove k)
      if cleaned.length > 0 then
        if k = "__proto__".toList then removeKeysFromObject rest keysToRemove
        else (k, .obj cleaned) :: removeKeysFromObject rest keysToRemove
      else removeKeysFromObject rest keysToRemove
    else if !shouldRemoveKey || hasNestedRemovals then
      if k = "__proto__".toList then removeKeysFromObject rest keysToRemove
      else (k, v) :: removeKeysFromObject rest keysToRemove
    else removeKeysFromObject rest keysToRemove

end

/-! ## The Injector (addMissingKeys, script lines 41-68) -/

mutual

/-- String conversion applied by the template literal
`EN TEXT TO REPLACE: ${enValue}` (JS String()). -/
def jsString : Json → List Char
  | .str s => s
  | .num n => (toString n).toList
  | .bool true => "true".toList
  | .bool false => "false".toList
  | .null => "null".toList
  | .arr es => joinComma es
  | .obj _ => "[object Object]".toList

/-- Array.prototype.toString: elements joined with commas, null
rendered as the empty string. -/
def joinComma : List Json → List Char
  | [] => []
  | [.null] => []
  | [e] => jsString e
  | .null :: rest => ',' :: joinComma rest
  | e :: rest => jsString e ++ ',' :: joinComma rest

end

/-- The placeholder leaf inserted for keyPath (lines 62-63); a key
absent from referenceFlat reads as undefined and stringifies to
"undefined". -/
def mkPlaceholder (referenceFlat : Fields) (keyPath : List Char) : Json :=
  .str ("EN TEXT TO REPLACE: ".toList ++
    match lookupF referenceFlat keyPath with
    | some v => jsString v
    | none => "undefined".toList)

/-- The canonical array index strings: non-empty all-digit strings in
canonical decimal (no leading zeros) denoting an integer below
2^32 - 1.  JS arrays own exactly the element indices below their
length plus "length"; a larger canonical index names a settable
element slot, and anything else is an ordinary (JSON-invisible)
property. -/
def parseIndex (s : List Char) : Option Nat :=
  if s ≠ [] ∧ s.all (·.isDigit) ∧ (s = ['0'] ∨ s.head? ≠ some '0') ∧
      s.foldl (fun n c => 10 * n + (c.toNat - 48)) 0 < 4294967295 then
    some (s.foldl (fun n c => 10 * n + (c.toNat - 48)) 0)
  else none

/-- The string-keyed properties the `in` operator finds on a JS array
beyond its canonical element indices: the own "length" plus the
methods of Array.prototype (Node 20) and, further down the chain, the
members of Object.prototype (jsInArr adds those separately). -/
def arrayProtoKeys : List Key :=
  ["length".toList, "at".toList, "concat".toList, "copyWithin".toList,
   "entries".toList, "every".toList, "fill".toList, "filter".toList, "find".toList,
   "findIndex".toList, "findLast".toList, "findLastIndex".toList, "flat".toList,
   "flatMap".toList, "forEach".toList, "includes".toList, "indexOf".toList,
   "join".toList, "keys".toList, "lastIndexOf".toList, "map".toList, "pop".toList,
   "push".toList, "reduce".toList, "reduceRight".toList, "reverse".toList,
   "shift".toList, "slice".toList, "some".toList, "sort".toList, "splice".toList,
   "toLocaleString".toList, "toReversed".toList, "toSorted".toList,
   "toSpliced".toList, "toString".toList, "unshift".toList, "values".toList,
   "with".toList]

/-- The `in` operator (k in arr) on a JS array: a canonical element
index below the length, or a property found on the array or its
prototype chain. -/
def jsInArr (es : List Json) (k : Key) : Bool :=
  (match parseIndex k with
    | some i => decide (i < es.length)
    | none => false) ||
  arrayProtoKeys.contains k || objProtoKeys.contains k

/-! The walk of addMissingKeys can leave the document: through a fresh
`{}` the script itself assigned, through an expando property of an
array, or — reading an absent-own "__proto__" — onto Object.prototype
or Array.prototype themselves.  From then on none of its writes is
visible in the serialized document; all that remains observable is
whether the walk completes or throws.  The ghost walks below compute
exactly that outcome.  (A completed off-document walk can also deposit
expandos on the shared prototype objects, which later `in` tests of
the same process could observe; the walk's crash/completion verdict is
unaffected — expandos hold only fresh objects and placeholder strings,
and crashes come only from null reads and array "length" assignments —
and every theorem below either forbids prototype-member segments,
keeping all walks inside the document, or depends only on
completion.) -/

mutual

/-- Continuation on a fresh script-created plain object (or expando):
a "__proto__" step moves to Object.prototype; every other segment
lands on another fresh object (prototype members have typeof
"function" and are shadowed by `current[part] = {}`). -/
def ghostFresh : List (List Char) → Bool
  | [] => true
  | [_] => true
  | p :: r :: rs =>
    if p = "__proto__".toList then ghostProtoObj (r :: rs) else ghostFresh (r :: rs)

/-- Continuation standing on Object.prototype: its own "__proto__"
accessor now yields null (Object.prototype has no prototype), so the
next property test throws a TypeError; every other segment shadows a
member or creates an expando, landing on a fresh object. -/
def ghostProtoObj : List (List Char) → Bool
  | [] => true
  | [_] => true
  | p :: r :: rs =>
    if p = "__proto__".toList then false else ghostFresh (r :: rs)

end

/-- Continuation standing on Array.prototype (itself an array of
length 0): assigning a fresh object to its "length" throws a
RangeError; "__proto__" moves on to Object.prototype; every other
segment lands on a fresh object or expando. -/
def ghostProtoArr : List (List Char) → Bool
  | [] => true
  | [_] => true
  | p :: r :: rs =>
    if p = "length".toList then false
    else if p = "__proto__".toList then ghostProtoObj (r :: rs)
    else ghostFresh (r :: rs)

mutual

/-- One iteration of the addMissingKeys walk (lines 48-64) on a plain
object, rebuilt functionally: parts is the non-empty list of remaining
path segments.  At the last segment, insert the placeholder only if
(lastPart in current) is false — an `in` test, so an own property OR
any Object.prototype member name (toString, constructor, ...) makes
the script skip the insert (lines 60-64).  At an intermediate segment
(lines 52-58): (part in current) false, or typeof current[part] not
"object", overwrites the position with a fresh empty object — an
absent prototype-member name like "toString" reads as a function, so
it is shadowed with an own fresh object exactly like a plain absent
key, and an own string/number/boolean is overwritten.  typeof null and
typeof of an array are both "object", so null and arrays are NOT
overwritten: walking into null makes the very next (part in current)
throw a TypeError, modelled as none, and an array is descended into
(addIntoArray).  An absent-own "__proto__" reads as Object.prototype
(an object), so the walk leaves the document and continues there:
nothing further is written into the tree, and the only document-level
observable is whether the ghost continuation completes or throws. -/
def addOneKey (fs : Fields) (parts : List (List Char)) (plh : Json) : Option Fields :=
  match parts with
  | [] => some fs
  | [last] => if jsInObj fs last then some fs else some (setKeyF fs last plh)
  | part :: rest =>
    if hasKeyF fs part = false ∧ part = "__proto__".toList then
      if ghostProtoObj rest then some fs else none
    else
      match lookupF fs part with
      | some (.obj cs) =>
        (addOneKey cs rest plh).map (fun cs2 => setKeyF fs part (.obj cs2))
      | some (.arr es) =>
        (addIntoArray es rest plh).map (fun es2 => setKeyF fs part (.arr es2))
      | some .null => none
      | _ =>
        (addOneKey [] rest plh).map (fun cs2 => setKeyF fs part (.obj cs2))

/-- The walk when current is a JS array.  An intermediate "length"
gets assigned a fresh object, which throws a RangeError (none).  An
absent-own "__proto__" reads as Array.prototype and the walk continues
there (ghostProtoArr decides completion).  A canonical index below the
length descends into the element: a scalar element is overwritten with
a fresh object like any scalar, a null element crashes the following
property access.  A canonical index at or beyond the length extends
the array — the skipped slots are holes, serialized as null — and the
walk builds inside the fresh object placed at that index; at the last
segment the placeholder itself lands there.  Any other segment (a
prototype method name or a non-index string) is shadowed by or created
as an expando property on the array object: expandos are invisible
both to flattenObject (arrays are atomic leaves) and to JSON
serialization, so the array is unchanged and only the ghost
continuation's completion is observable. -/
def addIntoArray (es : List Json) (parts : List (List Char)) (plh : Json) : Option (List Json) :=
  match parts with
  | [] => some es
  | [last] =>
    if jsInArr es last then some es
    else
      match parseIndex last with
      | some i => some (es ++ List.replicate (i - es.length) .null ++ [plh])
      | none => some es
  | part :: rest =>
    if part = "length".toList then none
    else if part = "__proto__".toList then
      if ghostProtoArr rest then some es else none
    else
      match parseIndex part with
      | some i =>
        if h : i < es.length then
          match es.get ⟨i, h⟩ with
          | .obj cs => (addOneKey cs rest plh).map (fun cs2 => es.set i (.obj cs2))
          | .arr es1 => (addIntoArray es1 rest plh).map (fun es2 => es.set i (.arr es2))
          | .null => none
          | _ => (addOneKey [] rest plh).map (fun cs2 => es.set i (.obj cs2))
        else
          (addOneKey [] rest plh).map
            (fun cs2 => es ++ List.replicate (i - es.length) .null ++ [.obj cs2])
      | none =>
        if ghostFresh rest then some es else none

end

/-- addMissingKeys from the script: start from a copy of the object
and process each missing keyPath in order, mutating the copy; a
TypeError thrown for one path aborts the whole call (none). -/
def addMissingKeys (fs : Fields) (keysToAdd : List (List Char)) (referenceFlat : Fields) :
    Option Fields :=
  keysToAdd.foldl
    (fun acc keyPath =>
      acc.bind (fun cur =>
        addOneKey cur (splitDot keyPath) (mkPlaceholder referenceFlat keyPath)))
    (some fs)

/-! ## The Orchestrator (processLocale lines 118-148, runSingleLocale
lines 150-189) -/

/-- What one processLocale call reports and persists.  written = some
w means writeFileSync was called with the serialized w; none means the
file was left untouched. -/
structure ProcessResult where
  missing : List (List Char)
  removed : List (List Char)
  added : List (List Char)
  written : Option Fields
  deriving DecidableEq

/-- processLocale from the script, with the loaded file content passed
in place of the file read.  Computes the diff, prunes extraneous keys
unconditionally, injects missing keys when fix is set, and persists
iff modified.  none models the process dying from a TypeError inside
addMissingKeys (no write happens). -/
def processLocale (content : Fields) (referenceKeys : List (List Char))
    (referenceFlat : Fields) (fix : Bool) : Option ProcessResult :=
  let flattenedKeys := flattenedKeysOf content
  let missingKeys := missingDiff referenceKeys flattenedKeys
  let extraneousKeys := extraneousDiff referenceKeys flattenedKeys
  let pruned :=
    if extraneousKeys.length > 0 then (removeKeysFromObject content extraneousKeys, true)
    else (content, false)
  let fixed : Option (Fields × Bool) :=
    if fix && missingKeys.length > 0 then
      (addMissingKeys pruned.1 missingKeys referenceFlat).map (fun c => (c, true))
    else some pruned
  fixed.map (fun st =>
    { missing := missingKeys
      removed := extraneousKeys
      added := if fix then missingKeys else []
      written := if st.2 then some st.1 else none })

/-- runSingleLocale from the script: computes only the missing keys;
writes iff fix is set and at least one key is missing; never prunes.
Outer none: the process died in addMissingKeys; inner option: the
written document, none when no write happened. -/
def runSingleLocale (content : Fields) (referenceKeys : List (List Char))
    (referenceFlat : Fields) (fix : Bool) : Option (Option Fields) :=
  let flattenedKeys := flattenedKeysOf content
  let missingKeys := missingDiff referenceKeys flattenedKeys
  if missingKeys.length = 0 then some none
  else if fix then (addMissingKeys content missingKeys referenceFlat).map some
  else some none

/-- The document on disk after a processLocale call: the written tree
when a write happened, the loaded tree otherwise. -/
def finalDoc (res : ProcessResult) (loaded : Fields) : Fields :=
  res.written.getD loaded

/-! ## Meta-theory: views and predicates on documents

These definitions are not part of the script; they give the vocabulary
in which its properties are stated: a segment-level view of the leaf
paths, lookup along a segment path, and the document predicates
(unique keys per level, dot-free non-empty keys, no empty branches)
under which the script's path strings are unambiguous. -/

/-- A well-behaved object key: non-empty, containing no dot (so the
script's dotted paths are unambiguous), and shadowing nothing on the
prototype chain (so the `in` tests, reads and assignments of the
script see exactly the document's own structure). -/
def goodKey (k : Key) : Bool :=
  !(k.isEmpty) && !(k.contains '.') && !(objProtoKeys.contains k)

mutual

/-- Every object key anywhere inside the value is good. -/
def goodV : Json → Bool
  | .obj fs => goodF fs
  | .arr es => goodA es
  | _ => true

def goodF : Fields → Bool
  | [] => true
  | (k, v) :: rest => goodKey k && goodV v && goodF rest

def goodA : List Json → Bool
  | [] => true
  | v :: rest => goodV v && goodA rest

end

mutual

/-- Keys are pairwise distinct at every object level (true of every
JSON.parse result). -/
def wfV : Json → Bool
  | .obj fs => wfF fs
  | .arr es => wfA es
  | _ => true

def wfF : Fields → Bool
  | [] => true
  | (k, v) :: rest => !(hasKeyF rest k) && wfV v && wfF rest

def wfA : List Json → Bool
  | [] => true
  | v :: rest => wfV v && wfA rest

end

mutual

/-- No object anywhere inside the value is empty.  (Objects inside
arrays are not inspected: arrays are atomic for the whole pipeline.) -/
def noEmptyV : Json → Bool
  | .obj [] => false
  | .obj fs => noEmptyF fs
  | _ => true

def noEmptyF : Fields → Bool
  | [] => true
  | (_, v) :: rest => noEmptyV v && noEmptyF rest

end

mutual

/-- The leaf entries contributed by one binding (k, v): a plain object
contributes its own leaves with k prepended, anything else is a leaf
at path [k]. -/
def leavesV (k : Key) : Json → List (List Key × Json)
  | .obj cs => (leavesF cs).map (fun q => (k :: q.1, q.2))
  | v => [([k], v)]

/-- The segment-level leaf view of a document: the list of
(segment path, leaf value) pairs in traversal order.  flattenObject
produces exactly these entries with the paths dot-joined (proved
below, for good well-formed documents). -/
def leavesF : Fields → List (List Key × Json)
  | [] => []
  | (k, v) :: rest => leavesV k v ++ leavesF rest

end

/-- The segment paths of all leaves. -/
def leafPaths (fs : Fields) : List (List Key) :=
  (leavesF fs).map (·.1)

/-- Lookup along a segment path (descending only through plain
objects). -/
def getPath : Json → List Key → Option Json
  | v, [] => some v
  | .obj fs, s :: rest =>
    match lookupF fs s with
    | some v2 => getPath v2 rest
    | none => none
  | _, _ :: _ => none

/-! ## Dotted strings versus segment lists -/

theorem splitDot_ne_nil : ∀ l : List Char, splitDot l ≠ [] := by
  intro l
  induction l with
  | nil => simp [splitDot]
  | cons c t ih =>
    cases h : splitDot t with
    | nil => exact absurd h ih
    | cons s rest =>
      simp only [splitDot, h]
      split <;> simp

theorem joinDot_cons (s : List Char) (q : List (List Char)) (hq : q ≠ []) :
    joinDot (s :: q) = s ++ '.' :: joinDot q := by
  cases q with
  | nil => exact absurd rfl hq
  | cons a t => rfl

theorem splitDot_dotFree (s : List Char) (hs : '.' ∉ s) : splitDot s = [s] := by
  induction s with
  | nil => rfl
  | cons c t ih =>
    simp only [splitDot]
    rw [ih (fun h => hs (List.mem_cons_of_mem c h))]
    have hc : c ≠ '.' := fun h => hs (h ▸ List.mem_cons_self c t)
    simp [hc]

theorem splitDot_append (s t : List Char) (hs : '.' ∉ s) :
    splitDot (s ++ '.' :: t) = s :: splitDot t := by
  induction s with
  | nil =>
    simp only [List.nil_append, splitDot]
    cases h : splitDot t with
    | nil => exact absurd h (splitDot_ne_nil t)
    | cons a r => simp
  | cons c s2 ih =>
    have hc : c ≠ '.' := fun h => hs (h ▸ List.mem_cons_self c s2)
    have hs2 : '.' ∉ s2 := fun h => hs (List.mem_cons_of_mem c h)
    simp only [List.cons_append, splitDot, List.append_eq]
    rw [ih hs2]
    simp [hc]

/-- splitDot is a left inverse of joinDot on non-empty lists of
dot-free segments: the script's keyPath.split(".") recovers exactly
the segments of a dotted path built from good keys. -/
theorem splitDot_joinDot (q : List (List Char)) (hq : q ≠ [])
    (hgood : ∀ s ∈ q, '.' ∉ s) : splitDot (joinDot q) = q := by
  induction q with
  | nil => exact absurd rfl hq
  | cons s rest ih =>
    cases rest with
    | nil => exact splitDot_dotFree s (hgood s (List.mem_cons_self s []))
    | cons b r2 =>
      rw [joinDot_cons s (b :: r2) (by simp),
        splitDot_append _ _ (hgood s (List.mem_cons_self s _)),
        ih (by simp) (fun x hx => hgood x (List.mem_cons_of_mem s hx))]

theorem append_dot_inj {a b x y : List Char} (ha : '.' ∉ a) (hb : '.' ∉ b)
    (h : a ++ '.' :: x = b ++ '.' :: y) : a = b ∧ x = y := by
  induction a generalizing b with
  | nil =>
    cases b with
    | nil => simpa using h
    | cons d b2 =>
      simp only [List.nil_append, List.cons_append, List.cons.injEq] at h
      exact absurd (h.1 ▸ List.mem_cons_self d b2) hb
  | cons c a2 ih =>
    cases b with
    | nil =>
      simp only [List.cons_append, List.nil_append, List.cons.injEq] at h
      exact absurd (h.1 ▸ List.mem_cons_self c a2) ha
    | cons d b2 =>
      simp only [List.cons_append, List.cons.injEq] at h
      have := ih (fun hm => ha (List.mem_cons_of_mem c hm))
        (fun hm => hb (List.mem_cons_of_mem d hm)) h.2
      exact ⟨by rw [h.1, this.1], this.2⟩

/-- joinDot is injective on non-empty lists of dot-free segments. -/
theorem joinDot_inj {q1 q2 : List (List Char)} (h1 : q1 ≠ []) (h2 : q2 ≠ [])
    (hg1 : ∀ s ∈ q1, '.' ∉ s) (hg2 : ∀ s ∈ q2, '.' ∉ s)
    (h : joinDot q1 = joinDot q2) : q1 = q2 := by
  induction q1 generalizing q2 with
  | nil => exact absurd rfl h1
  | cons a r1 ih =>
    cases q2 with
    | nil => exact absurd rfl h2
    | cons b r2 =>
      have hga : '.' ∉ a := hg1 a (List.mem_cons_self a r1)
      have hgb : '.' ∉ b := hg2 b (List.mem_cons_self b r2)
      cases r1 with
      | nil =>
        cases r2 with
        | nil => simpa [joinDot] using h
        | cons c r3 =>
          rw [joinDot_cons b (c :: r3) (by simp)] at h
          simp only [joinDot] at h
          exact absurd (h ▸ List.mem_append_right b (List.mem_cons_self '.' _)) hga
      | cons c r3 =>
        cases r2 with
        | nil =>
          rw [joinDot_cons a (c :: r3) (by simp)] at h
          simp only [joinDot] at h
          exact absurd (h.symm ▸ List.mem_append_right a (List.mem_cons_self '.' _)) hgb
        | cons d r4 =>
          rw [joinDot_cons a (c :: r3) (by simp), joinDot_cons b (d :: r4) (by simp)] at h
          obtain ⟨hab, hrest⟩ := append_dot_inj hga hgb h
          rw [hab, ih (by simp) (by simp)
            (fun x hx => hg1 x (List.mem_cons_of_mem a hx))
            (fun x hx => hg2 x (List.mem_cons_of_mem b hx)) hrest]

theorem dotFree_of_goodKey {k : Key} (h : goodKey k = true) : '.' ∉ k := by
  intro hm
  simp only [goodKey, Bool.and_eq_true, Bool.not_eq_true'] at h
  have h3 : k.contains '.' = true := show k.elem '.' = true from List.elem_iff.mpr hm
  rw [h.1.2] at h3
  exact Bool.false_ne_true h3

theorem ne_nil_of_goodKey {k : Key} (h : goodKey k = true) : k ≠ [] := by
  intro hk
  subst hk
  exact absurd h (by decide)

theorem notProto_of_goodKey {k : Key} (h : goodKey k = true) :
    objProtoKeys.contains k = false := by
  simp only [goodKey, Bool.and_eq_true, Bool.not_eq_true'] at h
  exact h.2

theorem ne_proto_of_not_contains {k : Key} (h : objProtoKeys.contains k = false) :
    k ≠ "__proto__".toList := by
  intro he
  subst he
  exact absurd h (by decide)

theorem ne_proto_of_goodKey {k : Key} (h : goodKey k = true) : k ≠ "__proto__".toList :=
  ne_proto_of_not_contains (notProto_of_goodKey h)

theorem jsInObj_eq_hasKeyF {k : Key} (h : objProtoKeys.contains k = false)
    (fs : Fields) : jsInObj fs k = hasKeyF fs k := by
  rw [jsInObj, h, Bool.or_false]

/-- A good key's dotted property path is never the string "__proto__":
with a prefix it contains a dot, without one it is the key itself. -/
theorem propertyPath_ne_proto {k : Key} (hk : goodKey k = true) (pre : List Char) :
    propertyPath pre k ≠ "__proto__".toList := by
  rw [propertyPath]
  by_cases hp : pre = []
  · rw [if_pos hp]
    exact ne_proto_of_goodKey hk
  · rw [if_neg hp]
    intro he
    have hdot : '.' ∈ pre ++ '.' :: k := List.mem_append_right pre (List.mem_cons_self _ _)
    rw [he] at hdot
    exact absurd hdot (by decide)

/-- Dropping key-plus-dot many characters from a path that starts with
key-plus-dot leaves the suffix: the script's slice(key.length + 1). -/
theorem drop_append_dot (k : Key) (u : List Char) :
    ((k ++ ['.']) ++ u).drop (k.length + 1) = u := by
  have hl : (k ++ ['.']).length = k.length + 1 := by simp
  rw [← hl, List.drop_left]

/-- For a dot-free key k, the script's test s.startsWith(key + ".")
on a dotted path recognizes exactly the paths whose first segment is
k (with at least one further segment). -/
theorem isPrefixOf_joinDot_iff {k : Key} {q : List (List Char)}
    (hk : '.' ∉ k) (hq : q ≠ []) (hgq : ∀ s ∈ q, '.' ∉ s) :
    (k ++ ['.']).isPrefixOf (joinDot q) = true ↔ ∃ q2, q = k :: q2 ∧ q2 ≠ [] := by
  rw [List.isPrefixOf_iff_prefix]
  constructor
  · intro h
    obtain ⟨t, ht⟩ := h
    cases q with
    | nil => exact absurd rfl hq
    | cons a r =>
      have hga : '.' ∉ a := hgq a (List.mem_cons_self a r)
      cases r with
      | nil =>
        have hma : '.' ∈ a := by
          rw [show joinDot [a] = a from rfl] at ht
          rw [← ht]
          exact List.mem_append_left t (List.mem_append_right k (List.mem_cons_self '.' []))
        exact absurd hma hga
      | cons b r2 =>
        rw [joinDot_cons a (b :: r2) (by simp)] at ht
        have ht2 : k ++ '.' :: t = a ++ '.' :: joinDot (b :: r2) := by
          rw [List.append_cons]
          exact ht
        obtain ⟨hak, -⟩ := append_dot_inj hk hga ht2
        exact ⟨b :: r2, by rw [hak], by simp⟩
  · rintro ⟨q2, rfl, hq2⟩
    rw [joinDot_cons k q2 hq2]
    exact ⟨joinDot q2, by rw [List.append_cons k '.' (joinDot q2)]⟩

/-- For a dot-free key k, a dotted path built from dot-free segments
equals the bare string k exactly when its segment list is [k]. -/
theorem joinDot_eq_key_iff {k : Key} {q : List (List Char)}
    (hk : '.' ∉ k) (hq : q ≠ []) (hgq : ∀ s ∈ q, '.' ∉ s) :
    joinDot q = k ↔ q = [k] := by
  constructor
  · intro h
    cases q with
    | nil => exact absurd rfl hq
    | cons a r =>
      cases r with
      | nil => simpa [joinDot] using h
      | cons b r2 =>
        rw [joinDot_cons a (b :: r2) (by simp)] at h
        exact absurd (h ▸ List.mem_append_right a (List.mem_cons_self '.' _)) hk
  · rintro rfl; rfl

theorem drop_joinDot_cons {k : Key} {q : List (List Char)} (hq : q ≠ []) :
    (joinDot (k :: q)).drop (k.length + 1) = joinDot q := by
  rw [joinDot_cons k q hq,
    show k ++ '.' :: joinDot q = (k ++ ['.']) ++ joinDot q by rw [List.append_cons],
    drop_append_dot]

/-- Membership in the nested suffix list nestedKeysToRemove K k is
exactly membership of the dot-rejoined path in K. -/
theorem mem_nestedKeysToRemove {K : List (List Char)} {k : Key} {s : List Char} :
    s ∈ nestedKeysToRemove K k ↔ (k ++ '.' :: s) ∈ K := by
  simp only [nestedKeysToRemove, List.mem_map, List.mem_filter]
  constructor
  · rintro ⟨t, ⟨htK, hpre⟩, rfl⟩
    rw [List.isPrefixOf_iff_prefix] at hpre
    obtain ⟨u, hu⟩ := hpre
    have h1 : t.drop (k.length + 1) = u := by rw [← hu, drop_append_dot]
    rw [h1, show k ++ '.' :: u = (k ++ ['.']) ++ u by rw [List.append_cons], hu]
    exact htK
  · intro h
    refine ⟨k ++ '.' :: s, ⟨h, ?_⟩, ?_⟩
    · rw [List.isPrefixOf_iff_prefix]
      exact ⟨s, by rw [List.append_cons k '.' s]⟩
    · rw [show k ++ '.' :: s = (k ++ ['.']) ++ s by rw [List.append_cons], drop_append_dot]

/-! ## Basic facts about the object primitives -/

theorem hasKeyF_cons {k1 : Key} {v1 : Json} {rest : Fields} {k : Key} :
    hasKeyF ((k1, v1) :: rest) k = (k1 == k || hasKeyF rest k) := by
  simp [hasKeyF]

theorem hasKeyF_append {a b : Fields} {k : Key} :
    hasKeyF (a ++ b) k = (hasKeyF a k || hasKeyF b k) := by
  simp [hasKeyF, List.any_append]

theorem lookupF_cons {k1 : Key} {v1 : Json} {rest : Fields} {k : Key} :
    lookupF ((k1, v1) :: rest) k = if k1 = k then some v1 else lookupF rest k := by
  by_cases h : k1 = k
  · subst h
    simp [lookupF, List.find?_cons]
  · simp [lookupF, List.find?_cons, beq_eq_false_iff_ne.mpr h, h]

theorem lookupF_eq_none_iff {fs : Fields} {k : Key} :
    lookupF fs k = none ↔ hasKeyF fs k = false := by
  induction fs with
  | nil => simp [lookupF, hasKeyF]
  | cons p rest ih =>
    obtain ⟨k1, v1⟩ := p
    rw [lookupF_cons, hasKeyF_cons]
    by_cases h : k1 = k <;> simp [h, ih]

theorem lookupF_isSome_iff {fs : Fields} {k : Key} :
    (lookupF fs k).isSome = true ↔ hasKeyF fs k = true := by
  rw [Option.isSome_iff_ne_none]
  constructor
  · intro h
    by_contra hh
    exact h (lookupF_eq_none_iff.mpr (Bool.not_eq_true _ ▸ hh))
  · intro h hn
    rw [lookupF_eq_none_iff, h] at hn
    exact Bool.false_ne_true hn.symm

theorem mem_of_lookupF {fs : Fields} {k : Key} {v : Json} (h : lookupF fs k = some v) :
    (k, v) ∈ fs := by
  induction fs with
  | nil => simp [lookupF] at h
  | cons p rest ih =>
    obtain ⟨k1, v1⟩ := p
    rw [lookupF_cons] at h
    by_cases hk : k1 = k
    · rw [if_pos hk] at h
      injection h with h
      rw [← hk, ← h]
      exact List.mem_cons_self _ _
    · rw [if_neg hk] at h
      exact List.mem_cons_of_mem _ (ih h)

theorem lookupF_of_mem_nodup {fs : Fields} {k : Key} {v : Json}
    (hmem : (k, v) ∈ fs) (hnd : (fs.map Prod.fst).Nodup) : lookupF fs k = some v := by
  induction fs with
  | nil => simp at hmem
  | cons p rest ih =>
    obtain ⟨k1, v1⟩ := p
    simp only [List.map_cons, List.nodup_cons] at hnd
    rcases List.mem_cons.mp hmem with h | h
    · injection h with h1 h2
      subst h1
      subst h2
      rw [lookupF_cons, if_pos rfl]
    · have hne : k1 ≠ k := fun he => hnd.1 (he ▸ List.mem_map.mpr ⟨(k, v), h, rfl⟩)
      rw [lookupF_cons, if_neg hne]
      exact ih h hnd.2

theorem setKeyF_of_not_has {fs : Fields} {k : Key} {v : Json}
    (h : hasKeyF fs k = false) (hk : k ≠ "__proto__".toList) :
    setKeyF fs k v = fs ++ [(k, v)] := by
  unfold setKeyF
  rw [if_neg (by rw [h]; exact Bool.false_ne_true), if_neg hk]

/-- An absent "__proto__" assignment is swallowed by the inherited
setter: no own property appears. -/
theorem setKeyF_proto_not_has {fs : Fields} {v : Json}
    (h : hasKeyF fs "__proto__".toList = false) :
    setKeyF fs "__proto__".toList v = fs := by
  unfold setKeyF
  rw [if_neg (by rw [h]; exact Bool.false_ne_true), if_pos rfl]

theorem lookupF_mapRep (fs : Fields) (k : Key) (v : Json) (s : Key) :
    lookupF (fs.map (fun p => if p.1 == k then (k, v) else p)) s =
      if s = k then (if hasKeyF fs k then some v else none) else lookupF fs s := by
  induction fs with
  | nil => by_cases hs : s = k <;> simp [lookupF, hasKeyF, hs]
  | cons p rest ih =>
    obtain ⟨k1, v1⟩ := p
    rw [List.map_cons]
    by_cases h1 : k1 = k
    · subst h1
      rw [show (if ((k1, v1).1 == k1) = true then (k1, v) else (k1, v1)) = (k1, v) by simp]
      simp only [lookupF_cons, hasKeyF_cons, ih, beq_self_eq_true, Bool.true_or]
      by_cases hs : s = k1
      · subst hs
        simp
      · rw [if_neg (fun he : k1 = s => hs he.symm), if_neg hs, if_neg hs,
          if_neg (fun he : k1 = s => hs he.symm)]
    · rw [show (if ((k1, v1).1 == k) = true then (k, v) else (k1, v1)) = (k1, v1) by
        simp [beq_eq_false_iff_ne.mpr h1]]
      simp only [lookupF_cons, hasKeyF_cons, ih, beq_eq_false_iff_ne.mpr h1, Bool.false_or]
      by_cases hk1 : k1 = s
      · subst hk1
        rw [if_pos rfl, if_neg (fun he : k1 = k => h1 he), if_pos rfl]
      · rw [if_neg hk1, if_neg hk1]

theorem lookupF_setKeyF (fs : Fields) (k : Key) (v : Json) (s : Key)
    (hk : hasKeyF fs k = true ∨ k ≠ "__proto__".toList) :
    lookupF (setKeyF fs k v) s = if s = k then some v else lookupF fs s := by
  unfold setKeyF
  by_cases hh : hasKeyF fs k
  · rw [if_pos hh, lookupF_mapRep, if_pos hh]
  · have hkp : k ≠ "__proto__".toList := by
      rcases hk with hk | hk
      · exact absurd hk hh
      · exact hk
    rw [if_neg hh, if_neg hkp]
    clear hk
    induction fs with
    | nil =>
      by_cases hs : s = k
      · subst hs
        simp [lookupF_cons, lookupF]
      · simp [lookupF_cons, lookupF, hs, Ne.symm hs]
    | cons p rest ih =>
      obtain ⟨k1, v1⟩ := p
      rw [hasKeyF_cons] at hh
      simp only [Bool.or_eq_true, not_or, Bool.not_eq_true] at hh
      rw [List.cons_append, lookupF_cons, lookupF_cons, ih (by simp [hh.2])]
      by_cases h1 : k1 = s
      · have hsk : s ≠ k := by
          intro he
          rw [← h1] at he
          rw [he] at hh
          simp at hh
        rw [if_pos h1, if_neg hsk, if_pos h1]
      · rw [if_neg h1, if_neg h1]

theorem hasKeyF_mapRep (fs : Fields) (k : Key) (v : Json) (s : Key) :
    hasKeyF (fs.map (fun p => if p.1 == k then (k, v) else p)) s =
      if s = k then hasKeyF fs k else hasKeyF fs s := by
  induction fs with
  | nil => by_cases hs : s = k <;> simp [hasKeyF, hs]
  | cons p rest ih =>
    obtain ⟨k1, v1⟩ := p
    rw [List.map_cons]
    by_cases h1 : k1 = k
    · subst h1
      rw [show (if ((k1, v1).1 == k1) = true then (k1, v) else (k1, v1)) = (k1, v) by simp]
      simp only [hasKeyF_cons, ih]
      by_cases hs : s = k1
      · subst hs
        simp
      · rw [if_neg hs, if_neg hs, beq_eq_false_iff_ne.mpr (fun he : k1 = s => hs he.symm)]
    · rw [show (if ((k1, v1).1 == k) = true then (k, v) else (k1, v1)) = (k1, v1) by
        simp [beq_eq_false_iff_ne.mpr h1]]
      simp only [hasKeyF_cons, ih]
      by_cases hs : s = k
      · subst hs
        rw [if_pos rfl, if_pos rfl, beq_eq_false_iff_ne.mpr h1, Bool.false_or]
      · rw [if_neg hs, if_neg hs]

theorem hasKeyF_setKeyF (fs : Fields) (k : Key) (v : Json) (s : Key)
    (hk : hasKeyF fs k = true ∨ k ≠ "__proto__".toList) :
    hasKeyF (setKeyF fs k v) s = (hasKeyF fs s || s == k) := by
  unfold setKeyF
  by_cases hh : hasKeyF fs k
  · rw [if_pos hh, hasKeyF_mapRep]
    by_cases hs : s = k
    · subst hs
      simp [hh]
    · simp [hs]
  · have hkp : k ≠ "__proto__".toList := by
      rcases hk with hk | hk
      · exact absurd hk hh
      · exact hk
    rw [if_neg hh, if_neg hkp, hasKeyF_append]
    have h2 : hasKeyF [(k, v)] s = (k == s) := by simp [hasKeyF]
    rw [h2]
    by_cases hs : s = k
    · subst hs
      rfl
    · rw [beq_eq_false_iff_ne.mpr (fun he : k = s => hs he.symm),
        beq_eq_false_iff_ne.mpr hs]

/-! ## The joined path of a traversal prefix -/

/-- The dotted path of segment list q under traversal prefix pre:
what the script's propertyPath chain produces after descending q. -/
def preJoin (pre : List Char) (q : List (List Char)) : List Char :=
  if pre = [] then joinDot q else pre ++ '.' :: joinDot q

theorem propertyPath_eq_preJoin (pre : List Char) (k : Key) :
    propertyPath pre k = preJoin pre [k] := by
  unfold propertyPath preJoin
  by_cases hpre : pre = []
  · rw [if_pos hpre, if_pos hpre]
    rfl
  · rw [if_neg hpre, if_neg hpre]
    rfl

theorem preJoin_assoc {pre : List Char} {k : Key} {q : List (List Char)}
    (hk : k ≠ []) (hq : q ≠ []) :
    preJoin (propertyPath pre k) q = preJoin pre (k :: q) := by
  by_cases hpre : pre = []
  · subst hpre
    have h1 : propertyPath [] k = k := by
      unfold propertyPath
      rw [if_pos rfl]
    rw [h1]
    unfold preJoin
    rw [if_neg hk, if_pos rfl, joinDot_cons k q hq]
  · have h1 : propertyPath pre k = pre ++ '.' :: k := by
      unfold propertyPath
      rw [if_neg hpre]
    have hne : pre ++ '.' :: k ≠ [] := by simp
    rw [h1]
    unfold preJoin
    simp only [if_neg hpre, if_neg hne, joinDot_cons k q hq, List.cons_append,
      List.append_assoc]

theorem preJoin_inj {pre : List Char} {q1 q2 : List (List Char)}
    (h1 : q1 ≠ []) (h2 : q2 ≠ []) (hg1 : ∀ s ∈ q1, '.' ∉ s) (hg2 : ∀ s ∈ q2, '.' ∉ s)
    (h : preJoin pre q1 = preJoin pre q2) : q1 = q2 := by
  unfold preJoin at h
  by_cases hpre : pre = []
  · rw [if_pos hpre, if_pos hpre] at h
    exact joinDot_inj h1 h2 hg1 hg2 h
  · rw [if_neg hpre, if_neg hpre] at h
    exact joinDot_inj h1 h2 hg1 hg2 (by injection List.append_cancel_left h)

/-! ## Basic facts about the leaf view -/

theorem leavesV_obj (k : Key) (cs : Fields) :
    leavesV k (.obj cs) = (leavesF cs).map (fun q => (k :: q.1, q.2)) := by
  simp [leavesV]

theorem leavesV_leaf (k : Key) {v : Json} (h : v.isPlainObject = false) :
    leavesV k v = [([k], v)] := by
  cases v <;> simp_all [leavesV, Json.isPlainObject]

theorem leavesF_cons (k : Key) (v : Json) (rest : Fields) :
    leavesF ((k, v) :: rest) = leavesV k v ++ leavesF rest := by
  simp [leavesF]

theorem leavesV_head {k : Key} {v : Json} {qw : List Key × Json}
    (h : qw ∈ leavesV k v) : ∃ tl, qw.1 = k :: tl := by
  cases v <;> simp only [leavesV, List.mem_map, List.mem_singleton] at h
  case obj cs =>
    obtain ⟨q2, -, rfl⟩ := h
    exact ⟨q2.1, rfl⟩
  all_goals
    rw [h]
    exact ⟨[], rfl⟩

theorem leaves_ne_nil : ∀ fs : Fields, ∀ qw ∈ leavesF fs, qw.1 ≠ [] := by
  intro fs qw h
  induction fs with
  | nil => simp [leavesF] at h
  | cons p rest ih =>
    obtain ⟨k, v⟩ := p
    rw [leavesF_cons] at h
    rcases List.mem_append.mp h with h | h
    · obtain ⟨tl, htl⟩ := leavesV_head h
      simp [htl]
    · exact ih h

/-! ## Flattening produces exactly the dot-joined leaf view -/

theorem hasKeyF_iff_exists {fs : Fields} {k : Key} :
    hasKeyF fs k = true ↔ ∃ v, (k, v) ∈ fs := by
  induction fs with
  | nil => simp [hasKeyF]
  | cons p rest ih =>
    obtain ⟨k1, v1⟩ := p
    rw [hasKeyF_cons]
    constructor
    · intro h
      rcases Bool.or_eq_true _ _ ▸ h with h | h
      · exact ⟨v1, by rw [show k1 = k from by simpa using h]; exact List.mem_cons_self _ _⟩
      · obtain ⟨v, hv⟩ := ih.mp h
        exact ⟨v, List.mem_cons_of_mem _ hv⟩
    · rintro ⟨v, hv⟩
      rcases List.mem_cons.mp hv with h | h
      · injection h with h1 h2
        rw [h1]
        simp
      · rw [ih.mpr ⟨v, h⟩]
        simp

theorem leaves_headKey {fs : Fields} {qw : List Key × Json} (h : qw ∈ leavesF fs) :
    ∃ hd tl, qw.1 = hd :: tl ∧ hasKeyF fs hd = true := by
  induction fs with
  | nil => simp [leavesF] at h
  | cons p rest ih =>
    obtain ⟨k, v⟩ := p
    rw [leavesF_cons] at h
    rcases List.mem_append.mp h with h | h
    · obtain ⟨tl, htl⟩ := leavesV_head h
      exact ⟨k, tl, htl, by simp [hasKeyF_cons]⟩
    · obtain ⟨hd, tl, htl, hk⟩ := ih h
      exact ⟨hd, tl, htl, by simp [hasKeyF_cons, hk]⟩

theorem leaves_good : ∀ fs : Fields, goodF fs = true →
    ∀ qw ∈ leavesF fs, ∀ s ∈ qw.1, goodKey s = true := by
  apply @leavesF.induct
    (fun k v => goodKey k = true → goodV v = true →
      ∀ qw ∈ leavesV k v, ∀ s ∈ qw.1, goodKey s = true)
    (fun fs => goodF fs = true →
      ∀ qw ∈ leavesF fs, ∀ s ∈ qw.1, goodKey s = true)
  · intro k cs ih hk hg qw hqw s hs
    rw [leavesV_obj] at hqw
    obtain ⟨q2, hq2, rfl⟩ := List.mem_map.mp hqw
    rcases List.mem_cons.mp hs with h | h
    · rw [h]
      exact hk
    · exact ih (by simpa [goodV] using hg) q2 hq2 s h
  · intro t k hnotobj hk hg qw hqw s hs
    rw [leavesV_leaf k (by cases t <;> first | rfl | exact absurd rfl (hnotobj _))] at hqw
    rw [List.mem_singleton] at hqw
    rw [hqw] at hs
    rw [List.mem_singleton.mp hs]
    exact hk
  · intro hg qw hqw
    simp [leavesF] at hqw
  · intro k v rest ih1 ih2 hg qw hqw s hs
    simp only [goodF, Bool.and_eq_true] at hg
    rw [leavesF_cons] at hqw
    rcases List.mem_append.mp hqw with h | h
    · exact ih1 hg.1.1 hg.1.2 qw h s hs
    · exact ih2 hg.2 qw h s hs

theorem leavesV_good {k : Key} {v : Json} {qw : List Key × Json}
    (hk : goodKey k = true) (hg : goodV v = true) (h : qw ∈ leavesV k v) :
    ∀ s ∈ qw.1, goodKey s = true := by
  cases v
  case obj cs =>
    rw [leavesV_obj] at h
    obtain ⟨q2, hq2, rfl⟩ := List.mem_map.mp h
    intro s hs
    rcases List.mem_cons.mp hs with h2 | h2
    · rw [h2]
      exact hk
    · exact leaves_good cs (by simpa [goodV] using hg) q2 hq2 s h2
  all_goals
    rw [leavesV_leaf k (by simp [Json.isPlainObject])] at h
    rw [List.mem_singleton] at h
    intro s hs
    rw [h] at hs
    rw [List.mem_singleton.mp hs]
    exact hk

/-- The entries flattenValue contributes for value v at dotted path
p. -/
def leavesAt (v : Json) (p : List Char) : Fields :=
  match v with
  | .obj cs => (leavesF cs).map (fun qw => (preJoin p qw.1, qw.2))
  | _ => [(p, v)]

theorem leavesAt_obj (cs : Fields) (p : List Char) :
    leavesAt (.obj cs) p = (leavesF cs).map (fun qw => (preJoin p qw.1, qw.2)) := rfl

theorem leavesAt_leaf {v : Json} (h : v.isPlainObject = false) (p : List Char) :
    leavesAt v p = [(p, v)] := by
  cases v <;> first | rfl | simp [Json.isPlainObject] at h

theorem leavesV_mapped (k : Key) (v : Json) (pre : List Char) (hk : goodKey k = true) :
    (leavesV k v).map (fun qw => (preJoin pre qw.1, qw.2))
      = leavesAt v (propertyPath pre k) := by
  cases v
  case obj cs =>
    rw [leavesV_obj, leavesAt, List.map_map]
    apply List.map_congr_left
    intro q2 hq2
    simp only [Function.comp_apply]
    rw [preJoin_assoc (ne_nil_of_goodKey hk) (leaves_ne_nil cs q2 hq2)]
  all_goals
    rw [leavesV_leaf k (by simp [Json.isPlainObject]),
      leavesAt_leaf (by simp [Json.isPlainObject])]
    simp only [List.map_cons, List.map_nil]
    rw [propertyPath_eq_preJoin]

/-- The main flattening correspondence: for a good well-formed
document whose (dot-joined) leaf paths do not collide with the
accumulator, flattenObject appends exactly the dot-joined leaf view to
the accumulator. -/
theorem flattenObject_eq : ∀ fs : Fields, ∀ pre : List Char, ∀ acc : Fields,
    goodF fs = true → wfF fs = true →
    (∀ qw ∈ leavesF fs, hasKeyF acc (preJoin pre qw.1) = false) →
    flattenObject fs pre acc
      = acc ++ (leavesF fs).map (fun qw => (preJoin pre qw.1, qw.2)) := by
  apply @flattenObject.induct
    (fun v p acc => p ≠ "__proto__".toList → goodV v = true → wfV v = true →
      (∀ e ∈ leavesAt v p, hasKeyF acc e.1 = false) →
      flattenValue v p acc = acc ++ leavesAt v p)
    (fun fs pre acc => goodF fs = true → wfF fs = true →
      (∀ qw ∈ leavesF fs, hasKeyF acc (preJoin pre qw.1) = false) →
      flattenObject fs pre acc
        = acc ++ (leavesF fs).map (fun qw => (preJoin pre qw.1, qw.2)))
  · -- flattenValue, object case
    intro cs p acc ih hp hg hw hdisj
    rw [show flattenValue (.obj cs) p acc = flattenObject cs p acc from rfl]
    rw [ih (by simpa [goodV] using hg) (by simpa [wfV] using hw)
      (fun qw hqw => hdisj _ (by rw [leavesAt_obj]; exact List.mem_map.mpr ⟨qw, hqw, rfl⟩))]
    rw [leavesAt_obj]
  · -- flattenValue, leaf case
    intro v p acc hnotobj hp hg hw hdisj
    have hleavesAt : leavesAt v p = [(p, v)] :=
      leavesAt_leaf (by cases v <;> first | rfl | exact absurd rfl (hnotobj _)) p
    have hstep : flattenValue v p acc = setKeyF acc p v := by
      cases v <;> first | rfl | exact absurd rfl (hnotobj _)
    rw [hstep, hleavesAt,
      setKeyF_of_not_has (hdisj (p, v) (by rw [hleavesAt]; exact List.mem_singleton.mpr rfl))
      hp]
  · -- flattenObject, nil case
    intro pre acc hg hw hdisj
    simp [flattenObject, leavesF]
  · -- flattenObject, cons case
    intro k v rest pre acc ih1 ih2 hg hw hdisj
    simp only [goodF, Bool.and_eq_true] at hg
    simp only [wfF, Bool.and_eq_true, Bool.not_eq_true'] at hw
    have hdisjV : ∀ e ∈ leavesAt v (propertyPath pre k), hasKeyF acc e.1 = false := by
      intro e he
      rw [← leavesV_mapped k v pre hg.1.1] at he
      obtain ⟨qw, hqw, rfl⟩ := List.mem_map.mp he
      exact hdisj qw (by rw [leavesF_cons]; exact List.mem_append_left _ hqw)
    have e1 : flattenValue v (propertyPath pre k) acc
        = acc ++ leavesAt v (propertyPath pre k) :=
      ih1 (propertyPath_ne_proto hg.1.1 pre) hg.1.2 hw.1.2 hdisjV
    have hdisj2 : ∀ qw ∈ leavesF rest,
        hasKeyF (acc ++ leavesAt v (propertyPath pre k)) (preJoin pre qw.1) = false := by
      intro qw hqw
      rw [hasKeyF_append, Bool.or_eq_false_iff]
      refine ⟨hdisj qw (by rw [leavesF_cons]; exact List.mem_append_right _ hqw), ?_⟩
      by_contra hcon
      rw [Bool.not_eq_false] at hcon
      obtain ⟨w, hwmem⟩ := hasKeyF_iff_exists.mp hcon
      rw [← leavesV_mapped k v pre hg.1.1] at hwmem
      obtain ⟨qw2, hqw2, heq⟩ := List.mem_map.mp hwmem
      injection heq with heq1 heq2
      obtain ⟨tl, htl⟩ := leavesV_head hqw2
      have hkeys : qw.1 = qw2.1 :=
        preJoin_inj (leaves_ne_nil rest qw hqw) (by rw [htl]; simp)
          (fun s hsm => dotFree_of_goodKey (leaves_good rest hg.2 qw hqw s hsm))
          (fun s hsm => dotFree_of_goodKey (leavesV_good hg.1.1 hg.1.2 hqw2 s hsm))
          heq1.symm
      obtain ⟨hd2, tl2, htl2, hk2⟩ := leaves_headKey hqw
      rw [htl2, htl] at hkeys
      injection hkeys with hkeq htleq
      rw [hkeq] at hk2
      rw [hk2] at hw
      exact absurd hw.1.1 (by simp)
    rw [show flattenObject ((k, v) :: rest) pre acc
      = flattenObject rest pre (flattenValue v (propertyPath pre k) acc) from rfl]
    rw [e1] at ih2 ⊢
    rw [ih2 hg.2 hw.2 hdisj2, leavesF_cons, List.map_append,
      leavesV_mapped k v pre hg.1.1, List.append_assoc]

theorem containsK_iff {K : List (List Char)} {s : List Char} :
    K.contains s = true ↔ s ∈ K :=
  show K.elem s = true ↔ s ∈ K from List.elem_iff

theorem filter_map_comm {α β : Type} {l : List α} {f : α → β} {p : β → Bool} {q : α → Bool}
    (h : ∀ a ∈ l, p (f a) = q a) : (l.map f).filter p = (l.filter q).map f := by
  induction l with
  | nil => rfl
  | cons a t ih =>
    rw [List.map_cons, List.filter_cons, List.filter_cons,
      h a (List.mem_cons_self a t), ih (fun x hx => h x (List.mem_cons_of_mem a hx))]
    by_cases hq : q a
    · rw [hq]
      simp
    · rw [Bool.not_eq_true] at hq
      rw [hq]
      simp

theorem wfF_keys_nodup : ∀ fs : Fields, wfF fs = true → (fs.map Prod.fst).Nodup := by
  intro fs h
  induction fs with
  | nil => simp
  | cons p rest ih =>
    obtain ⟨k, v⟩ := p
    simp only [wfF, Bool.and_eq_true, Bool.not_eq_true'] at h
    rw [List.map_cons, List.nodup_cons]
    refine ⟨fun hmem => ?_, ih h.2⟩
    obtain ⟨⟨k2, v2⟩, hm, he⟩ := List.mem_map.mp hmem
    have : hasKeyF rest k = true :=
      hasKeyF_iff_exists.mpr ⟨v2, by rw [show k2 = k from he]  at hm; exact hm⟩
    rw [h.1.1] at this
    exact Bool.false_ne_true this

/-- The flat index of a good well-formed document is exactly the
dot-joined leaf view. -/
theorem flattenObject_full (fs : Fields) (hg : goodF fs = true) (hw : wfF fs = true) :
    flattenObject fs [] [] = (leavesF fs).map (fun qw => (joinDot qw.1, qw.2)) := by
  rw [flattenObject_eq fs [] [] hg hw (fun qw hqw => rfl)]
  rw [List.nil_append]
  apply List.map_congr_left
  intro qw hqw
  rw [show preJoin [] qw.1 = joinDot qw.1 from rfl]

theorem flattenedKeysOf_eq (fs : Fields) (hg : goodF fs = true) (hw : wfF fs = true) :
    flattenedKeysOf fs = (leafPaths fs).map joinDot := by
  rw [flattenedKeysOf, flattenObject_full fs hg hw, List.map_map, leafPaths, List.map_map]
  rfl

theorem mem_flattenedKeysOf {fs : Fields} (hg : goodF fs = true) (hw : wfF fs = true)
    {s : List Char} :
    s ∈ flattenedKeysOf fs ↔ ∃ q ∈ leafPaths fs, s = joinDot q := by
  rw [flattenedKeysOf_eq fs hg hw]
  constructor
  · intro h
    obtain ⟨q, hq, rfl⟩ := List.mem_map.mp h
    exact ⟨q, hq, rfl⟩
  · rintro ⟨q, hq, rfl⟩
    exact List.mem_map.mpr ⟨q, hq, rfl⟩

/-! ## Leaf paths versus getPath -/

theorem leaves_not_obj : ∀ fs : Fields, ∀ qw ∈ leavesF fs, qw.2.isPlainObject = false := by
  apply @leavesF.induct
    (fun k v => ∀ qw ∈ leavesV k v, qw.2.isPlainObject = false)
    (fun fs => ∀ qw ∈ leavesF fs, qw.2.isPlainObject = false)
  · intro k cs ih qw hqw
    rw [leavesV_obj] at hqw
    obtain ⟨q2, hq2, rfl⟩ := List.mem_map.mp hqw
    exact ih q2 hq2
  · intro t k hnotobj qw hqw
    have ht : t.isPlainObject = false := by
      cases t <;> first | rfl | exact absurd rfl (hnotobj _)
    rw [leavesV_leaf k ht, List.mem_singleton] at hqw
    rw [hqw]
    exact ht
  · intro qw hqw
    simp [leavesF] at hqw
  · intro k v rest ih1 ih2 qw hqw
    rw [leavesF_cons] at hqw
    rcases List.mem_append.mp hqw with h | h
    · exact ih1 qw h
    · exact ih2 qw h

theorem leavesF_mem_cons_of_obj {fs : Fields} {k : Key} {cs : Fields}
    (hmem : (k, Json.obj cs) ∈ fs) {qw : List Key × Json} (h : qw ∈ leavesF cs) :
    (k :: qw.1, qw.2) ∈ leavesF fs := by
  induction fs with
  | nil => simp at hmem
  | cons p rest ih =>
    rw [leavesF_cons]
    rcases List.mem_cons.mp hmem with h2 | h2
    · rw [← h2, leavesV_obj]
      exact List.mem_append_left _ (List.mem_map.mpr ⟨qw, h, rfl⟩)
    · exact List.mem_append_right _ (ih h2)

theorem leavesF_mem_of_leaf {fs : Fields} {k : Key} {v : Json}
    (hmem : (k, v) ∈ fs) (hv : v.isPlainObject = false) : ([k], v) ∈ leavesF fs := by
  induction fs with
  | nil => simp at hmem
  | cons p rest ih =>
    rw [leavesF_cons]
    rcases List.mem_cons.mp hmem with h2 | h2
    · rw [← h2, leavesV_leaf k hv]
      exact List.mem_append_left _ (List.mem_singleton.mpr rfl)
    · exact List.mem_append_right _ (ih h2)

/-- A leaf entry of the leaf view is reachable by getPath. -/
theorem getPath_of_leaves : ∀ fs : Fields, wfF fs = true →
    ∀ qw ∈ leavesF fs, getPath (.obj fs) qw.1 = some qw.2 := by
  apply @leavesF.induct
    (fun k v => wfV v = true →
      ∀ qw ∈ leavesV k v, getPath v (qw.1.drop 1) = some qw.2 ∧ ∃ tl, qw.1 = k :: tl)
    (fun fs => wfF fs = true →
      ∀ qw ∈ leavesF fs, getPath (.obj fs) qw.1 = some qw.2)
  · intro k cs ih hw qw hqw
    rw [leavesV_obj] at hqw
    obtain ⟨q2, hq2, rfl⟩ := List.mem_map.mp hqw
    refine ⟨?_, q2.1, rfl⟩
    simp only [List.drop_one, List.tail_cons]
    exact ih (by simpa [wfV] using hw) q2 hq2
  · intro t k hnotobj hw qw hqw
    have ht : t.isPlainObject = false := by
      cases t <;> first | rfl | exact absurd rfl (hnotobj _)
    rw [leavesV_leaf k ht, List.mem_singleton] at hqw
    rw [hqw]
    exact ⟨by simp [getPath], [], rfl⟩
  · intro hw qw hqw
    simp [leavesF] at hqw
  · intro k v rest ih1 ih2 hw qw hqw
    simp only [wfF, Bool.and_eq_true, Bool.not_eq_true'] at hw
    rw [leavesF_cons] at hqw
    rcases List.mem_append.mp hqw with h | h
    · obtain ⟨hdrop, tl, htl⟩ := ih1 hw.1.2 qw h
      rw [htl]
      rw [show getPath (.obj ((k, v) :: rest)) (k :: tl)
        = (match lookupF ((k, v) :: rest) k with
          | some v2 => getPath v2 tl
          | none => none) from rfl]
      rw [lookupF_cons, if_pos rfl]
      rw [htl] at hdrop
      simpa using hdrop
    · obtain ⟨hd, tl, htl, hk⟩ := leaves_headKey h
      have hne : k ≠ hd := by
        intro he
        rw [← he] at hk
        rw [hw.1.1] at hk
        exact Bool.false_ne_true hk
      rw [htl]
      rw [show getPath (.obj ((k, v) :: rest)) (hd :: tl)
        = (match lookupF ((k, v) :: rest) hd with
          | some v2 => getPath v2 tl
          | none => none) from rfl]
      rw [lookupF_cons, if_neg hne]
      have := ih2 hw.2 qw h
      rw [htl] at this
      exact this

/-- Conversely: a non-object value reached by getPath is a leaf
entry. -/
theorem leaves_of_getPath : ∀ q : List Key, ∀ fs : Fields, ∀ v : Json,
    getPath (.obj fs) q = some v → v.isPlainObject = false → (q, v) ∈ leavesF fs := by
  intro q
  induction q with
  | nil =>
    intro fs v h hv
    injection h with h
    rw [← h] at hv
    simp [Json.isPlainObject] at hv
  | cons s q2 ih =>
    intro fs v h hv
    rw [show getPath (.obj fs) (s :: q2)
      = (match lookupF fs s with
        | some v2 => getPath v2 q2
        | none => none) from rfl] at h
    cases hl : lookupF fs s with
    | none => rw [hl] at h; exact absurd h (by simp)
    | some v2 =>
      rw [hl] at h
      cases q2 with
      | nil =>
        have h2 : v2 = v := by simpa [getPath] using h
        rw [← h2]
        rw [← h2] at hv
        exact leavesF_mem_of_leaf (mem_of_lookupF hl) hv
      | cons s2 q3 =>
        cases v2 with
        | obj cs =>
          exact leavesF_mem_cons_of_obj (mem_of_lookupF hl) (ih cs v h hv)
        | str s3 => simp [getPath] at h
        | num n => simp [getPath] at h
        | bool b => simp [getPath] at h
        | null => simp [getPath] at h
        | arr es => simp [getPath] at h

theorem leafPaths_nodup : ∀ fs : Fields, wfF fs = true → (leafPaths fs).Nodup := by
  apply @leavesF.induct
    (fun k v => wfV v = true → ((leavesV k v).map (fun qw => qw.1)).Nodup)
    (fun fs => wfF fs = true → (leafPaths fs).Nodup)
  · intro k cs ih hw
    rw [leavesV_obj, List.map_map]
    have : ((fun (qw : List Key × Json) => qw.1) ∘ fun q => (k :: q.1, q.2))
        = fun (q : List Key × Json) => k :: q.1 := rfl
    rw [this]
    have h2 : (fun (q : List Key × Json) => k :: q.1)
        = (fun t => k :: t) ∘ (fun (q : List Key × Json) => q.1) := rfl
    rw [h2, ← List.map_map]
    exact (ih (by simpa [wfV] using hw)).map (fun a b hab => by injection hab)
  · intro t k hnotobj hw
    rw [leavesV_leaf k (by cases t <;> first | rfl | exact absurd rfl (hnotobj _))]
    simp
  · intro hw
    simp [leafPaths, leavesF]
  · intro k v rest ih1 ih2 hw
    simp only [wfF, Bool.and_eq_true, Bool.not_eq_true'] at hw
    rw [leafPaths, leavesF_cons, List.map_append]
    apply List.Nodup.append (ih1 hw.1.2) (ih2 hw.2)
    intro p hp1 hp2
    obtain ⟨qw1, hqw1, rfl⟩ := List.mem_map.mp hp1
    obtain ⟨tl, htl⟩ := leavesV_head hqw1
    obtain ⟨qw2, hqw2, heq⟩ := List.mem_map.mp hp2
    obtain ⟨hd, tl2, htl2, hk2⟩ := leaves_headKey hqw2
    rw [htl] at heq
    rw [htl2] at heq
    injection heq.symm with he1 he2
    rw [← he1] at hk2
    rw [hw.1.1] at hk2
    exact Bool.false_ne_true hk2

/-- Leaf paths of a well-formed document are pairwise non-prefix: no
leaf path is a proper prefix of another. -/
theorem leafPaths_noPre : ∀ fs : Fields, wfF fs = true →
    ∀ q1 ∈ leafPaths fs, ∀ q2 ∈ leafPaths fs, q1 <+: q2 → q1 = q2 := by
  apply @leavesF.induct
    (fun k v => wfV v = true →
      ∀ q1 ∈ (leavesV k v).map (fun qw => qw.1), ∀ q2 ∈ (leavesV k v).map (fun qw => qw.1),
        q1 <+: q2 → q1 = q2)
    (fun fs => wfF fs = true →
      ∀ q1 ∈ leafPaths fs, ∀ q2 ∈ leafPaths fs, q1 <+: q2 → q1 = q2)
  · intro k cs ih hw q1 h1 q2 h2 hpre
    obtain ⟨qw1, hqw1, rfl⟩ := List.mem_map.mp h1
    obtain ⟨qw2, hqw2, rfl⟩ := List.mem_map.mp h2
    rw [leavesV_obj] at hqw1 hqw2
    obtain ⟨p1, hp1, rfl⟩ := List.mem_map.mp hqw1
    obtain ⟨p2, hp2, rfl⟩ := List.mem_map.mp hqw2
    simp only at hpre ⊢
    rw [List.cons_prefix_cons] at hpre
    rw [ih (by simpa [wfV] using hw) p1.1 (List.mem_map.mpr ⟨p1, hp1, rfl⟩)
      p2.1 (List.mem_map.mpr ⟨p2, hp2, rfl⟩) hpre.2]
  · intro t k hnotobj hw q1 h1 q2 h2 hpre
    rw [leavesV_leaf k (by cases t <;> first | rfl | exact absurd rfl (hnotobj _))]
      at h1 h2
    simp only [List.map_cons, List.map_nil, List.mem_singleton] at h1 h2
    rw [h1, h2]
  · intro hw q1 h1
    simp [leafPaths, leavesF] at h1
  · intro k v rest ih1 ih2 hw q1 h1 q2 h2 hpre
    simp only [wfF, Bool.and_eq_true, Bool.not_eq_true'] at hw
    rw [leafPaths, leavesF_cons, List.map_append] at h1 h2
    have hhead : ∀ p ∈ (leavesV k v).map (fun qw => qw.1), ∃ tl, p = k :: tl := by
      intro p hp
      obtain ⟨qw, hqw, rfl⟩ := List.mem_map.mp hp
      exact leavesV_head hqw
    have hrest : ∀ p ∈ (leavesF rest).map (fun qw => qw.1),
        ∃ hd tl, p = hd :: tl ∧ hasKeyF rest hd = true := by
      intro p hp
      obtain ⟨qw, hqw, rfl⟩ := List.mem_map.mp hp
      exact leaves_headKey hqw
    rcases List.mem_append.mp h1 with ha | ha <;> rcases List.mem_append.mp h2 with hb | hb
    · exact ih1 hw.1.2 q1 ha q2 hb hpre
    · obtain ⟨tl1, rfl⟩ := hhead q1 ha
      obtain ⟨hd2, tl2, rfl, hk2⟩ := hrest q2 hb
      rw [List.cons_prefix_cons] at hpre
      rw [← hpre.1] at hk2
      rw [hw.1.1] at hk2
      exact absurd hk2 (by simp)
    · obtain ⟨hd1, tl1, rfl, hk1⟩ := hrest q1 ha
      obtain ⟨tl2, rfl⟩ := hhead q2 hb
      rw [List.cons_prefix_cons] at hpre
      rw [hpre.1] at hk1
      rw [hw.1.1] at hk1
      exact absurd hk1 (by simp)
    · exact ih2 hw.2 q1 ha q2 hb hpre

/-! ## The Pruner: equations and key facts -/

theorem removeKeys_nil (K : List (List Char)) : removeKeysFromObject [] K = [] := rfl

theorem removeKeys_cons_drop {k : Key} {v : Json} {rest : Fields} {K : List (List Char)}
    (h : K.contains k = true) :
    removeKeysFromObject ((k, v) :: rest) K = removeKeysFromObject rest K := by
  simp only [removeKeysFromObject]
  rw [if_pos h]

theorem removeKeys_cons_rec {k : Key} {cs : Fields} {rest : Fields} {K : List (List Char)}
    (hnc : K.contains k = false)
    (hnest : (K.any fun s => (k ++ ['.']).isPrefixOf s) = true) :
    removeKeysFromObject ((k, .obj cs) :: rest) K =
      (if (removeKeysFromObject cs (nestedKeysToRemove K k)).length > 0 then
        (if k = "__proto__".toList then removeKeysFromObject rest K
        else (k, .obj (removeKeysFromObject cs (nestedKeysToRemove K k)))
          :: removeKeysFromObject rest K)
      else removeKeysFromObject rest K) := by
  simp only [removeKeysFromObject]
  rw [if_neg (by rw [hnc]; exact Bool.false_ne_true)]
  rw [if_pos (by rw [hnest, Json.isPlainObject]; rfl)]
  rfl

theorem removeKeys_cons_keep_nonest {k : Key} {v : Json} {rest : Fields}
    {K : List (List Char)} (hnc : K.contains k = false)
    (hnest : (K.any fun s => (k ++ ['.']).isPrefixOf s) = false)
    (hkp : k ≠ "__proto__".toList) :
    removeKeysFromObject ((k, v) :: rest) K = (k, v) :: removeKeysFromObject rest K := by
  have hshould : (K.any fun s => s == k || (k ++ ['.']).isPrefixOf s) = false := by
    rw [Bool.eq_false_iff]
    intro hany
    obtain ⟨s, hs, hp⟩ := List.any_eq_true.mp hany
    rcases Bool.or_eq_true _ _ |>.mp hp with h2 | h2
    · have hsk : s = k := by simpa using h2
      have hk2 : K.contains k = true := containsK_iff.mpr (hsk ▸ hs)
      rw [hnc] at hk2
      exact Bool.false_ne_true hk2
    · have hany2 : (K.any fun s => (k ++ ['.']).isPrefixOf s) = true :=
        List.any_eq_true.mpr ⟨s, hs, h2⟩
      rw [hnest] at hany2
      exact Bool.false_ne_true hany2
  simp only [removeKeysFromObject]
  rw [if_neg (by rw [hnc]; exact Bool.false_ne_true)]
  rw [if_neg (by rw [hnest, Bool.and_false]; exact Bool.false_ne_true)]
  rw [if_pos (by rw [hshould, hnest]; rfl)]
  rw [if_neg hkp]

theorem removeKeys_cons_keep_leaf {k : Key} {v : Json} {rest : Fields}
    {K : List (List Char)} (hv : v.isPlainObject = false) (hnc : K.contains k = false)
    (hnest : (K.any fun s => (k ++ ['.']).isPrefixOf s) = true)
    (hkp : k ≠ "__proto__".toList) :
    removeKeysFromObject ((k, v) :: rest) K = (k, v) :: removeKeysFromObject rest K := by
  simp only [removeKeysFromObject]
  rw [if_neg (by rw [hnc]; exact Bool.false_ne_true)]
  rw [if_neg (by rw [hv, Bool.false_and]; exact Bool.false_ne_true)]
  rw [if_pos (by rw [hnest, Bool.or_true])]
  rw [if_neg hkp]

/-- A kept "__proto__" binding is swallowed by result[key] = value in
either kept branch: the rebuilt object omits it entirely. -/
theorem removeKeys_cons_proto {v : Json} {rest : Fields} {K : List (List Char)}
    (hnc : K.contains "__proto__".toList = false) :
    removeKeysFromObject (("__proto__".toList, v) :: rest) K
      = removeKeysFromObject rest K := by
  simp only [removeKeysFromObject]
  rw [if_neg (by rw [hnc]; exact Bool.false_ne_true)]
  split
  · split
    · rw [if_pos trivial]
    · rfl
  · split
    · rw [if_pos trivial]
    · rfl

theorem getPath_cons (fs : Fields) (s : Key) (rest : List Key) :
    getPath (.obj fs) (s :: rest) = match lookupF fs s with
      | some v2 => getPath v2 rest
      | none => none := rfl

theorem bool_eq_of_iff {a b : Bool} (h : a = true ↔ b = true) : a = b := by
  cases a <;> cases b <;> simp_all

/-- No element of K is the dotted path of a plain-object position in
the document: the condition under which the script's pruning is exact.
It holds for the extraneous-key lists the script computes, whose
elements are always leaf paths. -/
def noBranchNamed (fs : Fields) (K : List (List Char)) : Prop :=
  ∀ s ∈ K, ∀ cs : Fields, getPath (.obj fs) (splitDot s) ≠ some (.obj cs)

theorem noBranchNamed_tail {k : Key} {v : Json} {rest : Fields} {K : List (List Char)}
    (hk : hasKeyF rest k = false) (h : noBranchNamed ((k, v) :: rest) K) :
    noBranchNamed rest K := by
  intro s hs cs hcon
  apply h s hs cs
  cases hsp : splitDot s with
  | nil => exact absurd hsp (splitDot_ne_nil s)
  | cons s1 srest =>
    rw [hsp] at hcon
    rw [getPath_cons] at hcon
    rw [getPath_cons]
    cases hl : lookupF rest s1 with
    | none =>
      rw [hl] at hcon
      simp at hcon
    | some v2 =>
      rw [hl] at hcon
      have hs1 : s1 ≠ k := by
        intro he
        have h2 : hasKeyF rest s1 = true := lookupF_isSome_iff.mp (by rw [hl]; rfl)
        rw [he, hk] at h2
        exact Bool.false_ne_true h2
      rw [lookupF_cons, if_neg (fun he : k = s1 => hs1 he.symm), hl]
      exact hcon

theorem noBranchNamed_nested {fs : Fields} {K : List (List Char)} {k : Key} {cs : Fields}
    (hgk : goodKey k = true) (hl : lookupF fs k = some (.obj cs))
    (h : noBranchNamed fs K) : noBranchNamed cs (nestedKeysToRemove K k) := by
  intro s2 hs2 cs2 hcon
  have hsK : (k ++ '.' :: s2) ∈ K := mem_nestedKeysToRemove.mp hs2
  apply h _ hsK cs2
  rw [splitDot_append _ _ (dotFree_of_goodKey hgk), getPath_cons, hl]
  exact hcon

theorem head_not_obj_of_noBranchNamed {k : Key} {v : Json} {rest : Fields}
    {K : List (List Char)} (hgk : goodKey k = true) (hmem : k ∈ K)
    (h : noBranchNamed ((k, v) :: rest) K) : v.isPlainObject = false := by
  cases v
  case obj cs =>
    exfalso
    apply h k hmem cs
    rw [splitDot_dotFree _ (dotFree_of_goodKey hgk), getPath_cons, lookupF_cons, if_pos rfl]
    rfl
  all_goals rfl

theorem sizeOf_cons_rest {k : Key} {v : Json} {rest : Fields} :
    sizeOf rest < sizeOf ((k, v) :: rest) := by
  simp only [List.cons.sizeOf_spec, Prod.mk.sizeOf_spec]
  omega

theorem sizeOf_cons_obj {k : Key} {cs : Fields} {rest : Fields} :
    sizeOf cs < sizeOf ((k, Json.obj cs) :: rest) := by
  simp only [List.cons.sizeOf_spec, Prod.mk.sizeOf_spec, Json.obj.sizeOf_spec]
  omega

theorem leaves_removeKeys_aux : ∀ n : Nat, ∀ fs : Fields, ∀ K : List (List Char),
    sizeOf fs ≤ n → goodF fs = true → wfF fs = true → noBranchNamed fs K →
    leavesF (removeKeysFromObject fs K)
      = (leavesF fs).filter (fun qw => !(K.contains (joinDot qw.1))) := by
  intro n
  induction n with
  | zero =>
    intro fs K hsz
    cases fs with
    | nil => intro _ _ _; rfl
    | cons p rest =>
      exfalso
      have := @sizeOf_cons_rest p.1 p.2 rest
      simp only [List.cons.sizeOf_spec] at hsz
      omega
  | succ n ih =>
    intro fs K hsz hg hw hnb
    cases fs with
    | nil => rfl
    | cons p rest =>
      obtain ⟨k, v⟩ := p
      simp only [goodF, Bool.and_eq_true] at hg
      simp only [wfF, Bool.and_eq_true, Bool.not_eq_true'] at hw
      have hszr : sizeOf rest ≤ n := by
        have := @sizeOf_cons_rest k v rest
        omega
      have ihrest := ih rest K hszr hg.2 hw.2 (noBranchNamed_tail hw.1.1 hnb)
      by_cases hcont : K.contains k = true
      · -- exact-match drop: the binding must be a leaf
        have hv : v.isPlainObject = false :=
          head_not_obj_of_noBranchNamed hg.1.1 (containsK_iff.mp hcont) hnb
        rw [removeKeys_cons_drop hcont, ihrest, leavesF_cons, List.filter_append,
          leavesV_leaf k hv]
        rw [show List.filter (fun qw => !(K.contains (joinDot qw.1))) [([k], v)] = [] by
          simp only [List.filter_cons, List.filter_nil]
          rw [show joinDot [k] = k from rfl, hcont]
          rfl]
        rw [List.nil_append]
      · have hnc : K.contains k = false := by rwa [Bool.not_eq_true] at hcont
        have hkmem : ∀ qw ∈ leavesV k v,
            (!(K.contains (joinDot qw.1))) = true ∨
              ((K.any fun s => (k ++ ['.']).isPrefixOf s) = true ∧ v.isPlainObject = true) := by
          intro qw hqw
          by_cases hobj : v.isPlainObject = true
          · by_cases hnest : (K.any fun s => (k ++ ['.']).isPrefixOf s) = true
            · exact Or.inr ⟨hnest, hobj⟩
            · left
              obtain ⟨cs, rfl⟩ : ∃ cs, v = .obj cs := by
                cases v <;> first | exact ⟨_, rfl⟩ | simp [Json.isPlainObject] at hobj
              rw [leavesV_obj] at hqw
              obtain ⟨q2, hq2, rfl⟩ := List.mem_map.mp hqw
              simp only [Bool.not_eq_true']
              rw [Bool.eq_false_iff]
              intro hcon3
              apply hnest
              refine List.any_eq_true.mpr ⟨joinDot (k :: q2.1), containsK_iff.mp hcon3, ?_⟩
              rw [joinDot_cons _ _ (leaves_ne_nil cs q2 hq2), List.isPrefixOf_iff_prefix,
                List.append_cons k '.' (joinDot q2.1)]
              exact ⟨joinDot q2.1, rfl⟩
          · left
            rw [Bool.not_eq_true] at hobj
            rw [leavesV_leaf k hobj, List.mem_singleton] at hqw
            rw [hqw]
            simp only [Bool.not_eq_true']
            rw [show joinDot [k] = k from rfl]
            exact hnc
        by_cases hobj : v.isPlainObject = true
        · obtain ⟨cs, rfl⟩ : ∃ cs, v = .obj cs := by
            cases v <;> first | exact ⟨_, rfl⟩ | simp [Json.isPlainObject] at hobj
          by_cases hnest : (K.any fun s => (k ++ ['.']).isPrefixOf s) = true
          · -- recursive prune
            have hlk : lookupF ((k, .obj cs) :: rest) k = some (.obj cs) := by
              rw [lookupF_cons, if_pos rfl]
            have hszc : sizeOf cs ≤ n := by
              have := @sizeOf_cons_obj k cs rest
              omega
            have ihcs := ih cs (nestedKeysToRemove K k) hszc
              (by simpa [goodV] using hg.1.2) (by simpa [wfV] using hw.1.2)
              (noBranchNamed_nested hg.1.1 hlk hnb)
            have hfilt : List.filter (fun qw => !(K.contains (joinDot qw.1)))
                ((leavesF cs).map (fun q => (k :: q.1, q.2)))
                = (leavesF (removeKeysFromObject cs (nestedKeysToRemove K k))).map
                    (fun q => (k :: q.1, q.2)) := by
              rw [ihcs]
              rw [@filter_map_comm _ _ _ _ _
                (fun qw => !((nestedKeysToRemove K k).contains (joinDot qw.1)))]
              intro qw hqw
              apply congrArg
              apply bool_eq_of_iff
              rw [containsK_iff, containsK_iff, joinDot_cons _ _ (leaves_ne_nil cs qw hqw),
                mem_nestedKeysToRemove]
            rw [removeKeys_cons_rec hnc hnest]
            by_cases hlen : (removeKeysFromObject cs (nestedKeysToRemove K k)).length > 0
            · rw [if_pos hlen, if_neg (ne_proto_of_goodKey hg.1.1), leavesF_cons,
                leavesF_cons, List.filter_append, leavesV_obj,
                leavesV_obj, ihrest, hfilt]
            · rw [if_neg hlen]
              have hclempty : removeKeysFromObject cs (nestedKeysToRemove K k) = [] := by
                cases hce : removeKeysFromObject cs (nestedKeysToRemove K k) with
                | nil => rfl
                | cons a t =>
                  exfalso
                  apply hlen
                  rw [hce]
                  simp
              rw [leavesF_cons, List.filter_append, leavesV_obj, ihrest, hfilt, hclempty]
              rw [show leavesF ([] : Fields) = [] from rfl, List.map_nil, List.nil_append]
          · -- object kept untouched
            rw [removeKeys_cons_keep_nonest hnc (by rwa [Bool.not_eq_true] at hnest)
              (ne_proto_of_goodKey hg.1.1)]
            rw [leavesF_cons, leavesF_cons, List.filter_append, ihrest]
            congr 1
            symm
            rw [List.filter_eq_self]
            intro qw hqw
            rcases hkmem qw hqw with h2 | h2
            · exact h2
            · exact absurd h2.1 hnest
        · -- leaf kept
          rw [Bool.not_eq_true] at hobj
          have hkeep : removeKeysFromObject ((k, v) :: rest) K
              = (k, v) :: removeKeysFromObject rest K := by
            by_cases hnest : (K.any fun s => (k ++ ['.']).isPrefixOf s) = true
            · exact removeKeys_cons_keep_leaf hobj hnc hnest (ne_proto_of_goodKey hg.1.1)
            · exact removeKeys_cons_keep_nonest hnc (by rwa [Bool.not_eq_true] at hnest)
                (ne_proto_of_goodKey hg.1.1)
          rw [hkeep, leavesF_cons, leavesF_cons, List.filter_append, ihrest]
          congr 1
          symm
          rw [List.filter_eq_self]
          intro qw hqw
          rcases hkmem qw hqw with h2 | h2
          · exact h2
          · rw [hobj] at h2
            exact absurd h2.2 (by simp)

/-- Pruning is exact on the leaf view for a good well-formed document
when the removal list names no branch position (true of the script's
extraneous-key lists).  Without that condition the script drops whole
subtrees on dotted-key collisions, which the counterexamples
exercise. -/
theorem leaves_removeKeys (fs : Fields) (K : List (List Char))
    (hg : goodF fs = true) (hw : wfF fs = true) (hnb : noBranchNamed fs K) :
    leavesF (removeKeysFromObject fs K)
      = (leavesF fs).filter (fun qw => !(K.contains (joinDot qw.1))) :=
  leaves_removeKeys_aux (sizeOf fs) fs K le_rfl hg hw hnb

/-- Pruning introduces no new top-level keys. -/
theorem hasKeyF_removeKeys {fs : Fields} {K : List (List Char)} {s : Key}
    (h : hasKeyF (removeKeysFromObject fs K) s = true) : hasKeyF fs s = true := by
  induction fs with
  | nil => exact h
  | cons p rest ih =>
    obtain ⟨k, v⟩ := p
    rw [hasKeyF_cons]
    by_cases hcont : K.contains k = true
    · rw [removeKeys_cons_drop hcont] at h
      rw [ih h]
      simp
    · have hnc : K.contains k = false := by rwa [Bool.not_eq_true] at hcont
      by_cases hkp : k = "__proto__".toList
      · subst hkp
        rw [removeKeys_cons_proto hnc] at h
        rw [ih h]
        simp
      by_cases hobj : v.isPlainObject = true
      · obtain ⟨cs, rfl⟩ : ∃ cs, v = .obj cs := by
          cases v <;> first | exact ⟨_, rfl⟩ | simp [Json.isPlainObject] at hobj
        by_cases hnest : (K.any fun s => (k ++ ['.']).isPrefixOf s) = true
        · rw [removeKeys_cons_rec hnc hnest] at h
          by_cases hlen : (removeKeysFromObject cs (nestedKeysToRemove K k)).length > 0
          · rw [if_pos hlen, if_neg hkp, hasKeyF_cons] at h
            rcases Bool.or_eq_true _ _ |>.mp h with h2 | h2
            · rw [h2]
              simp
            · rw [ih h2]
              simp
          · rw [if_neg hlen] at h
            rw [ih h]
            simp
        · rw [removeKeys_cons_keep_nonest hnc (by rwa [Bool.not_eq_true] at hnest) hkp,
            hasKeyF_cons] at h
          rcases Bool.or_eq_true _ _ |>.mp h with h2 | h2
          · rw [h2]
            simp
          · rw [ih h2]
            simp
      · rw [Bool.not_eq_true] at hobj
        have hkeep : removeKeysFromObject ((k, v) :: rest) K
            = (k, v) :: removeKeysFromObject rest K := by
          by_cases hnest : (K.any fun s => (k ++ ['.']).isPrefixOf s) = true
          · exact removeKeys_cons_keep_leaf hobj hnc hnest hkp
          · exact removeKeys_cons_keep_nonest hnc (by rwa [Bool.not_eq_true] at hnest) hkp
        rw [hkeep, hasKeyF_cons] at h
        rcases Bool.or_eq_true _ _ |>.mp h with h2 | h2
        · rw [h2]
          simp
        · rw [ih h2]
          simp

theorem wfF_removeKeys_aux : ∀ n : Nat, ∀ fs : Fields, ∀ K : List (List Char),
    sizeOf fs ≤ n → wfF fs = true → wfF (removeKeysFromObject fs K) = true := by
  intro n
  induction n with
  | zero =>
    intro fs K hsz
    cases fs with
    | nil => intro _; rfl
    | cons p rest =>
      exfalso
      have := @sizeOf_cons_rest p.1 p.2 rest
      simp only [List.cons.sizeOf_spec] at hsz
      omega
  | succ n ih =>
    intro fs K hsz hw
    cases fs with
    | nil => rfl
    | cons p rest =>
      obtain ⟨k, v⟩ := p
      simp only [wfF, Bool.and_eq_true, Bool.not_eq_true'] at hw
      have hszr : sizeOf rest ≤ n := by
        have := @sizeOf_cons_rest k v rest
        omega
      have ihrest := ih rest K hszr hw.2
      have hkr : hasKeyF (removeKeysFromObject rest K) k = false := by
        cases hx : hasKeyF (removeKeysFromObject rest K) k with
        | false => rfl
        | true =>
          exfalso
          have := hasKeyF_removeKeys hx
          rw [hw.1.1] at this
          exact Bool.false_ne_true this
      by_cases hcont : K.contains k = true
      · rw [removeKeys_cons_drop hcont]
        exact ihrest
      · have hnc : K.contains k = false := by rwa [Bool.not_eq_true] at hcont
        by_cases hkp : k = "__proto__".toList
        · subst hkp
          rw [removeKeys_cons_proto hnc]
          exact ihrest
        by_cases hobj : v.isPlainObject = true
        · obtain ⟨cs, rfl⟩ : ∃ cs, v = .obj cs := by
            cases v <;> first | exact ⟨_, rfl⟩ | simp [Json.isPlainObject] at hobj
          by_cases hnest : (K.any fun s => (k ++ ['.']).isPrefixOf s) = true
          · rw [removeKeys_cons_rec hnc hnest]
            by_cases hlen : (removeKeysFromObject cs (nestedKeysToRemove K k)).length > 0
            · rw [if_pos hlen, if_neg hkp]
              have hszc : sizeOf cs ≤ n := by
                have := @sizeOf_cons_obj k cs rest
                omega
              have ihcs := ih cs (nestedKeysToRemove K k) hszc (by simpa [wfV] using hw.1.2)
              simp only [wfF, Bool.and_eq_true, Bool.not_eq_true']
              exact ⟨⟨hkr, by simpa [wfV] using ihcs⟩, ihrest⟩
            · rw [if_neg hlen]
              exact ihrest
          · rw [removeKeys_cons_keep_nonest hnc (by rwa [Bool.not_eq_true] at hnest) hkp]
            simp only [wfF, Bool.and_eq_true, Bool.not_eq_true']
            exact ⟨⟨hkr, hw.1.2⟩, ihrest⟩
        · rw [Bool.not_eq_true] at hobj
          have hkeep : removeKeysFromObject ((k, v) :: rest) K
              = (k, v) :: removeKeysFromObject rest K := by
            by_cases hnest : (K.any fun s => (k ++ ['.']).isPrefixOf s) = true
            · exact removeKeys_cons_keep_leaf hobj hnc hnest hkp
            · exact removeKeys_cons_keep_nonest hnc (by rwa [Bool.not_eq_true] at hnest) hkp
          rw [hkeep]
          simp only [wfF, Bool.and_eq_true, Bool.not_eq_true']
          exact ⟨⟨hkr, hw.1.2⟩, ihrest⟩

theorem wfF_removeKeys {fs : Fields} {K : List (List Char)} (hw : wfF fs = true) :
    wfF (removeKeysFromObject fs K) = true :=
  wfF_removeKeys_aux (sizeOf fs) fs K le_rfl hw

theorem goodF_removeKeys_aux : ∀ n : Nat, ∀ fs : Fields, ∀ K : List (List Char),
    sizeOf fs ≤ n → goodF fs = true → goodF (removeKeysFromObject fs K) = true := by
  intro n
  induction n with
  | zero =>
    intro fs K hsz
    cases fs with
    | nil => intro _; rfl
    | cons p rest =>
      exfalso
      have := @sizeOf_cons_rest p.1 p.2 rest
      simp only [List.cons.sizeOf_spec] at hsz
      omega
  | succ n ih =>
    intro fs K hsz hg
    cases fs with
    | nil => rfl
    | cons p rest =>
      obtain ⟨k, v⟩ := p
      simp only [goodF, Bool.and_eq_true] at hg
      have hszr : sizeOf rest ≤ n := by
        have := @sizeOf_cons_rest k v rest
        omega
      have ihrest := ih rest K hszr hg.2
      have hkp : k ≠ "__proto__".toList := ne_proto_of_goodKey hg.1.1
      by_cases hcont : K.contains k = true
      · rw [removeKeys_cons_drop hcont]
        exact ihrest
      · have hnc : K.contains k = false := by rwa [Bool.not_eq_true] at hcont
        by_cases hobj : v.isPlainObject = true
        · obtain ⟨cs, rfl⟩ : ∃ cs, v = .obj cs := by
            cases v <;> first | exact ⟨_, rfl⟩ | simp [Json.isPlainObject] at hobj
          by_cases hnest : (K.any fun s => (k ++ ['.']).isPrefixOf s) = true
          · rw [removeKeys_cons_rec hnc hnest]
            by_cases hlen : (removeKeysFromObject cs (nestedKeysToRemove K k)).length > 0
            · rw [if_pos hlen, if_neg hkp]
              have hszc : sizeOf cs ≤ n := by
                have := @sizeOf_cons_obj k cs rest
                omega
              have ihcs := ih cs (nestedKeysToRemove K k) hszc (by simpa [goodV] using hg.1.2)
              simp only [goodF, Bool.and_eq_true]
              exact ⟨⟨hg.1.1, by simpa [goodV] using ihcs⟩, ihrest⟩
            · rw [if_neg hlen]
              exact ihrest
          · rw [removeKeys_cons_keep_nonest hnc (by rwa [Bool.not_eq_true] at hnest) hkp]
            simp only [goodF, Bool.and_eq_true]
            exact ⟨⟨hg.1.1, hg.1.2⟩, ihrest⟩
        · rw [Bool.not_eq_true] at hobj
          have hkeep : removeKeysFromObject ((k, v) :: rest) K
              = (k, v) :: removeKeysFromObject rest K := by
            by_cases hnest : (K.any fun s => (k ++ ['.']).isPrefixOf s) = true
            · exact removeKeys_cons_keep_leaf hobj hnc hnest hkp
            · exact removeKeys_cons_keep_nonest hnc (by rwa [Bool.not_eq_true] at hnest) hkp
          rw [hkeep]
          simp only [goodF, Bool.and_eq_true]
          exact ⟨⟨hg.1.1, hg.1.2⟩, ihrest⟩

theorem goodF_removeKeys {fs : Fields} {K : List (List Char)} (hg : goodF fs = true) :
    goodF (removeKeysFromObject fs K) = true :=
  goodF_removeKeys_aux (sizeOf fs) fs K le_rfl hg

theorem noEmptyV_obj_of_ne {cs : Fields} (hne : cs ≠ []) (h : noEmptyF cs = true) :
    noEmptyV (.obj cs) = true := by
  cases cs with
  | nil => exact absurd rfl hne
  | cons a t =>
    rw [show noEmptyV (.obj (a :: t)) = noEmptyF (a :: t) from rfl]
    exact h

theorem noEmptyF_removeKeys_aux : ∀ n : Nat, ∀ fs : Fields, ∀ K : List (List Char),
    sizeOf fs ≤ n → noEmptyF fs = true → noEmptyF (removeKeysFromObject fs K) = true := by
  intro n
  induction n with
  | zero =>
    intro fs K hsz
    cases fs with
    | nil => intro _; rfl
    | cons p rest =>
      exfalso
      have := @sizeOf_cons_rest p.1 p.2 rest
      simp only [List.cons.sizeOf_spec] at hsz
      omega
  | succ n ih =>
    intro fs K hsz hne
    cases fs with
    | nil => rfl
    | cons p rest =>
      obtain ⟨k, v⟩ := p
      simp only [noEmptyF, Bool.and_eq_true] at hne
      have hszr : sizeOf rest ≤ n := by
        have := @sizeOf_cons_rest k v rest
        omega
      have ihrest := ih rest K hszr hne.2
      by_cases hcont : K.contains k = true
      · rw [removeKeys_cons_drop hcont]
        exact ihrest
      · have hnc : K.contains k = false := by rwa [Bool.not_eq_true] at hcont
        by_cases hkp : k = "__proto__".toList
        · subst hkp
          rw [removeKeys_cons_proto hnc]
          exact ihrest
        by_cases hobj : v.isPlainObject = true
        · obtain ⟨cs, rfl⟩ : ∃ cs, v = .obj cs := by
            cases v <;> first | exact ⟨_, rfl⟩ | simp [Json.isPlainObject] at hobj
          by_cases hnest : (K.any fun s => (k ++ ['.']).isPrefixOf s) = true
          · rw [removeKeys_cons_rec hnc hnest]
            by_cases hlen : (removeKeysFromObject cs (nestedKeysToRemove K k)).length > 0
            · rw [if_pos hlen, if_neg hkp]
              have hszc : sizeOf cs ≤ n := by
                have := @sizeOf_cons_obj k cs rest
                omega
              have hnecs : noEmptyF cs = true := by
                cases cs with
                | nil =>
                  exfalso
                  have h2 := hne.1
                  rw [show noEmptyV (.obj ([] : Fields)) = false from rfl] at h2
                  exact Bool.false_ne_true h2
                | cons a t => exact hne.1
              have ihcs := ih cs (nestedKeysToRemove K k) hszc hnecs
              simp only [noEmptyF, Bool.and_eq_true]
              refine ⟨noEmptyV_obj_of_ne ?_ ihcs, ihrest⟩
              intro hnil
              rw [hnil] at hlen
              simp at hlen
            · rw [if_neg hlen]
              exact ihrest
          · rw [removeKeys_cons_keep_nonest hnc (by rwa [Bool.not_eq_true] at hnest) hkp]
            simp only [noEmptyF, Bool.and_eq_true]
            exact ⟨hne.1, ihrest⟩
        · rw [Bool.not_eq_true] at hobj
          have hkeep : removeKeysFromObject ((k, v) :: rest) K
              = (k, v) :: removeKeysFromObject rest K := by
            by_cases hnest : (K.any fun s => (k ++ ['.']).isPrefixOf s) = true
            · exact removeKeys_cons_keep_leaf hobj hnc hnest hkp
            · exact removeKeys_cons_keep_nonest hnc (by rwa [Bool.not_eq_true] at hnest) hkp
          rw [hkeep]
          simp only [noEmptyF, Bool.and_eq_true]
          exact ⟨hne.1, ihrest⟩

theorem noEmptyF_removeKeys {fs : Fields} {K : List (List Char)}
    (h : noEmptyF fs = true) : noEmptyF (removeKeysFromObject fs K) = true :=
  noEmptyF_removeKeys_aux (sizeOf fs) fs K le_rfl h

theorem getPath_cons_none {fs : Fields} {s : Key} (p2 : List Key)
    (h : lookupF fs s = none) : getPath (.obj fs) (s :: p2) = none := by
  rw [getPath_cons, h]

theorem getPath_cons_some {fs : Fields} {s : Key} {v2 : Json} (p2 : List Key)
    (h : lookupF fs s = some v2) : getPath (.obj fs) (s :: p2) = getPath v2 p2 := by
  rw [getPath_cons, h]

theorem getPath_cons_ne {fs : Fields} {k : Key} {v : Json} {s : Key} (p2 : List Key)
    (hne : k ≠ s) :
    getPath (.obj ((k, v) :: fs)) (s :: p2) = getPath (.obj fs) (s :: p2) := by
  rw [getPath_cons, getPath_cons, lookupF_cons, if_neg hne]

/-- Pruning never creates an empty object at a non-root position:
every empty branch of the pruned document was already an empty branch
of the input at the same path. -/
theorem removeKeys_no_new_empty_aux : ∀ n : Nat, ∀ fs : Fields, ∀ K : List (List Char),
    sizeOf fs ≤ n → wfF fs = true → ∀ p : List Key, p ≠ [] →
    getPath (.obj (removeKeysFromObject fs K)) p = some (.obj []) →
    getPath (.obj fs) p = some (.obj []) := by
  intro n
  induction n with
  | zero =>
    intro fs K hsz
    cases fs with
    | nil => intro _ p _ h; exact h
    | cons p rest =>
      exfalso
      have := @sizeOf_cons_rest p.1 p.2 rest
      simp only [List.cons.sizeOf_spec] at hsz
      omega
  | succ n ih =>
    intro fs K hsz hw p hp h
    cases fs with
    | nil => exact h
    | cons pr rest =>
      obtain ⟨k, v⟩ := pr
      simp only [wfF, Bool.and_eq_true, Bool.not_eq_true'] at hw
      have hszr : sizeOf rest ≤ n := by
        have := @sizeOf_cons_rest k v rest
        omega
      cases p with
      | nil => exact absurd rfl hp
      | cons s p2 =>
      have hlift : getPath (.obj (removeKeysFromObject rest K)) (s :: p2) = some (.obj [])
          → getPath (.obj ((k, v) :: rest)) (s :: p2) = some (.obj []) := by
        intro h2
        have hsk : lookupF (removeKeysFromObject rest K) s ≠ none := by
          intro hn
          rw [getPath_cons_none p2 hn] at h2
          exact Option.noConfusion h2
        have hhk : hasKeyF rest s = true := by
          apply @hasKeyF_removeKeys rest K s
          cases hx : lookupF (removeKeysFromObject rest K) s with
          | none => exact absurd hx hsk
          | some v3 => exact lookupF_isSome_iff.mp (by rw [hx]; rfl)
        have hne : k ≠ s := by
          intro he
          rw [← he, hw.1.1] at hhk
          exact Bool.false_ne_true hhk
        have h3 := ih rest K hszr hw.2 (s :: p2) (by simp) h2
        rw [getPath_cons, lookupF_cons, if_neg hne]
        rw [getPath_cons] at h3
        exact h3
      by_cases hcont : K.contains k = true
      · rw [removeKeys_cons_drop hcont] at h
        exact hlift h
      · have hnc : K.contains k = false := by rwa [Bool.not_eq_true] at hcont
        by_cases hkp : k = "__proto__".toList
        · subst hkp
          rw [removeKeys_cons_proto hnc] at h
          exact hlift h
        by_cases hobj : v.isPlainObject = true
        · obtain ⟨cs, rfl⟩ : ∃ cs, v = .obj cs := by
            cases v <;> first | exact ⟨_, rfl⟩ | simp [Json.isPlainObject] at hobj
          by_cases hnest : (K.any fun s2 => (k ++ ['.']).isPrefixOf s2) = true
          · rw [removeKeys_cons_rec hnc hnest] at h
            by_cases hlen : (removeKeysFromObject cs (nestedKeysToRemove K k)).length > 0
            · rw [if_pos hlen, if_neg hkp] at h
              by_cases hsk : s = k
              · subst hsk
                rw [getPath_cons_some p2 (by rw [lookupF_cons, if_pos rfl])] at h
                rw [getPath_cons_some p2 (by rw [lookupF_cons, if_pos rfl])]
                cases p2 with
                | nil =>
                  exfalso
                  injection h with h
                  injection h with h
                  rw [h] at hlen
                  simp at hlen
                | cons s3 p3 =>
                  have hszc : sizeOf cs ≤ n := by
                    have := @sizeOf_cons_obj s cs rest
                    omega
                  exact ih cs (nestedKeysToRemove K s) hszc
                    (by simpa [wfV] using hw.1.2) (s3 :: p3) (by simp) h
              · rw [getPath_cons_ne p2 (fun he : k = s => hsk he.symm)] at h
                exact hlift h
            · rw [if_neg hlen] at h
              exact hlift h
          · rw [removeKeys_cons_keep_nonest hnc (by rwa [Bool.not_eq_true] at hnest) hkp] at h
            by_cases hsk : s = k
            · subst hsk
              rw [getPath_cons_some p2 (by rw [lookupF_cons, if_pos rfl])] at h
              rw [getPath_cons_some p2 (by rw [lookupF_cons, if_pos rfl])]
              exact h
            · rw [getPath_cons_ne p2 (fun he : k = s => hsk he.symm)] at h
              exact hlift h
        · rw [Bool.not_eq_true] at hobj
          have hkeep : removeKeysFromObject ((k, v) :: rest) K
              = (k, v) :: removeKeysFromObject rest K := by
            by_cases hnest : (K.any fun s2 => (k ++ ['.']).isPrefixOf s2) = true
            · exact removeKeys_cons_keep_leaf hobj hnc hnest hkp
            · exact removeKeys_cons_keep_nonest hnc (by rwa [Bool.not_eq_true] at hnest) hkp
          rw [hkeep] at h
          by_cases hsk : s = k
          · subst hsk
            rw [getPath_cons_some p2 (by rw [lookupF_cons, if_pos rfl])] at h
            rw [getPath_cons_some p2 (by rw [lookupF_cons, if_pos rfl])]
            exact h
          · rw [getPath_cons_ne p2 (fun he : k = s => hsk he.symm)] at h
            exact hlift h

theorem removeKeys_no_new_empty {fs : Fields} {K : List (List Char)} (hw : wfF fs = true)
    {p : List Key} (hp : p ≠ [])
    (h : getPath (.obj (removeKeysFromObject fs K)) p = some (.obj [])) :
    getPath (.obj fs) p = some (.obj []) :=
  removeKeys_no_new_empty_aux (sizeOf fs) fs K le_rfl hw p hp h

/-! ## Helpers for the Injector theory -/

theorem leavesF_append (a b : Fields) : leavesF (a ++ b) = leavesF a ++ leavesF b := by
  induction a with
  | nil => rfl
  | cons p rest ih =>
    obtain ⟨k, v⟩ := p
    rw [List.cons_append, leavesF_cons, leavesF_cons, ih, List.append_assoc]

theorem wfF_append_single {fs : Fields} {k : Key} {v : Json} (hw : wfF fs = true)
    (hk : hasKeyF fs k = false) (hv : wfV v = true) : wfF (fs ++ [(k, v)]) = true := by
  induction fs with
  | nil =>
    simp only [List.nil_append, wfF, Bool.and_eq_true, Bool.not_eq_true']
    exact ⟨⟨rfl, hv⟩, trivial⟩
  | cons p rest ih =>
    obtain ⟨k1, v1⟩ := p
    simp only [wfF, Bool.and_eq_true, Bool.not_eq_true'] at hw
    rw [hasKeyF_cons, Bool.or_eq_false_iff] at hk
    have hne : (k == k1) = false := by
      rw [beq_eq_false_iff_ne]
      intro he
      have h1 := hk.1
      rw [beq_eq_false_iff_ne] at h1
      exact h1 he.symm
    rw [List.cons_append]
    simp only [wfF, Bool.and_eq_true, Bool.not_eq_true']
    refine ⟨⟨?_, hw.1.2⟩, ih hw.2 hk.2⟩
    rw [hasKeyF_append, hw.1.1, Bool.false_or]
    rw [show hasKeyF [(k, v)] k1 = (k == k1) by simp [hasKeyF], hne]

theorem goodF_append_single {fs : Fields} {k : Key} {v : Json} (hg : goodF fs = true)
    (hk : goodKey k = true) (hv : goodV v = true) : goodF (fs ++ [(k, v)]) = true := by
  induction fs with
  | nil =>
    simp only [List.nil_append, goodF, Bool.and_eq_true]
    exact ⟨⟨hk, hv⟩, trivial⟩
  | cons p rest ih =>
    obtain ⟨k1, v1⟩ := p
    simp only [goodF, Bool.and_eq_true] at hg
    rw [List.cons_append]
    simp only [goodF, Bool.and_eq_true]
    exact ⟨hg.1, ih hg.2⟩

theorem noEmptyF_append_single {fs : Fields} {k : Key} {v : Json}
    (hn : noEmptyF fs = true) (hv : noEmptyV v = true) :
    noEmptyF (fs ++ [(k, v)]) = true := by
  induction fs with
  | nil =>
    simp only [List.nil_append, noEmptyF, Bool.and_eq_true]
    exact ⟨hv, trivial⟩
  | cons p rest ih =>
    obtain ⟨k1, v1⟩ := p
    simp only [noEmptyF, Bool.and_eq_true] at hn
    rw [List.cons_append]
    simp only [noEmptyF, Bool.and_eq_true]
    exact ⟨hn.1, ih hn.2⟩

theorem mapRep_id {fs : Fields} {k : Key} {v : Json} (h : hasKeyF fs k = false) :
    fs.map (fun p => if p.1 == k then (k, v) else p) = fs := by
  induction fs with
  | nil => rfl
  | cons p rest ih =>
    obtain ⟨k1, v1⟩ := p
    rw [hasKeyF_cons, Bool.or_eq_false_iff] at h
    rw [List.map_cons, ih h.2, show (if ((k1, v1).1 == k) = true then (k, v) else (k1, v1))
      = (k1, v1) by rw [h.1]; rfl]

theorem setKeyF_cons_ne {k1 : Key} {v1 : Json} {rest : Fields} {k : Key} {v : Json}
    (hne : k1 ≠ k) :
    setKeyF ((k1, v1) :: rest) k v = (k1, v1) :: setKeyF rest k v := by
  unfold setKeyF
  rw [hasKeyF_cons, beq_eq_false_iff_ne.mpr hne, Bool.false_or]
  by_cases hh : hasKeyF rest k
  · rw [if_pos hh, if_pos hh, List.map_cons,
      show (if ((k1, v1).1 == k) = true then (k, v) else (k1, v1)) = (k1, v1) by
        rw [beq_eq_false_iff_ne.mpr hne]; rfl]
  · rw [if_neg hh, if_neg hh]
    by_cases hkp : k = "__proto__".toList
    · rw [if_pos hkp, if_pos hkp]
    · rw [if_neg hkp, if_neg hkp, List.cons_append]

theorem setKeyF_cons_eq {k : Key} {v1 : Json} {rest : Fields} {v : Json}
    (hrest : hasKeyF rest k = false) :
    setKeyF ((k, v1) :: rest) k v = (k, v) :: rest := by
  unfold setKeyF
  rw [hasKeyF_cons, beq_self_eq_true, Bool.true_or, if_pos rfl, List.map_cons,
    show (if ((k, v1).1 == k) = true then (k, v) else (k, v1)) = (k, v) by simp,
    mapRep_id hrest]

theorem memF_wfV {fs : Fields} {k : Key} {v : Json} (hw : wfF fs = true)
    (hmem : (k, v) ∈ fs) : wfV v = true := by
  induction fs with
  | nil => simp at hmem
  | cons p rest ih =>
    obtain ⟨k1, v1⟩ := p
    simp only [wfF, Bool.and_eq_true, Bool.not_eq_true'] at hw
    rcases List.mem_cons.mp hmem with h | h
    · injection h with h1 h2
      rw [h2]
      exact hw.1.2
    · exact ih hw.2 h

theorem memF_goodV {fs : Fields} {k : Key} {v : Json} (hg : goodF fs = true)
    (hmem : (k, v) ∈ fs) : goodV v = true := by
  induction fs with
  | nil => simp at hmem
  | cons p rest ih =>
    obtain ⟨k1, v1⟩ := p
    simp only [goodF, Bool.and_eq_true] at hg
    rcases List.mem_cons.mp hmem with h | h
    · injection h with h1 h2
      rw [h2]
      exact hg.1.2
    · exact ih hg.2 h

theorem memF_goodKey {fs : Fields} {k : Key} {v : Json} (hg : goodF fs = true)
    (hmem : (k, v) ∈ fs) : goodKey k = true := by
  induction fs with
  | nil => simp at hmem
  | cons p rest ih =>
    obtain ⟨k1, v1⟩ := p
    simp only [goodF, Bool.and_eq_true] at hg
    rcases List.mem_cons.mp hmem with h | h
    · injection h with h1 h2
      rw [h1]
      exact hg.1.1
    · exact ih hg.2 h

theorem memF_noEmptyV {fs : Fields} {k : Key} {v : Json} (hn : noEmptyF fs = true)
    (hmem : (k, v) ∈ fs) : noEmptyV v = true := by
  induction fs with
  | nil => simp at hmem
  | cons p rest ih =>
    obtain ⟨k1, v1⟩ := p
    simp only [noEmptyF, Bool.and_eq_true] at hn
    rcases List.mem_cons.mp hmem with h | h
    · injection h with h1 h2
      rw [h2]
      exact hn.1
    · exact ih hn.2 h

theorem noEmptyV_obj_iff {cs : Fields} :
    noEmptyV (.obj cs) = true ↔ cs ≠ [] ∧ noEmptyF cs = true := by
  cases cs with
  | nil => simp [noEmptyV]
  | cons a t =>
    rw [show noEmptyV (.obj (a :: t)) = noEmptyF (a :: t) from rfl]
    simp

/-- A non-empty object all of whose branches are non-empty has a
leaf. -/
theorem leavesF_ex_of_noEmpty_aux : ∀ n : Nat, ∀ fs : Fields, sizeOf fs ≤ n →
    fs ≠ [] → noEmptyF fs = true → ∃ qw, qw ∈ leavesF fs := by
  intro n
  induction n with
  | zero =>
    intro fs hsz hne
    cases fs with
    | nil => exact absurd rfl hne
    | cons p rest =>
      exfalso
      have := @sizeOf_cons_rest p.1 p.2 rest
      simp only [List.cons.sizeOf_spec] at hsz
      omega
  | succ n ih =>
    intro fs hsz hne hno
    cases fs with
    | nil => exact absurd rfl hne
    | cons p rest =>
      obtain ⟨k, v⟩ := p
      simp only [noEmptyF, Bool.and_eq_true] at hno
      cases v
      case obj cs =>
        obtain ⟨hcne, hcno⟩ := noEmptyV_obj_iff.mp hno.1
        have hszc : sizeOf cs ≤ n := by
          have := @sizeOf_cons_obj k cs rest
          omega
        obtain ⟨qw, hqw⟩ := ih cs hszc hcne hcno
        exact ⟨(k :: qw.1, qw.2), by
          rw [leavesF_cons, leavesV_obj]
          exact List.mem_append_left _ (List.mem_map.mpr ⟨qw, hqw, rfl⟩)⟩
      all_goals
        exact ⟨_, by
          rw [leavesF_cons, leavesV_leaf k (by rfl)]
          exact List.mem_append_left _ (List.mem_singleton.mpr rfl)⟩

theorem leavesF_ex_of_noEmpty {fs : Fields} (hne : fs ≠ []) (hno : noEmptyF fs = true) :
    ∃ qw, qw ∈ leavesF fs :=
  leavesF_ex_of_noEmpty_aux (sizeOf fs) fs le_rfl hne hno

/-- A leaf path starting with key p comes from the binding at p. -/
theorem leaves_head_lookup {fs : Fields} {p : Key} {q2 : List Key} {w : Json}
    (hw : wfF fs = true) (hmem : (p :: q2, w) ∈ leavesF fs) :
    ∀ v0, lookupF fs p = some v0 →
      (∃ cs, v0 = .obj cs ∧ (q2, w) ∈ leavesF cs) ∨ (q2 = [] ∧ w = v0) := by
  induction fs with
  | nil => simp [leavesF] at hmem
  | cons pr rest ih =>
    obtain ⟨k1, v1⟩ := pr
    simp only [wfF, Bool.and_eq_true, Bool.not_eq_true'] at hw
    intro v0 hl
    rw [leavesF_cons] at hmem
    rcases List.mem_append.mp hmem with h | h
    · obtain ⟨tl, htl⟩ := leavesV_head h
      injection htl with ht1 ht2
      rw [← ht1] at hl
      rw [lookupF_cons, if_pos rfl] at hl
      injection hl with hl
      cases v1
      case obj cs =>
        rw [leavesV_obj] at h
        obtain ⟨q3, hq3, he⟩ := List.mem_map.mp h
        injection he with he1 he2
        injection he1 with he1a he1b
        left
        refine ⟨cs, by rw [← hl], ?_⟩
        rw [← he1b, ← he2]
        exact hq3
      all_goals
        rw [leavesV_leaf _ (by rfl), List.mem_singleton] at h
        injection h with h1 h2
        injection h1 with h1a h1b
        right
        exact ⟨h1b, by rw [h2, hl]⟩
    · obtain ⟨hd, tl, htl, hk⟩ := leaves_headKey h
      injection htl with ht1 ht2
      have hne : k1 ≠ p := by
        intro he
        rw [← ht1, ← he] at hk
        rw [hw.1.1] at hk
        exact Bool.false_ne_true hk
      rw [lookupF_cons, if_neg hne] at hl
      exact ih hw.2 h v0 hl

/-- Leaf view of an in-place replacement at an existing key: the
entries are those of the original away from p, plus the new value's
entries at p. -/
theorem leavesF_setKeyF_replace {fs : Fields} {p : Key} {v0 : Json}
    (hw : wfF fs = true) (hl : lookupF fs p = some v0) (v2 : Json) :
    ∀ qw, qw ∈ leavesF (setKeyF fs p v2) ↔
      ((qw ∈ leavesF fs ∧ ¬∃ tl, qw.1 = p :: tl) ∨ qw ∈ leavesV p v2) := by
  induction fs with
  | nil => simp [lookupF] at hl
  | cons pr rest ih =>
    obtain ⟨k1, v1⟩ := pr
    simp only [wfF, Bool.and_eq_true, Bool.not_eq_true'] at hw
    intro qw
    by_cases hk : k1 = p
    · subst hk
      rw [lookupF_cons, if_pos rfl] at hl
      rw [setKeyF_cons_eq hw.1.1, leavesF_cons, leavesF_cons]
      constructor
      · intro h
        rcases List.mem_append.mp h with h | h
        · exact Or.inr h
        · left
          refine ⟨List.mem_append_right _ h, ?_⟩
          rintro ⟨tl, htl⟩
          obtain ⟨hd, tl2, htl2, hk2⟩ := leaves_headKey h
          rw [htl] at htl2
          injection htl2 with he1 he2
          rw [← he1] at hk2
          rw [hw.1.1] at hk2
          exact Bool.false_ne_true hk2
      · intro h
        rcases h with ⟨h, hnp⟩ | h
        · rcases List.mem_append.mp h with h | h
          · exfalso
            obtain ⟨tl, htl⟩ := leavesV_head h
            exact hnp ⟨tl, htl⟩
          · exact List.mem_append_right _ h
        · exact List.mem_append_left _ h
    · rw [setKeyF_cons_ne hk, leavesF_cons, leavesF_cons]
      rw [lookupF_cons, if_neg hk] at hl
      constructor
      · intro h
        rcases List.mem_append.mp h with h | h
        · left
          refine ⟨List.mem_append_left _ h, ?_⟩
          rintro ⟨tl, htl⟩
          obtain ⟨tl2, htl2⟩ := leavesV_head h
          rw [htl] at htl2
          injection htl2 with he1 he2
          exact hk he1.symm
        · rcases (ih hw.2 hl qw).mp h with ⟨h2, hnp⟩ | h2
          · exact Or.inl ⟨List.mem_append_right _ h2, hnp⟩
          · exact Or.inr h2
      · intro h
        rcases h with ⟨h, hnp⟩ | h
        · rcases List.mem_append.mp h with h | h
          · exact List.mem_append_left _ h
          · exact List.mem_append_right _ ((ih hw.2 hl qw).mpr (Or.inl ⟨h, hnp⟩))
        · exact List.mem_append_right _ ((ih hw.2 hl qw).mpr (Or.inr h))

theorem wfF_setKeyF {fs : Fields} {p : Key} {v2 : Json} (hw : wfF fs = true)
    (hv2 : wfV v2 = true) : wfF (setKeyF fs p v2) = true := by
  by_cases hh : hasKeyF fs p = true
  · induction fs with
    | nil => simp [hasKeyF] at hh
    | cons pr rest ih =>
      obtain ⟨k1, v1⟩ := pr
      simp only [wfF, Bool.and_eq_true, Bool.not_eq_true'] at hw
      by_cases hk : k1 = p
      · subst hk
        rw [setKeyF_cons_eq hw.1.1]
        simp only [wfF, Bool.and_eq_true, Bool.not_eq_true']
        exact ⟨⟨hw.1.1, hv2⟩, hw.2⟩
      · rw [setKeyF_cons_ne hk]
        rw [hasKeyF_cons, beq_eq_false_iff_ne.mpr hk, Bool.false_or] at hh
        simp only [wfF, Bool.and_eq_true, Bool.not_eq_true']
        refine ⟨⟨?_, hw.1.2⟩, ih hw.2 hh⟩
        rw [hasKeyF_setKeyF rest p v2 k1 (Or.inl hh), hw.1.1, Bool.false_or,
          beq_eq_false_iff_ne.mpr hk]
  · rw [Bool.not_eq_true] at hh
    by_cases hkp : p = "__proto__".toList
    · subst hkp
      rw [setKeyF_proto_not_has hh]
      exact hw
    · rw [setKeyF_of_not_has hh hkp]
      exact wfF_append_single hw hh hv2

theorem goodF_setKeyF {fs : Fields} {p : Key} {v2 : Json} (hg : goodF fs = true)
    (hp : goodKey p = true) (hv2 : goodV v2 = true) :
    goodF (setKeyF fs p v2) = true := by
  by_cases hh : hasKeyF fs p = true
  · induction fs with
    | nil => simp [hasKeyF] at hh
    | cons pr rest ih =>
      obtain ⟨k1, v1⟩ := pr
      simp only [goodF, Bool.and_eq_true] at hg
      by_cases hk : k1 = p
      · subst hk
        unfold setKeyF
        rw [if_pos hh, List.map_cons,
          show (if ((k1, v1).1 == k1) = true then (k1, v2) else (k1, v1)) = (k1, v2) by simp]
        simp only [goodF, Bool.and_eq_true]
        refine ⟨⟨hg.1.1, hv2⟩, ?_⟩
        by_cases hh2 : hasKeyF rest k1 = true
        · have := ih hg.2 hh2
          unfold setKeyF at this
          rw [if_pos hh2] at this
          exact this
        · rw [Bool.not_eq_true] at hh2
          rw [mapRep_id hh2]
          exact hg.2
      · rw [setKeyF_cons_ne hk]
        rw [hasKeyF_cons, beq_eq_false_iff_ne.mpr hk, Bool.false_or] at hh
        simp only [goodF, Bool.and_eq_true]
        exact ⟨hg.1, ih hg.2 hh⟩
  · rw [Bool.not_eq_true] at hh
    rw [setKeyF_of_not_has hh (ne_proto_of_goodKey hp)]
    exact goodF_append_single hg hp hv2

theorem noEmptyF_setKeyF {fs : Fields} {p : Key} {v2 : Json} (hn : noEmptyF fs = true)
    (hv2 : noEmptyV v2 = true) : noEmptyF (setKeyF fs p v2) = true := by
  by_cases hh : hasKeyF fs p = true
  · induction fs with
    | nil => simp [hasKeyF] at hh
    | cons pr rest ih =>
      obtain ⟨k1, v1⟩ := pr
      simp only [noEmptyF, Bool.and_eq_true] at hn
      by_cases hk : k1 = p
      · subst hk
        unfold setKeyF
        rw [if_pos hh, List.map_cons,
          show (if ((k1, v1).1 == k1) = true then (k1, v2) else (k1, v1)) = (k1, v2) by simp]
        simp only [noEmptyF, Bool.and_eq_true]
        refine ⟨hv2, ?_⟩
        by_cases hh2 : hasKeyF rest k1 = true
        · have := ih hn.2 hh2
          unfold setKeyF at this
          rw [if_pos hh2] at this
          exact this
        · rw [Bool.not_eq_true] at hh2
          rw [mapRep_id hh2]
          exact hn.2
      · rw [setKeyF_cons_ne hk]
        rw [hasKeyF_cons, beq_eq_false_iff_ne.mpr hk, Bool.false_or] at hh
        simp only [noEmptyF, Bool.and_eq_true]
        exact ⟨hn.1, ih hn.2 hh⟩
  · rw [Bool.not_eq_true] at hh
    by_cases hkp : p = "__proto__".toList
    · subst hkp
      rw [setKeyF_proto_not_has hh]
      exact hn
    · rw [setKeyF_of_not_has hh hkp]
      exact noEmptyF_append_single hn hv2

theorem wfA_set {es : List Json} {i : Nat} {x : Json} (hw : wfA es = true)
    (hx : wfV x = true) : wfA (es.set i x) = true := by
  induction es generalizing i with
  | nil => exact hw
  | cons e t ih =>
    simp only [wfA, Bool.and_eq_true] at hw
    cases i with
    | zero =>
      rw [List.set_cons_zero]
      simp only [wfA, Bool.and_eq_true]
      exact ⟨hx, hw.2⟩
    | succ j =>
      rw [List.set_cons_succ]
      simp only [wfA, Bool.and_eq_true]
      exact ⟨hw.1, ih hw.2⟩

theorem goodA_set {es : List Json} {i : Nat} {x : Json} (hg : goodA es = true)
    (hx : goodV x = true) : goodA (es.set i x) = true := by
  induction es generalizing i with
  | nil => exact hg
  | cons e t ih =>
    simp only [goodA, Bool.and_eq_true] at hg
    cases i with
    | zero =>
      rw [List.set_cons_zero]
      simp only [goodA, Bool.and_eq_true]
      exact ⟨hx, hg.2⟩
    | succ j =>
      rw [List.set_cons_succ]
      simp only [goodA, Bool.and_eq_true]
      exact ⟨hg.1, ih hg.2⟩

theorem wfA_get {es : List Json} {i : Nat} (h : i < es.length) (hw : wfA es = true) :
    wfV (es.get ⟨i, h⟩) = true := by
  induction es generalizing i with
  | nil => simp at h
  | cons e t ih =>
    simp only [wfA, Bool.and_eq_true] at hw
    cases i with
    | zero => exact hw.1
    | succ j => exact ih (by simpa using h) hw.2

theorem goodA_get {es : List Json} {i : Nat} (h : i < es.length) (hg : goodA es = true) :
    goodV (es.get ⟨i, h⟩) = true := by
  induction es generalizing i with
  | nil => simp at h
  | cons e t ih =>
    simp only [goodA, Bool.and_eq_true] at hg
    cases i with
    | zero => exact hg.1
    | succ j => exact ih (by simpa using h) hg.2

theorem wfA_append {a b : List Json} (ha : wfA a = true) (hb : wfA b = true) :
    wfA (a ++ b) = true := by
  induction a with
  | nil => exact hb
  | cons e t ih =>
    simp only [wfA, Bool.and_eq_true] at ha
    rw [List.cons_append]
    simp only [wfA, Bool.and_eq_true]
    exact ⟨ha.1, ih ha.2⟩

theorem goodA_append {a b : List Json} (ha : goodA a = true) (hb : goodA b = true) :
    goodA (a ++ b) = true := by
  induction a with
  | nil => exact hb
  | cons e t ih =>
    simp only [goodA, Bool.and_eq_true] at ha
    rw [List.cons_append]
    simp only [goodA, Bool.and_eq_true]
    exact ⟨ha.1, ih ha.2⟩

theorem wfA_replicate_null (m : Nat) : wfA (List.replicate m .null) = true := by
  induction m with
  | zero => rfl
  | succ j ih =>
    rw [List.replicate_succ]
    simp only [wfA, Bool.and_eq_true]
    exact ⟨rfl, ih⟩

theorem goodA_replicate_null (m : Nat) : goodA (List.replicate m .null) = true := by
  induction m with
  | zero => rfl
  | succ j ih =>
    rw [List.replicate_succ]
    simp only [goodA, Bool.and_eq_true]
    exact ⟨rfl, ih⟩

/-! ## The Injector: equations and the fresh chain -/

theorem addOneKey_nilParts (fs : Fields) (plh : Json) : addOneKey fs [] plh = some fs := rfl

theorem addOneKey_single (fs : Fields) (last : List Char) (plh : Json) :
    addOneKey fs [last] plh
      = if jsInObj fs last then some fs else some (setKeyF fs last plh) := rfl

theorem addOneKey_cons₂ (fs : Fields) (p r : List Char) (rs : List (List Char))
    (plh : Json) :
    addOneKey fs (p :: r :: rs) plh =
      if hasKeyF fs p = false ∧ p = "__proto__".toList then
        (if ghostProtoObj (r :: rs) then some fs else none)
      else
        match lookupF fs p with
        | some (.obj cs) =>
          (addOneKey cs (r :: rs) plh).map (fun cs2 => setKeyF fs p (.obj cs2))
        | some (.arr es) =>
          (addIntoArray es (r :: rs) plh).map (fun es2 => setKeyF fs p (.arr es2))
        | some .null => none
        | _ => (addOneKey [] (r :: rs) plh).map (fun cs2 => setKeyF fs p (.obj cs2)) := rfl

theorem addIntoArray_single (es : List Json) (last : List Char) (plh : Json) :
    addIntoArray es [last] plh =
      (if jsInArr es last then some es
      else
        match parseIndex last with
        | some i => some (es ++ List.replicate (i - es.length) .null ++ [plh])
        | none => some es) := rfl

theorem addIntoArray_cons₂ (es : List Json) (p r : List Char) (rs : List (List Char))
    (plh : Json) :
    addIntoArray es (p :: r :: rs) plh =
      (if p = "length".toList then none
      else if p = "__proto__".toList then
        (if ghostProtoArr (r :: rs) then some es else none)
      else
        match parseIndex p with
        | some i =>
          if h : i < es.length then
            match es.get ⟨i, h⟩ with
            | .obj cs => (addOneKey cs (r :: rs) plh).map (fun cs2 => es.set i (.obj cs2))
            | .arr es1 => (addIntoArray es1 (r :: rs) plh).map (fun es2 => es.set i (.arr es2))
            | .null => none
            | _ => (addOneKey [] (r :: rs) plh).map (fun cs2 => es.set i (.obj cs2))
          else
            (addOneKey [] (r :: rs) plh).map
              (fun cs2 => es ++ List.replicate (i - es.length) .null ++ [.obj cs2])
        | none => if ghostFresh (r :: rs) then some es else none) := rfl

theorem hasKeyF_of_lookup {fs : Fields} {p : Key} {v : Json}
    (hl : lookupF fs p = some v) : hasKeyF fs p = true :=
  lookupF_isSome_iff.mp (by rw [hl]; rfl)

theorem hasKeyF_false_of_lookup_none {fs : Fields} {p : Key}
    (hl : lookupF fs p = none) : hasKeyF fs p = false := by
  cases hx : hasKeyF fs p with
  | false => rfl
  | true =>
    exfalso
    have h2 := lookupF_isSome_iff.mpr hx
    rw [hl] at h2
    exact Bool.false_ne_true h2

theorem addOneKey_cons_obj {fs : Fields} {p : Key} {cs : Fields} (r : List Char)
    (rs : List (List Char)) (plh : Json) (hl : lookupF fs p = some (.obj cs)) :
    addOneKey fs (p :: r :: rs) plh
      = (addOneKey cs (r :: rs) plh).map (fun cs2 => setKeyF fs p (.obj cs2)) := by
  rw [addOneKey_cons₂,
    if_neg (fun hc => Bool.false_ne_true (hc.1.symm.trans (hasKeyF_of_lookup hl))), hl]

theorem addOneKey_cons_arr {fs : Fields} {p : Key} {es : List Json} (r : List Char)
    (rs : List (List Char)) (plh : Json) (hl : lookupF fs p = some (.arr es)) :
    addOneKey fs (p :: r :: rs) plh
      = (addIntoArray es (r :: rs) plh).map (fun es2 => setKeyF fs p (.arr es2)) := by
  rw [addOneKey_cons₂,
    if_neg (fun hc => Bool.false_ne_true (hc.1.symm.trans (hasKeyF_of_lookup hl))), hl]

theorem addOneKey_cons_null {fs : Fields} {p : Key} (r : List Char)
    (rs : List (List Char)) (plh : Json) (hl : lookupF fs p = some .null) :
    addOneKey fs (p :: r :: rs) plh = none := by
  rw [addOneKey_cons₂,
    if_neg (fun hc => Bool.false_ne_true (hc.1.symm.trans (hasKeyF_of_lookup hl))), hl]

theorem addOneKey_cons_none {fs : Fields} {p : Key} (r : List Char)
    (rs : List (List Char)) (plh : Json) (hl : lookupF fs p = none)
    (hp : p ≠ "__proto__".toList) :
    addOneKey fs (p :: r :: rs) plh
      = (addOneKey [] (r :: rs) plh).map (fun cs2 => setKeyF fs p (.obj cs2)) := by
  rw [addOneKey_cons₂, if_neg (fun hc => hp hc.2), hl]

/-- An absent-own "__proto__" intermediate reads as Object.prototype:
the walk leaves the document, and only the ghost continuation's
completion is observable. -/
theorem addOneKey_cons_ghost {fs : Fields} {p : Key} (r : List Char)
    (rs : List (List Char)) (plh : Json) (hl : hasKeyF fs p = false)
    (hp : p = "__proto__".toList) :
    addOneKey fs (p :: r :: rs) plh
      = (if ghostProtoObj (r :: rs) then some fs else none) := by
  rw [addOneKey_cons₂, if_pos ⟨hl, hp⟩]

/-- typeof is not "object": the value is a string, number or boolean,
and the script overwrites it with a fresh empty object. -/
theorem addOneKey_cons_scalar {fs : Fields} {p : Key} {v : Json} (r : List Char)
    (rs : List (List Char)) (plh : Json) (hl : lookupF fs p = some v)
    (hv : v.isObjectType = false) :
    addOneKey fs (p :: r :: rs) plh
      = (addOneKey [] (r :: rs) plh).map (fun cs2 => setKeyF fs p (.obj cs2)) := by
  rw [addOneKey_cons₂,
    if_neg (fun hc => Bool.false_ne_true (hc.1.symm.trans (hasKeyF_of_lookup hl))), hl]
  cases v <;> first | rfl | simp [Json.isObjectType] at hv

theorem setKeyF_ne_nil (fs : Fields) (k : Key) (v : Json)
    (hk : hasKeyF fs k = true ∨ k ≠ "__proto__".toList) : setKeyF fs k v ≠ [] := by
  unfold setKeyF
  by_cases hh : hasKeyF fs k
  · rw [if_pos hh]
    cases fs with
    | nil => simp [hasKeyF] at hh
    | cons p rest => simp
  · have hkp : k ≠ "__proto__".toList := by
      rcases hk with hk | hk
      · exact absurd hk hh
      · exact hk
    rw [if_neg hh, if_neg hkp]
    simp

theorem addOneKey_result_nil {fs : Fields} {parts : List (List Char)} {plh : Json}
    {fs2 : Fields} (h : addOneKey fs parts plh = some fs2) (h2 : fs2 = []) : fs = [] := by
  cases parts with
  | nil =>
    rw [addOneKey_nilParts] at h
    injection h with h
    rw [h, h2]
  | cons p rest =>
    cases rest with
    | nil =>
      rw [addOneKey_single] at h
      by_cases hh : jsInObj fs p = true
      · rw [if_pos hh] at h
        injection h with h
        rw [h, h2]
      · rw [if_neg hh] at h
        injection h with h
        rw [h2] at h
        have hh2 : objProtoKeys.contains p = false := by
          cases hx : objProtoKeys.contains p with
          | false => rfl
          | true => exact absurd (by rw [jsInObj, hx, Bool.or_true]) hh
        exact absurd h (setKeyF_ne_nil fs p plh (Or.inr (ne_proto_of_not_contains hh2)))
    | cons r rs =>
      cases hl : lookupF fs p with
      | none =>
        by_cases hp : p = "__proto__".toList
        · rw [addOneKey_cons_ghost r rs plh (hasKeyF_false_of_lookup_none hl) hp] at h
          by_cases hg : ghostProtoObj (r :: rs) = true
          · rw [if_pos hg] at h
            injection h with h
            rw [h, h2]
          · rw [if_neg hg] at h
            exact absurd h (by simp)
        · rw [addOneKey_cons_none r rs plh hl hp] at h
          cases ha : addOneKey [] (r :: rs) plh with
          | none =>
            rw [ha] at h
            exact absurd h (by simp)
          | some cs2 =>
            rw [ha] at h
            injection h with h
            rw [h2] at h
            exact absurd h (setKeyF_ne_nil fs p (.obj cs2) (Or.inr hp))
      | some v =>
        cases v
        case obj cs =>
          rw [addOneKey_cons_obj r rs plh hl] at h
          cases ha : addOneKey cs (r :: rs) plh with
          | none =>
            rw [ha] at h
            exact absurd h (by simp)
          | some cs2 =>
            rw [ha] at h
            injection h with h
            rw [h2] at h
            exact absurd h (setKeyF_ne_nil fs p (.obj cs2) (Or.inl (hasKeyF_of_lookup hl)))
        case arr es =>
          rw [addOneKey_cons_arr r rs plh hl] at h
          cases ha : addIntoArray es (r :: rs) plh with
          | none =>
            rw [ha] at h
            exact absurd h (by simp)
          | some es2 =>
            rw [ha] at h
            injection h with h
            rw [h2] at h
            exact absurd h (setKeyF_ne_nil fs p (.arr es2) (Or.inl (hasKeyF_of_lookup hl)))
        case null =>
          rw [addOneKey_cons_null r rs plh hl] at h
          exact absurd h (by simp)
        all_goals
          rw [addOneKey_cons_scalar r rs plh hl (by rfl)] at h
          cases ha : addOneKey [] (r :: rs) plh with
          | none =>
            rw [ha] at h
            exact absurd h (by simp)
          | some cs2 =>
            rw [ha] at h
            injection h with h
            rw [h2] at h
            exact absurd h (setKeyF_ne_nil fs p (.obj cs2) (Or.inl (hasKeyF_of_lookup hl)))

theorem getPath_nil (v : Json) : getPath v [] = some v := by cases v <;> rfl

theorem getPath_nonobj_cons {v : Json} (hv : v.isPlainObject = false) (s : Key)
    (p2 : List Key) : getPath v (s :: p2) = none := by
  cases v <;> first | rfl | simp [Json.isPlainObject] at hv

/-- Walking a key path whose segments name no Object.prototype member
into the empty object builds exactly the fresh chain: one nested
branch per intermediate segment ending in the placeholder leaf. -/
theorem addOneKey_fresh : ∀ parts : List (List Char), parts ≠ [] →
    (∀ s ∈ parts, goodKey s = true) → ∀ plh : Json,
    plh.isPlainObject = false → wfV plh = true →
    ∃ fresh : Fields, addOneKey [] parts plh = some fresh ∧ fresh ≠ [] ∧
      leavesF fresh = [(parts, plh)] ∧
      (∀ p : List Key, getPath (.obj fresh) p ≠ some (.obj [])) ∧
      wfF fresh = true ∧ noEmptyF fresh = true ∧
      (goodV plh = true → goodF fresh = true) := by
  intro parts
  induction parts with
  | nil => intro h; exact absurd rfl h
  | cons p rest ih =>
    intro hne hgood plh hplh hwplh
    cases rest with
    | nil =>
      refine ⟨[(p, plh)], ?_, by simp, ?_, ?_, ?_, ?_, ?_⟩
      · have hkp := ne_proto_of_goodKey (hgood p (List.mem_cons_self p []))
        rw [addOneKey_single,
          jsInObj_eq_hasKeyF (notProto_of_goodKey (hgood p (List.mem_cons_self p []))),
          show hasKeyF ([] : Fields) p = false from rfl,
          if_neg Bool.false_ne_true, @setKeyF_of_not_has [] p plh rfl hkp]
        rfl
      · rw [leavesF_cons, leavesV_leaf p hplh]
        rfl
      · intro q
        cases q with
        | nil =>
          intro hcon
          injection hcon with hcon
          exact absurd hcon (by simp)
        | cons s p2 =>
          by_cases hs : p = s
          · rw [getPath_cons_some p2 (by rw [lookupF_cons, if_pos hs])]
            cases p2 with
            | nil =>
              intro hcon
              rw [getPath_nil] at hcon
              injection hcon with h3
              rw [h3] at hplh
              simp [Json.isPlainObject] at hplh
            | cons s2 p3 =>
              rw [getPath_nonobj_cons hplh]
              simp
          · rw [getPath_cons_none p2 (by rw [lookupF_cons, if_neg hs]; rfl)]
            simp
      · rw [show wfF [(p, plh)] = (!(hasKeyF [] p) && wfV plh && wfF []) from rfl, hwplh]
        rfl
      · rw [show noEmptyF [(p, plh)] = (noEmptyV plh && noEmptyF []) from rfl]
        rw [show noEmptyV plh = true by
          cases plh <;> first | rfl | simp [Json.isPlainObject] at hplh]
        rfl
      · intro hgplh
        rw [show goodF [(p, plh)] = (goodKey p && goodV plh && goodF []) from rfl]
        rw [hgood p (List.mem_cons_self p []), hgplh]
        rfl
    | cons r rs =>
      obtain ⟨fresh2, ha, hne2, hlv, hgp, hwf, hno, hgd⟩ :=
        ih (by simp) (fun s hs => hgood s (List.mem_cons_of_mem p hs)) plh hplh hwplh
      refine ⟨[(p, .obj fresh2)], ?_, by simp, ?_, ?_, ?_, ?_, ?_⟩
      · have hkp := ne_proto_of_goodKey (hgood p (List.mem_cons_self p _))
        rw [@addOneKey_cons_none [] p r rs plh rfl hkp, ha,
          show Option.map (fun cs2 => setKeyF [] p (Json.obj cs2)) (some fresh2)
            = some (setKeyF [] p (Json.obj fresh2)) from rfl,
          @setKeyF_of_not_has [] p (Json.obj fresh2) rfl hkp]
        rfl
      · rw [leavesF_cons, leavesV_obj, hlv]
        rfl
      · intro q
        cases q with
        | nil =>
          intro hcon
          injection hcon with hcon
          exact absurd hcon (by simp)
        | cons s p2 =>
          by_cases hs : p = s
          · rw [getPath_cons_some p2 (by rw [lookupF_cons, if_pos hs])]
            exact hgp p2
          · rw [getPath_cons_none p2 (by rw [lookupF_cons, if_neg hs]; rfl)]
            simp
      · rw [show wfF [(p, .obj fresh2)]
          = (!(hasKeyF [] p) && wfV (.obj fresh2) && wfF []) from rfl]
        rw [show wfV (.obj fresh2) = wfF fresh2 from rfl, hwf]
        rfl
      · rw [show noEmptyF [(p, .obj fresh2)] = (noEmptyV (.obj fresh2) && noEmptyF [])
          from rfl]
        rw [noEmptyV_obj_of_ne hne2 hno]
        rfl
      · intro hgplh
        rw [show goodF [(p, .obj fresh2)]
          = (goodKey p && goodV (.obj fresh2) && goodF []) from rfl]
        rw [hgood p (List.mem_cons_self p _),
          show goodV (.obj fresh2) = goodF fresh2 from rfl, hgd hgplh]
        rfl

/-- The walk preserves well-formedness and goodness of keys, on
objects and arrays simultaneously. -/
theorem add_preserve_aux : ∀ n : Nat,
    (∀ fs : Fields, ∀ parts : List (List Char), ∀ plh : Json, ∀ fs2 : Fields,
      parts.length ≤ n → addOneKey fs parts plh = some fs2 →
      wfF fs = true → goodF fs = true → (∀ s ∈ parts, goodKey s = true) →
      wfV plh = true → goodV plh = true →
      wfF fs2 = true ∧ goodF fs2 = true) ∧
    (∀ es : List Json, ∀ parts : List (List Char), ∀ plh : Json, ∀ es2 : List Json,
      parts.length ≤ n → addIntoArray es parts plh = some es2 →
      wfA es = true → goodA es = true → (∀ s ∈ parts, goodKey s = true) →
      wfV plh = true → goodV plh = true →
      wfA es2 = true ∧ goodA es2 = true) := by
  intro n
  induction n with
  | zero =>
    constructor
    · intro fs parts plh fs2 hlen h hw hg hgs hwp hgp
      rw [List.length_eq_zero.mp (Nat.le_zero.mp hlen)] at h
      rw [addOneKey_nilParts] at h
      injection h with h
      rw [← h]
      exact ⟨hw, hg⟩
    · intro es parts plh es2 hlen h hw hg hgs hwp hgp
      rw [List.length_eq_zero.mp (Nat.le_zero.mp hlen)] at h
      injection h with h
      rw [← h]
      exact ⟨hw, hg⟩
  | succ n ih =>
    constructor
    · intro fs parts plh fs2 hlen h hw hg hgs hwp hgp
      cases parts with
      | nil =>
        rw [addOneKey_nilParts] at h
        injection h with h
        rw [← h]
        exact ⟨hw, hg⟩
      | cons p rest =>
        cases rest with
        | nil =>
          have hgk := hgs p (List.mem_cons_self p _)
          rw [addOneKey_single, jsInObj_eq_hasKeyF (notProto_of_goodKey hgk)] at h
          by_cases hh : hasKeyF fs p = true
          · rw [if_pos hh] at h
            injection h with h
            rw [← h]
            exact ⟨hw, hg⟩
          · rw [if_neg hh] at h
            injection h with h
            rw [← h]
            rw [Bool.not_eq_true] at hh
            rw [setKeyF_of_not_has hh (ne_proto_of_goodKey hgk)]
            exact ⟨wfF_append_single hw hh hwp,
              goodF_append_single hg hgk hgp⟩
        | cons r rs =>
          have hlen2 : (r :: rs).length ≤ n := by
            simp only [List.length_cons] at hlen ⊢
            omega
          have hgs2 : ∀ s ∈ r :: rs, goodKey s = true :=
            fun s hs => hgs s (List.mem_cons_of_mem p hs)
          cases hl : lookupF fs p with
          | none =>
            rw [addOneKey_cons_none r rs plh hl
              (ne_proto_of_goodKey (hgs p (List.mem_cons_self p _)))] at h
            cases ha : addOneKey [] (r :: rs) plh with
            | none =>
              rw [ha] at h
              exact absurd h (by simp)
            | some cs2 =>
              rw [ha] at h
              injection h with h
              rw [← h]
              obtain ⟨hw2, hg2⟩ := ih.1 [] (r :: rs) plh cs2 hlen2 ha rfl rfl hgs2 hwp hgp
              exact ⟨wfF_setKeyF hw (by rw [show wfV (.obj cs2) = wfF cs2 from rfl]; exact hw2),
                goodF_setKeyF hg (hgs p (List.mem_cons_self p _))
                  (by rw [show goodV (.obj cs2) = goodF cs2 from rfl]; exact hg2)⟩
          | some v =>
            cases v
            case obj cs =>
              rw [addOneKey_cons_obj r rs plh hl] at h
              cases ha : addOneKey cs (r :: rs) plh with
              | none =>
                rw [ha] at h
                exact absurd h (by simp)
              | some cs2 =>
                rw [ha] at h
                injection h with h
                rw [← h]
                have hwcs : wfF cs = true := by
                  have := memF_wfV hw (mem_of_lookupF hl)
                  rwa [show wfV (.obj cs) = wfF cs from rfl] at this
                have hgcs : goodF cs = true := by
                  have := memF_goodV hg (mem_of_lookupF hl)
                  rwa [show goodV (.obj cs) = goodF cs from rfl] at this
                obtain ⟨hw2, hg2⟩ := ih.1 cs (r :: rs) plh cs2 hlen2 ha hwcs hgcs hgs2 hwp hgp
                exact ⟨wfF_setKeyF hw (by rw [show wfV (.obj cs2) = wfF cs2 from rfl]; exact hw2),
                  goodF_setKeyF hg (hgs p (List.mem_cons_self p _))
                    (by rw [show goodV (.obj cs2) = goodF cs2 from rfl]; exact hg2)⟩
            case arr es =>
              rw [addOneKey_cons_arr r rs plh hl] at h
              cases ha : addIntoArray es (r :: rs) plh with
              | none =>
                rw [ha] at h
                exact absurd h (by simp)
              | some es2 =>
                rw [ha] at h
                injection h with h
                rw [← h]
                have hwes : wfA es = true := by
                  have := memF_wfV hw (mem_of_lookupF hl)
                  rwa [show wfV (.arr es) = wfA es from rfl] at this
                have hges : goodA es = true := by
                  have := memF_goodV hg (mem_of_lookupF hl)
                  rwa [show goodV (.arr es) = goodA es from rfl] at this
                obtain ⟨hw2, hg2⟩ := ih.2 es (r :: rs) plh es2 hlen2 ha hwes hges hgs2 hwp hgp
                exact ⟨wfF_setKeyF hw (by rw [show wfV (.arr es2) = wfA es2 from rfl]; exact hw2),
                  goodF_setKeyF hg (hgs p (List.mem_cons_self p _))
                    (by rw [show goodV (.arr es2) = goodA es2 from rfl]; exact hg2)⟩
            case null =>
              rw [addOneKey_cons_null r rs plh hl] at h
              exact absurd h (by simp)
            all_goals
              rw [addOneKey_cons_scalar r rs plh hl (by rfl)] at h
              cases ha : addOneKey [] (r :: rs) plh with
              | none =>
                rw [ha] at h
                exact absurd h (by simp)
              | some cs2 =>
                rw [ha] at h
                injection h with h
                rw [← h]
                obtain ⟨hw2, hg2⟩ := ih.1 [] (r :: rs) plh cs2 hlen2 ha rfl rfl hgs2 hwp hgp
                exact ⟨wfF_setKeyF hw (by rw [show wfV (.obj cs2) = wfF cs2 from rfl]; exact hw2),
                  goodF_setKeyF hg (hgs p (List.mem_cons_self p _))
                    (by rw [show goodV (.obj cs2) = goodF cs2 from rfl]; exact hg2)⟩
    · intro es parts plh es2 hlen h hw hg hgs hwp hgp
      cases parts with
      | nil =>
        injection h with h
        rw [← h]
        exact ⟨hw, hg⟩
      | cons p rest =>
        cases rest with
        | nil =>
          rw [addIntoArray_single] at h
          by_cases hj : jsInArr es p = true
          · rw [if_pos hj] at h
            injection h with h
            rw [← h]
            exact ⟨hw, hg⟩
          · rw [if_neg hj] at h
            cases hpi : parseIndex p with
            | none =>
              simp only [hpi] at h
              injection h with h
              rw [← h]
              exact ⟨hw, hg⟩
            | some i =>
              simp only [hpi] at h
              injection h with h
              rw [← h]
              constructor
              · exact wfA_append (wfA_append hw (wfA_replicate_null _)) (by
                  rw [show wfA [plh] = (wfV plh && wfA []) from rfl, hwp]; rfl)
              · exact goodA_append (goodA_append hg (goodA_replicate_null _)) (by
                  rw [show goodA [plh] = (goodV plh && goodA []) from rfl, hgp]; rfl)
        | cons r rs =>
          have hlen2 : (r :: rs).length ≤ n := by
            simp only [List.length_cons] at hlen ⊢
            omega
          have hgs2 : ∀ s ∈ r :: rs, goodKey s = true :=
            fun s hs => hgs s (List.mem_cons_of_mem p hs)
          rw [addIntoArray_cons₂] at h
          by_cases hlp : p = "length".toList
          · rw [if_pos hlp] at h
            exact absurd h (by simp)
          · rw [if_neg hlp] at h
            by_cases hpp : p = "__proto__".toList
            · rw [if_pos hpp] at h
              by_cases hgh : ghostProtoArr (r :: rs) = true
              · rw [if_pos hgh] at h
                injection h with h
                rw [← h]
                exact ⟨hw, hg⟩
              · rw [if_neg hgh] at h
                exact absurd h (by simp)
            · rw [if_neg hpp] at h
              cases hpi : parseIndex p with
              | none =>
                simp only [hpi] at h
                by_cases hgh : ghostFresh (r :: rs) = true
                · rw [if_pos hgh] at h
                  injection h with h
                  rw [← h]
                  exact ⟨hw, hg⟩
                · rw [if_neg hgh] at h
                  exact absurd h (by simp)
              | some i =>
                simp only [hpi] at h
                by_cases hi : i < es.length
                · rw [dif_pos hi] at h
                  have hwe : wfV (es.get ⟨i, hi⟩) = true := wfA_get hi hw
                  have hge : goodV (es.get ⟨i, hi⟩) = true := goodA_get hi hg
                  cases he : es.get ⟨i, hi⟩
                  · rename_i s
                    simp only [he] at h
                    cases ha : addOneKey [] (r :: rs) plh with
                    | none =>
                      rw [ha] at h
                      exact absurd h (by simp)
                    | some cs2 =>
                      rw [ha] at h
                      injection h with h
                      rw [← h]
                      obtain ⟨hw2, hg2⟩ := ih.1 [] (r :: rs) plh cs2 hlen2 ha rfl rfl hgs2 hwp hgp
                      exact ⟨wfA_set hw (by rw [show wfV (.obj cs2) = wfF cs2 from rfl]; exact hw2),
                        goodA_set hg
                          (by rw [show goodV (.obj cs2) = goodF cs2 from rfl]; exact hg2)⟩
                  · rename_i s
                    simp only [he] at h
                    cases ha : addOneKey [] (r :: rs) plh with
                    | none =>
                      rw [ha] at h
                      exact absurd h (by simp)
                    | some cs2 =>
                      rw [ha] at h
                      injection h with h
                      rw [← h]
                      obtain ⟨hw2, hg2⟩ := ih.1 [] (r :: rs) plh cs2 hlen2 ha rfl rfl hgs2 hwp hgp
                      exact ⟨wfA_set hw (by rw [show wfV (.obj cs2) = wfF cs2 from rfl]; exact hw2),
                        goodA_set hg
                          (by rw [show goodV (.obj cs2) = goodF cs2 from rfl]; exact hg2)⟩
                  · rename_i s
                    simp only [he] at h
                    cases ha : addOneKey [] (r :: rs) plh with
                    | none =>
                      rw [ha] at h
                      exact absurd h (by simp)
                    | some cs2 =>
                      rw [ha] at h
                      injection h with h
                      rw [← h]
                      obtain ⟨hw2, hg2⟩ := ih.1 [] (r :: rs) plh cs2 hlen2 ha rfl rfl hgs2 hwp hgp
                      exact ⟨wfA_set hw (by rw [show wfV (.obj cs2) = wfF cs2 from rfl]; exact hw2),
                        goodA_set hg
                          (by rw [show goodV (.obj cs2) = goodF cs2 from rfl]; exact hg2)⟩
                  · simp only [he] at h
                    exact absurd h (by simp)
                  · rename_i es1
                    simp only [he] at h
                    cases ha : addIntoArray es1 (r :: rs) plh with
                    | none =>
                      rw [ha] at h
                      exact absurd h (by simp)
                    | some es3 =>
                      rw [ha] at h
                      injection h with h
                      rw [← h]
                      rw [he] at hwe hge
                      obtain ⟨hw2, hg2⟩ := ih.2 es1 (r :: rs) plh es3 hlen2 ha
                        (by rwa [show wfV (.arr es1) = wfA es1 from rfl] at hwe)
                        (by rwa [show goodV (.arr es1) = goodA es1 from rfl] at hge) hgs2 hwp hgp
                      exact ⟨wfA_set hw (by rw [show wfV (.arr es3) = wfA es3 from rfl]; exact hw2),
                        goodA_set hg
                          (by rw [show goodV (.arr es3) = goodA es3 from rfl]; exact hg2)⟩
                  · rename_i cs
                    simp only [he] at h
                    cases ha : addOneKey cs (r :: rs) plh with
                    | none =>
                      rw [ha] at h
                      exact absurd h (by simp)
                    | some cs2 =>
                      rw [ha] at h
                      injection h with h
                      rw [← h]
                      rw [he] at hwe hge
                      obtain ⟨hw2, hg2⟩ := ih.1 cs (r :: rs) plh cs2 hlen2 ha
                        (by rwa [show wfV (.obj cs) = wfF cs from rfl] at hwe)
                        (by rwa [show goodV (.obj cs) = goodF cs from rfl] at hge) hgs2 hwp hgp
                      exact ⟨wfA_set hw (by rw [show wfV (.obj cs2) = wfF cs2 from rfl]; exact hw2),
                        goodA_set hg
                          (by rw [show goodV (.obj cs2) = goodF cs2 from rfl]; exact hg2)⟩
                · rw [dif_neg hi] at h
                  cases ha : addOneKey [] (r :: rs) plh with
                  | none =>
                    rw [ha] at h
                    exact absurd h (by simp)
                  | some cs2 =>
                    rw [ha] at h
                    injection h with h
                    rw [← h]
                    obtain ⟨hw2, hg2⟩ := ih.1 [] (r :: rs) plh cs2 hlen2 ha rfl rfl hgs2 hwp hgp
                    constructor
                    · exact wfA_append (wfA_append hw (wfA_replicate_null _)) (by
                        rw [show wfA [Json.obj cs2] = (wfV (Json.obj cs2) && wfA []) from rfl,
                          show wfV (Json.obj cs2) = wfF cs2 from rfl, hw2]; rfl)
                    · exact goodA_append (goodA_append hg (goodA_replicate_null _)) (by
                        rw [show goodA [Json.obj cs2] = (goodV (Json.obj cs2) && goodA []) from rfl,
                          show goodV (Json.obj cs2) = goodF cs2 from rfl, hg2]; rfl)

/-- Inserting a key with good segments, whose placeholder is a
non-empty leaf, creates no empty branch anywhere in the document. -/
theorem add_noEmpty : ∀ parts : List (List Char), ∀ fs : Fields, ∀ plh : Json,
    ∀ fs2 : Fields, addOneKey fs parts plh = some fs2 →
    (∀ s ∈ parts, goodKey s = true) →
    noEmptyF fs = true → plh.isPlainObject = false → wfV plh = true →
    noEmptyV plh = true → noEmptyF fs2 = true := by
  intro parts
  induction parts with
  | nil =>
    intro fs plh fs2 h hgs hn hplh hwplh hnplh
    rw [addOneKey_nilParts] at h
    injection h with h
    rw [← h]
    exact hn
  | cons p rest ih =>
    intro fs plh fs2 h hgs hn hplh hwplh hnplh
    have hgk := hgs p (List.mem_cons_self p _)
    cases rest with
    | nil =>
      rw [addOneKey_single, jsInObj_eq_hasKeyF (notProto_of_goodKey hgk)] at h
      by_cases hh : hasKeyF fs p = true
      · rw [if_pos hh] at h
        injection h with h
        rw [← h]
        exact hn
      · rw [if_neg hh] at h
        injection h with h
        rw [← h]
        rw [Bool.not_eq_true] at hh
        rw [setKeyF_of_not_has hh (ne_proto_of_goodKey hgk)]
        exact noEmptyF_append_single hn hnplh
    | cons r rs =>
      have hgs2 : ∀ s ∈ r :: rs, goodKey s = true :=
        fun s hs => hgs s (List.mem_cons_of_mem p hs)
      have hfr := addOneKey_fresh (r :: rs) (by simp) hgs2 plh hplh hwplh
      obtain ⟨fresh, hfeq, hfne, _, _, _, hfnE, _⟩ := hfr
      cases hl : lookupF fs p with
      | none =>
        rw [addOneKey_cons_none r rs plh hl (ne_proto_of_goodKey hgk), hfeq,
          Option.map_some'] at h
        injection h with h
        rw [← h]
        exact noEmptyF_setKeyF hn (noEmptyV_obj_of_ne hfne hfnE)
      | some v =>
        cases v
        case obj cs =>
          rw [addOneKey_cons_obj r rs plh hl] at h
          cases ha : addOneKey cs (r :: rs) plh with
          | none =>
            rw [ha, Option.map_none'] at h
            exact absurd h (by simp)
          | some cs2 =>
            rw [ha, Option.map_some'] at h
            injection h with h
            rw [← h]
            have hncs : noEmptyV (.obj cs) = true := memF_noEmptyV hn (mem_of_lookupF hl)
            obtain ⟨hcsne, hcsnE⟩ := noEmptyV_obj_iff.mp hncs
            have hcs2 : noEmptyF cs2 = true := ih cs plh cs2 ha hgs2 hcsnE hplh hwplh hnplh
            have hcs2ne : cs2 ≠ [] := fun h2 => hcsne (addOneKey_result_nil ha h2)
            exact noEmptyF_setKeyF hn (noEmptyV_obj_of_ne hcs2ne hcs2)
        case arr es =>
          rw [addOneKey_cons_arr r rs plh hl] at h
          cases ha : addIntoArray es (r :: rs) plh with
          | none =>
            rw [ha, Option.map_none'] at h
            exact absurd h (by simp)
          | some es2 =>
            rw [ha, Option.map_some'] at h
            injection h with h
            rw [← h]
            exact noEmptyF_setKeyF hn rfl
        case null =>
          rw [addOneKey_cons_null r rs plh hl] at h
          exact absurd h (by simp)
        all_goals
          rw [addOneKey_cons_scalar r rs plh hl (by rfl), hfeq, Option.map_some'] at h
          injection h with h
          rw [← h]
          exact noEmptyF_setKeyF hn (noEmptyV_obj_of_ne hfne hfnE)

/-- Frame property of one insertion: a leaf whose segment path is
incomparable with the inserted path survives unchanged. -/
theorem addOneKey_frame : ∀ parts : List (List Char), ∀ fs : Fields, ∀ plh : Json,
    ∀ fs2 : Fields, addOneKey fs parts plh = some fs2 → wfF fs = true →
    ∀ qw : List Key × Json, qw ∈ leavesF fs →
    ¬ qw.1 <+: parts → ¬ parts <+: qw.1 → qw ∈ leavesF fs2 := by
  intro parts
  induction parts with
  | nil =>
    intro fs plh fs2 h hw qw hqw hp1 hp2
    exact absurd List.nil_prefix hp2
  | cons p rest ih =>
    intro fs plh fs2 h hw qw hqw hp1 hp2
    cases rest with
    | nil =>
      rw [addOneKey_single] at h
      by_cases hh : jsInObj fs p = true
      · rw [if_pos hh] at h
        injection h with h
        rw [← h]
        exact hqw
      · rw [if_neg hh] at h
        injection h with h
        rw [← h]
        have hhk : hasKeyF fs p = false := by
          cases hx : hasKeyF fs p with
          | false => rfl
          | true => exact absurd (by rw [jsInObj, hx, Bool.true_or]) hh
        have hnc : objProtoKeys.contains p = false := by
          cases hx : objProtoKeys.contains p with
          | false => rfl
          | true => exact absurd (by rw [jsInObj, hx, Bool.or_true]) hh
        rw [setKeyF_of_not_has hhk (ne_proto_of_not_contains hnc), leavesF_append]
        exact List.mem_append_left _ hqw
    | cons r rs =>
      cases hl : lookupF fs p with
      | none =>
        by_cases hp : p = "__proto__".toList
        · rw [addOneKey_cons_ghost r rs plh (hasKeyF_false_of_lookup_none hl) hp] at h
          by_cases hgh : ghostProtoObj (r :: rs) = true
          · rw [if_pos hgh] at h
            injection h with h
            rw [← h]
            exact hqw
          · rw [if_neg hgh] at h
            exact absurd h (by simp)
        · rw [addOneKey_cons_none r rs plh hl hp] at h
          cases ha : addOneKey [] (r :: rs) plh with
          | none =>
            rw [ha, Option.map_none'] at h
            exact absurd h (by simp)
          | some fresh =>
            rw [ha, Option.map_some'] at h
            injection h with h
            rw [← h]
            have hh : hasKeyF fs p = false := lookupF_eq_none_iff.mp hl
            rw [setKeyF_of_not_has hh hp, leavesF_append]
            exact List.mem_append_left _ hqw
      | some v =>
        have hvmem := mem_of_lookupF hl
        cases v
        case obj cs =>
          rw [addOneKey_cons_obj r rs plh hl] at h
          cases ha : addOneKey cs (r :: rs) plh with
          | none =>
            rw [ha, Option.map_none'] at h
            exact absurd h (by simp)
          | some cs2 =>
            rw [ha, Option.map_some'] at h
            injection h with h
            rw [← h]
            rw [leavesF_setKeyF_replace hw hl (.obj cs2) qw]
            obtain ⟨q, w⟩ := qw
            cases q with
            | nil => exact absurd rfl (leaves_ne_nil fs (([], w)) hqw)
            | cons qh qt =>
              by_cases hqp : qh = p
              · subst hqp
                right
                rcases leaves_head_lookup hw hqw _ hl with ⟨cs3, he, hmem3⟩ | ⟨hqt, hwv⟩
                · injection he with he
                  rw [← he] at hmem3
                  have hwcs : wfF cs = true := by
                    have := memF_wfV hw hvmem
                    rwa [show wfV (.obj cs) = wfF cs from rfl] at this
                  have hq1 : ¬ qt <+: (r :: rs) := fun hx =>
                    hp1 (List.cons_prefix_cons.mpr ⟨rfl, hx⟩)
                  have hq2 : ¬ (r :: rs) <+: qt := fun hx =>
                    hp2 (List.cons_prefix_cons.mpr ⟨rfl, hx⟩)
                  have := ih cs plh cs2 ha hwcs (qt, w) hmem3 hq1 hq2
                  rw [leavesV_obj]
                  exact List.mem_map.mpr ⟨(qt, w), this, rfl⟩
                · have := leaves_not_obj fs ((qh :: qt, w)) hqw
                  rw [hwv] at this
                  simp [Json.isPlainObject] at this
              · left
                refine ⟨hqw, ?_⟩
                rintro ⟨tl, htl⟩
                injection htl with h1 h2
                exact hqp h1
        case arr es =>
          rw [addOneKey_cons_arr r rs plh hl] at h
          cases ha : addIntoArray es (r :: rs) plh with
          | none =>
            rw [ha, Option.map_none'] at h
            exact absurd h (by simp)
          | some es2 =>
            rw [ha, Option.map_some'] at h
            injection h with h
            rw [← h]
            rw [leavesF_setKeyF_replace hw hl (.arr es2) qw]
            obtain ⟨q, w⟩ := qw
            cases q with
            | nil => exact absurd rfl (leaves_ne_nil fs (([], w)) hqw)
            | cons qh qt =>
              by_cases hqp : qh = p
              · subst hqp
                rcases leaves_head_lookup hw hqw _ hl with ⟨cs3, he, hmem3⟩ | ⟨hqt, hwv⟩
                · exact absurd he (by simp)
                · subst hqt
                  exact absurd (List.cons_prefix_cons.mpr ⟨rfl, List.nil_prefix⟩) hp1
              · left
                refine ⟨hqw, ?_⟩
                rintro ⟨tl, htl⟩
                injection htl with h1 h2
                exact hqp h1
        case null =>
          rw [addOneKey_cons_null r rs plh hl] at h
          exact absurd h (by simp)
        all_goals
          rw [addOneKey_cons_scalar r rs plh hl (by rfl)] at h
          cases ha : addOneKey [] (r :: rs) plh with
          | none =>
            rw [ha, Option.map_none'] at h
            exact absurd h (by simp)
          | some fresh =>
            rw [ha, Option.map_some'] at h
            injection h with h
            rw [← h]
            rw [leavesF_setKeyF_replace hw hl (.obj fresh) qw]
            obtain ⟨q, w⟩ := qw
            cases q with
            | nil => exact absurd rfl (leaves_ne_nil fs (([], w)) hqw)
            | cons qh qt =>
              by_cases hqp : qh = p
              · subst hqp
                rcases leaves_head_lookup hw hqw _ hl with ⟨cs3, he, hmem3⟩ | ⟨hqt, hwv⟩
                · exact absurd he (by simp)
                · subst hqt
                  exact absurd (List.cons_prefix_cons.mpr ⟨rfl, List.nil_prefix⟩) hp1
              · left
                refine ⟨hqw, ?_⟩
                rintro ⟨tl, htl⟩
                injection htl with h1 h2
                exact hqp h1

/-- Clean insertion: when the path to insert is incomparable with
every existing leaf path, the walk succeeds and the leaf view of the
result is exactly the old leaf view plus the new entry. -/
theorem addOneKey_insert : ∀ parts : List (List Char), parts ≠ [] →
    (∀ s ∈ parts, goodKey s = true) →
    ∀ fs : Fields, ∀ plh : Json, wfF fs = true → noEmptyF fs = true →
    (∀ qw : List Key × Json, qw ∈ leavesF fs → ¬ qw.1 <+: parts ∧ ¬ parts <+: qw.1) →
    plh.isPlainObject = false → wfV plh = true →
    ∃ fs2 : Fields, addOneKey fs parts plh = some fs2 ∧
      ∀ qw : List Key × Json, qw ∈ leavesF fs2 ↔ (qw ∈ leavesF fs ∨ qw = (parts, plh)) := by
  intro parts
  induction parts with
  | nil => intro h; exact absurd rfl h
  | cons p rest ih =>
    intro hne hgs fs plh hw hnE hinc hplh hwplh
    have hgk := hgs p (List.mem_cons_self p _)
    cases rest with
    | nil =>
      have hh : hasKeyF fs p = false := by
        by_contra hx
        rw [Bool.not_eq_false] at hx
        obtain ⟨v, hvmem⟩ := hasKeyF_iff_exists.mp hx
        cases v
        case obj cs =>
          have hncs : noEmptyV (.obj cs) = true := memF_noEmptyV hnE hvmem
          obtain ⟨hcsne, hcsnE⟩ := noEmptyV_obj_iff.mp hncs
          obtain ⟨qw2, hqw2⟩ := leavesF_ex_of_noEmpty hcsne hcsnE
          have hmem2 := leavesF_mem_cons_of_obj hvmem hqw2
          exact (hinc _ hmem2).2 (List.cons_prefix_cons.mpr ⟨rfl, List.nil_prefix⟩)
        all_goals
          have hmem2 := leavesF_mem_of_leaf hvmem (by rfl)
          exact (hinc _ hmem2).1 (List.prefix_refl _)
      refine ⟨fs ++ [(p, plh)], ?_, ?_⟩
      · rw [addOneKey_single, jsInObj_eq_hasKeyF (notProto_of_goodKey hgk),
          if_neg (by rw [hh]; exact Bool.false_ne_true),
          setKeyF_of_not_has hh (ne_proto_of_goodKey hgk)]
      · intro qw
        rw [leavesF_append, List.mem_append, leavesF_cons, leavesV_leaf p hplh]
        simp [leavesF]
    | cons r rs =>
      have hgs2 : ∀ s ∈ r :: rs, goodKey s = true :=
        fun s hs => hgs s (List.mem_cons_of_mem p hs)
      cases hl : lookupF fs p with
      | none =>
        have hh : hasKeyF fs p = false := lookupF_eq_none_iff.mp hl
        obtain ⟨fresh, hfeq, hfne, hflv, -, -, -, -⟩ :=
          addOneKey_fresh (r :: rs) (by simp) hgs2 plh hplh hwplh
        refine ⟨fs ++ [(p, .obj fresh)], ?_, ?_⟩
        · rw [addOneKey_cons_none r rs plh hl (ne_proto_of_goodKey hgk), hfeq,
            Option.map_some', setKeyF_of_not_has hh (ne_proto_of_goodKey hgk)]
        · intro qw
          rw [leavesF_append, List.mem_append, leavesF_cons, leavesV_obj, hflv]
          simp [leavesF]
      | some v =>
        have hvmem := mem_of_lookupF hl
        cases v
        case obj cs =>
          have hncs : noEmptyV (.obj cs) = true := memF_noEmptyV hnE hvmem
          obtain ⟨hcsne, hcsnE⟩ := noEmptyV_obj_iff.mp hncs
          have hwcs : wfF cs = true := by
            have := memF_wfV hw hvmem
            rwa [show wfV (.obj cs) = wfF cs from rfl] at this
          have hinc2 : ∀ qw : List Key × Json, qw ∈ leavesF cs →
              ¬ qw.1 <+: (r :: rs) ∧ ¬ (r :: rs) <+: qw.1 := by
            intro qw hqw
            have hmem2 := leavesF_mem_cons_of_obj hvmem hqw
            obtain ⟨h1, h2⟩ := hinc _ hmem2
            exact ⟨fun hx => h1 (List.cons_prefix_cons.mpr ⟨rfl, hx⟩),
              fun hx => h2 (List.cons_prefix_cons.mpr ⟨rfl, hx⟩)⟩
          obtain ⟨cs2, ha, hiff⟩ := ih (by simp) hgs2 cs plh hwcs hcsnE hinc2 hplh hwplh
          refine ⟨setKeyF fs p (.obj cs2), ?_, ?_⟩
          · rw [addOneKey_cons_obj r rs plh hl, ha, Option.map_some']
          · intro qw
            rw [leavesF_setKeyF_replace hw hl (.obj cs2) qw]
            constructor
            · rintro (⟨hmem, -⟩ | hmem)
              · exact Or.inl hmem
              · rw [leavesV_obj] at hmem
                obtain ⟨q2w, hq2w, rfl⟩ := List.mem_map.mp hmem
                rcases (hiff q2w).mp hq2w with hmem2 | heq2
                · exact Or.inl (leavesF_mem_cons_of_obj hvmem hmem2)
                · rw [heq2]
                  exact Or.inr rfl
            · rintro (hmem | heq)
              · obtain ⟨q, w⟩ := qw
                cases q with
                | nil => exact absurd rfl (leaves_ne_nil fs (([], w)) hmem)
                | cons qh qt =>
                  by_cases hqp : qh = p
                  · subst hqp
                    right
                    rcases leaves_head_lookup hw hmem _ hl with ⟨cs3, he, hmem3⟩ | ⟨hqt, hwv⟩
                    · injection he with he
                      rw [← he] at hmem3
                      rw [leavesV_obj]
                      exact List.mem_map.mpr ⟨(qt, w), (hiff _).mpr (Or.inl hmem3), rfl⟩
                    · have := leaves_not_obj fs ((qh :: qt, w)) hmem
                      rw [hwv] at this
                      simp [Json.isPlainObject] at this
                  · left
                    refine ⟨hmem, ?_⟩
                    rintro ⟨tl, htl⟩
                    injection htl with h1 h2
                    exact hqp h1
              · right
                rw [heq, leavesV_obj]
                exact List.mem_map.mpr ⟨(r :: rs, plh), (hiff _).mpr (Or.inr rfl), rfl⟩
        case arr es =>
          have hmem2 := leavesF_mem_of_leaf hvmem (by rfl)
          exact absurd (List.cons_prefix_cons.mpr ⟨rfl, List.nil_prefix⟩)
            (hinc _ hmem2).1
        case null =>
          have hmem2 := leavesF_mem_of_leaf hvmem (by rfl)
          exact absurd (List.cons_prefix_cons.mpr ⟨rfl, List.nil_prefix⟩)
            (hinc _ hmem2).1
        all_goals
          have hmem2 := leavesF_mem_of_leaf hvmem (by rfl)
          exact absurd (List.cons_prefix_cons.mpr ⟨rfl, List.nil_prefix⟩)
            (hinc _ hmem2).1

theorem mkPlaceholder_not_obj (ref : Fields) (k : List Char) :
    (mkPlaceholder ref k).isPlainObject = false := rfl

theorem mkPlaceholder_wf (ref : Fields) (k : List Char) :
    wfV (mkPlaceholder ref k) = true := rfl

theorem mkPlaceholder_good (ref : Fields) (k : List Char) :
    goodV (mkPlaceholder ref k) = true := rfl

theorem mkPlaceholder_noEmpty (ref : Fields) (k : List Char) :
    noEmptyV (mkPlaceholder ref k) = true := rfl

theorem foldAdd_none : ∀ ks : List (List Char), ∀ ref : Fields,
    List.foldl
      (fun acc keyPath =>
        acc.bind (fun cur =>
          addOneKey cur (splitDot keyPath) (mkPlaceholder ref keyPath)))
      none ks = none := by
  intro ks ref
  induction ks with
  | nil => rfl
  | cons k t ih => exact ih

theorem addMissingKeys_nil (fs : Fields) (ref : Fields) :
    addMissingKeys fs [] ref = some fs := rfl

theorem addMissingKeys_cons (fs : Fields) (k : List Char) (ks : List (List Char))
    (ref : Fields) :
    addMissingKeys fs (k :: ks) ref =
      (addOneKey fs (splitDot k) (mkPlaceholder ref k)).bind
        (fun fs1 => addMissingKeys fs1 ks ref) := by
  show List.foldl _ ((some fs).bind _) ks = _
  rw [Option.some_bind]
  cases ha : addOneKey fs (splitDot k) (mkPlaceholder ref k) with
  | none =>
    rw [Option.none_bind]
    exact foldAdd_none ks ref
  | some fs1 =>
    rw [Option.some_bind]
    rfl

/-- Clean batch insertion: inserting pairwise-incomparable paths that
are also incomparable with every existing leaf path succeeds and adds
exactly one placeholder leaf per path. -/
theorem addMissingKeys_clean : ∀ ks : List (List Char), ∀ fs : Fields, ∀ ref : Fields,
    wfF fs = true → noEmptyF fs = true → goodF fs = true →
    (∀ k ∈ ks, ∀ s ∈ splitDot k, goodKey s = true) →
    (∀ k ∈ ks, ∀ qw : List Key × Json, qw ∈ leavesF fs →
      ¬ qw.1 <+: splitDot k ∧ ¬ splitDot k <+: qw.1) →
    ks.Pairwise (fun a b => ¬ splitDot a <+: splitDot b ∧ ¬ splitDot b <+: splitDot a) →
    ∃ fs2 : Fields, addMissingKeys fs ks ref = some fs2 ∧
      (∀ qw : List Key × Json, qw ∈ leavesF fs2 ↔
        qw ∈ leavesF fs ∨ ∃ k ∈ ks, qw = (splitDot k, mkPlaceholder ref k)) ∧
      wfF fs2 = true ∧ noEmptyF fs2 = true ∧ goodF fs2 = true := by
  intro ks
  induction ks with
  | nil =>
    intro fs ref hw hnE hg hgs hinc hpw
    refine ⟨fs, addMissingKeys_nil fs ref, ?_, hw, hnE, hg⟩
    simp
  | cons k0 tail ih =>
    intro fs ref hw hnE hg hgs hinc hpw
    obtain ⟨fs1, ha, hiff⟩ := addOneKey_insert (splitDot k0) (splitDot_ne_nil k0)
      (hgs k0 (List.mem_cons_self k0 tail)) fs
      (mkPlaceholder ref k0) hw hnE
      (fun qw hqw => hinc k0 (List.mem_cons_self k0 tail) qw hqw)
      (mkPlaceholder_not_obj ref k0) (mkPlaceholder_wf ref k0)
    obtain ⟨hw1, hg1⟩ := (add_preserve_aux (splitDot k0).length).1 fs (splitDot k0)
      (mkPlaceholder ref k0) fs1 le_rfl ha hw hg
      (hgs k0 (List.mem_cons_self k0 tail)) (mkPlaceholder_wf ref k0)
      (mkPlaceholder_good ref k0)
    have hnE1 : noEmptyF fs1 = true := add_noEmpty (splitDot k0) fs (mkPlaceholder ref k0)
      fs1 ha (hgs k0 (List.mem_cons_self k0 tail)) hnE (mkPlaceholder_not_obj ref k0)
      (mkPlaceholder_wf ref k0) (mkPlaceholder_noEmpty ref k0)
    rw [List.pairwise_cons] at hpw
    have hinc1 : ∀ k ∈ tail, ∀ qw : List Key × Json, qw ∈ leavesF fs1 →
        ¬ qw.1 <+: splitDot k ∧ ¬ splitDot k <+: qw.1 := by
      intro k hk qw hqw
      rcases (hiff qw).mp hqw with hmem | heq
      · exact hinc k (List.mem_cons_of_mem k0 hk) qw hmem
      · obtain ⟨h1, h2⟩ := hpw.1 k hk
        rw [heq]
        exact ⟨h1, h2⟩
    obtain ⟨fs2, hb, hiff2, hw2, hnE2, hg2⟩ := ih fs1 ref hw1 hnE1 hg1
      (fun k hk => hgs k (List.mem_cons_of_mem k0 hk)) hinc1 hpw.2
    refine ⟨fs2, ?_, ?_, hw2, hnE2, hg2⟩
    · rw [addMissingKeys_cons, ha, Option.some_bind]
      exact hb
    · intro qw
      rw [hiff2 qw]
      constructor
      · rintro (hmem | ⟨k, hk, heq⟩)
        · rcases (hiff qw).mp hmem with hmem2 | heq2
          · exact Or.inl hmem2
          · exact Or.inr ⟨k0, List.mem_cons_self k0 tail, heq2⟩
        · exact Or.inr ⟨k, List.mem_cons_of_mem k0 hk, heq⟩
      · rintro (hmem | ⟨k, hk, heq⟩)
        · exact Or.inl ((hiff qw).mpr (Or.inl hmem))
        · rcases List.mem_cons.mp hk with h0 | ht
          · rw [h0] at heq
            exact Or.inl ((hiff qw).mpr (Or.inr heq))
          · exact Or.inr ⟨k, ht, heq⟩

/-- Frame property of batch insertion: a leaf incomparable with every
inserted path survives. -/
theorem addMissingKeys_frame : ∀ ks : List (List Char), ∀ fs : Fields, ∀ ref : Fields,
    ∀ fs2 : Fields, addMissingKeys fs ks ref = some fs2 →
    wfF fs = true → goodF fs = true →
    (∀ k ∈ ks, ∀ s ∈ splitDot k, goodKey s = true) →
    ∀ qw : List Key × Json, qw ∈ leavesF fs →
    (∀ k ∈ ks, ¬ qw.1 <+: splitDot k ∧ ¬ splitDot k <+: qw.1) →
    qw ∈ leavesF fs2 := by
  intro ks
  induction ks with
  | nil =>
    intro fs ref fs2 h hw hg hgs qw hqw hinc
    rw [addMissingKeys_nil] at h
    injection h with h
    rw [← h]
    exact hqw
  | cons k0 tail ih =>
    intro fs ref fs2 h hw hg hgs qw hqw hinc
    rw [addMissingKeys_cons] at h
    cases ha : addOneKey fs (splitDot k0) (mkPlaceholder ref k0) with
    | none =>
      rw [ha, Option.none_bind] at h
      exact absurd h (by simp)
    | some fs1 =>
      rw [ha, Option.some_bind] at h
      obtain ⟨hw1, hg1⟩ := (add_preserve_aux (splitDot k0).length).1 fs (splitDot k0)
        (mkPlaceholder ref k0) fs1 le_rfl ha hw hg
        (hgs k0 (List.mem_cons_self k0 tail)) (mkPlaceholder_wf ref k0)
        (mkPlaceholder_good ref k0)
      obtain ⟨h1, h2⟩ := hinc k0 (List.mem_cons_self k0 tail)
      have hqw1 : qw ∈ leavesF fs1 :=
        addOneKey_frame (splitDot k0) fs (mkPlaceholder ref k0) fs1 ha hw qw hqw h1 h2
      exact ih fs1 ref fs2 h hw1 hg1 (fun k hk => hgs k (List.mem_cons_of_mem k0 hk))
        qw hqw1 (fun k hk => hinc k (List.mem_cons_of_mem k0 hk))

/-- A flat key of a good well-formed document determines a leaf path:
splitting it at the dots recovers the segments. -/
theorem flatKey_facts {D : Fields} (hg : goodF D = true) (hw : wfF D = true)
    {s : List Char} (hs : s ∈ flattenedKeysOf D) :
    splitDot s ∈ leafPaths D ∧ (∀ seg ∈ splitDot s, goodKey seg = true) ∧
      joinDot (splitDot s) = s := by
  obtain ⟨q, hq, rfl⟩ := (mem_flattenedKeysOf hg hw).mp hs
  obtain ⟨qw, hqw, rfl⟩ := List.mem_map.mp hq
  have hqg : ∀ seg ∈ qw.1, goodKey seg = true := leaves_good D hg qw hqw
  have hqne : qw.1 ≠ [] := leaves_ne_nil D qw hqw
  have hsj : splitDot (joinDot qw.1) = qw.1 :=
    splitDot_joinDot qw.1 hqne (fun x hx => dotFree_of_goodKey (hqg x hx))
  rw [hsj]
  exact ⟨hq, hqg, rfl⟩

/-- Distinct flat keys of one document have incomparable segment
paths. -/
theorem flatKeys_incomp {D : Fields} (hg : goodF D = true) (hw : wfF D = true)
    {s1 s2 : List Char} (h1 : s1 ∈ flattenedKeysOf D) (h2 : s2 ∈ flattenedKeysOf D)
    (hne : s1 ≠ s2) : ¬ splitDot s1 <+: splitDot s2 := by
  intro hp
  obtain ⟨hq1, -, hj1⟩ := flatKey_facts hg hw h1
  obtain ⟨hq2, -, hj2⟩ := flatKey_facts hg hw h2
  have := leafPaths_noPre D hw _ hq1 _ hq2 hp
  rw [← hj1, ← hj2, this] at hne
  exact hne rfl

theorem flattenedKeysOf_nodup {D : Fields} (hg : goodF D = true) (hw : wfF D = true) :
    (flattenedKeysOf D).Nodup := by
  rw [flattenedKeysOf_eq D hg hw]
  apply (leafPaths_nodup D hw).map_on
  intro q1 hq1 q2 hq2 hj
  obtain ⟨qw1, hqw1, rfl⟩ := List.mem_map.mp hq1
  obtain ⟨qw2, hqw2, rfl⟩ := List.mem_map.mp hq2
  exact joinDot_inj (leaves_ne_nil D qw1 hqw1) (leaves_ne_nil D qw2 hqw2)
    (fun x hx => dotFree_of_goodKey (leaves_good D hg qw1 hqw1 x hx))
    (fun x hx => dotFree_of_goodKey (leaves_good D hg qw2 hqw2 x hx)) hj

/-- Keys that are flat keys of the document itself never name a
branch: they name leaves. -/
theorem noBranchNamed_of_flat {T : Fields} (hg : goodF T = true) (hw : wfF T = true)
    {K2 : List (List Char)} (hsub : ∀ s ∈ K2, s ∈ flattenedKeysOf T) :
    noBranchNamed T K2 := by
  intro s hs cs hcon
  obtain ⟨hq, -, -⟩ := flatKey_facts hg hw (hsub s hs)
  obtain ⟨qw, hqw, hqe⟩ := List.mem_map.mp hq
  have hgp := getPath_of_leaves T hw qw hqw
  rw [← hqe] at hcon
  rw [hcon] at hgp
  injection hgp with hgp
  have := leaves_not_obj T qw hqw
  rw [← hgp] at this
  simp [Json.isPlainObject] at this

/-- Batch insertion preserves well-formedness and goodness. -/
theorem addMissingKeys_preserve : ∀ ks : List (List Char), ∀ fs : Fields, ∀ ref : Fields,
    ∀ fs2 : Fields, addMissingKeys fs ks ref = some fs2 →
    wfF fs = true → goodF fs = true →
    (∀ k ∈ ks, ∀ s ∈ splitDot k, goodKey s = true) →
    wfF fs2 = true ∧ goodF fs2 = true := by
  intro ks
  induction ks with
  | nil =>
    intro fs ref fs2 h hw hg hgs
    rw [addMissingKeys_nil] at h
    injection h with h
    rw [← h]
    exact ⟨hw, hg⟩
  | cons k0 tail ih =>
    intro fs ref fs2 h hw hg hgs
    rw [addMissingKeys_cons] at h
    cases ha : addOneKey fs (splitDot k0) (mkPlaceholder ref k0) with
    | none =>
      rw [ha, Option.none_bind] at h
      exact absurd h (by simp)
    | some fs1 =>
      rw [ha, Option.some_bind] at h
      obtain ⟨hw1, hg1⟩ := (add_preserve_aux (splitDot k0).length).1 fs (splitDot k0)
        (mkPlaceholder ref k0) fs1 le_rfl ha hw hg
        (hgs k0 (List.mem_cons_self k0 tail)) (mkPlaceholder_wf ref k0)
        (mkPlaceholder_good ref k0)
      exact ih fs1 ref fs2 h hw1 hg1 (fun k hk => hgs k (List.mem_cons_of_mem k0 hk))

/-- Batch insertion introduces no empty branch. -/
theorem addMissingKeys_noEmpty : ∀ ks : List (List Char), ∀ fs : Fields, ∀ ref : Fields,
    ∀ fs2 : Fields, addMissingKeys fs ks ref = some fs2 →
    (∀ k ∈ ks, ∀ s ∈ splitDot k, goodKey s = true) →
    noEmptyF fs = true → noEmptyF fs2 = true := by
  intro ks
  induction ks with
  | nil =>
    intro fs ref fs2 h hgs hn
    rw [addMissingKeys_nil] at h
    injection h with h
    rw [← h]
    exact hn
  | cons k0 tail ih =>
    intro fs ref fs2 h hgs hn
    rw [addMissingKeys_cons] at h
    cases ha : addOneKey fs (splitDot k0) (mkPlaceholder ref k0) with
    | none =>
      rw [ha, Option.none_bind] at h
      exact absurd h (by simp)
    | some fs1 =>
      rw [ha, Option.some_bind] at h
      exact ih fs1 ref fs2 h (fun k hk => hgs k (List.mem_cons_of_mem k0 hk))
        (add_noEmpty (splitDot k0) fs (mkPlaceholder ref k0) fs1 ha
          (hgs k0 (List.mem_cons_self k0 tail)) hn
          (mkPlaceholder_not_obj ref k0) (mkPlaceholder_wf ref k0)
          (mkPlaceholder_noEmpty ref k0))

theorem not_containsK {K : List (List Char)} {s : List Char} :
    (!(K.contains s)) = true ↔ s ∉ K := by
  rw [Bool.not_eq_true', Bool.eq_false_iff]
  exact not_congr containsK_iff

theorem mem_missingDiff {K tgt : List (List Char)} {s : List Char} :
    s ∈ missingDiff K tgt ↔ s ∈ K ∧ s ∉ tgt := by
  rw [missingDiff, List.mem_filter, not_containsK]

theorem mem_extraneousDiff {K tgt : List (List Char)} {s : List Char} :
    s ∈ extraneousDiff K tgt ↔ s ∈ tgt ∧ s ∉ K := by
  rw [extraneousDiff, List.mem_filter, not_containsK]

theorem missingDiff_sublist (K tgt : List (List Char)) :
    List.Sublist (missingDiff K tgt) K :=
  List.filter_sublist K

theorem extraneousDiff_sublist (K tgt : List (List Char)) :
    List.Sublist (extraneousDiff K tgt) tgt :=
  List.filter_sublist tgt

/-- Core specification of a fix-mode processLocale run against an
abstract reference key list K whose keys are dot-joined, pairwise
prefix-incomparable segment paths. -/
theorem fix_pipeline (T refFlat : Fields) (K : List (List Char))
    (hgT : goodF T = true) (hwT : wfF T = true) (hnT : noEmptyF T = true)
    (hKgood : ∀ k ∈ K, (∀ s ∈ splitDot k, goodKey s = true) ∧ joinDot (splitDot k) = k)
    (hKinc : ∀ a ∈ K, ∀ b ∈ K, a ≠ b → ¬ splitDot a <+: splitDot b)
    (hKnd : K.Nodup) :
    ∃ res : ProcessResult,
      processLocale T K refFlat true = some res ∧
      res.missing = missingDiff K (flattenedKeysOf T) ∧
      res.removed = extraneousDiff K (flattenedKeysOf T) ∧
      res.added = missingDiff K (flattenedKeysOf T) ∧
      (∀ qw : List Key × Json, qw ∈ leavesF (finalDoc res T) ↔
        ((qw ∈ leavesF T ∧ joinDot qw.1 ∈ K) ∨
          ∃ k ∈ missingDiff K (flattenedKeysOf T), qw = (splitDot k, mkPlaceholder refFlat k))) ∧
      (∀ s : List Char, s ∈ flattenedKeysOf (finalDoc res T) ↔ s ∈ K) ∧
      wfF (finalDoc res T) = true ∧ goodF (finalDoc res T) = true ∧
      noEmptyF (finalDoc res T) = true := by
  have hext_sub : ∀ s ∈ extraneousDiff K (flattenedKeysOf T), s ∈ flattenedKeysOf T :=
    fun s hs => (mem_extraneousDiff.mp hs).1
  have hnb : noBranchNamed T (extraneousDiff K (flattenedKeysOf T)) := noBranchNamed_of_flat hgT hwT hext_sub
  have hPleaves : leavesF (if (extraneousDiff K (flattenedKeysOf T)).length > 0 then removeKeysFromObject T (extraneousDiff K (flattenedKeysOf T)) else T)
      = (leavesF T).filter (fun qw => !((extraneousDiff K (flattenedKeysOf T)).contains (joinDot qw.1))) := by
    by_cases he : (extraneousDiff K (flattenedKeysOf T)).length > 0
    · rw [if_pos he]
      exact leaves_removeKeys T (extraneousDiff K (flattenedKeysOf T)) hgT hwT hnb
    · rw [if_neg he]
      have hnil : extraneousDiff K (flattenedKeysOf T) = [] := List.length_eq_zero.mp (Nat.eq_zero_of_not_pos he)
      rw [hnil]
      simp [List.contains]
  have hPw : wfF (if (extraneousDiff K (flattenedKeysOf T)).length > 0 then removeKeysFromObject T (extraneousDiff K (flattenedKeysOf T)) else T) = true := by
    by_cases he : (extraneousDiff K (flattenedKeysOf T)).length > 0
    · rw [if_pos he]; exact wfF_removeKeys hwT
    · rw [if_neg he]; exact hwT
  have hPg : goodF (if (extraneousDiff K (flattenedKeysOf T)).length > 0 then removeKeysFromObject T (extraneousDiff K (flattenedKeysOf T)) else T) = true := by
    by_cases he : (extraneousDiff K (flattenedKeysOf T)).length > 0
    · rw [if_pos he]; exact goodF_removeKeys hgT
    · rw [if_neg he]; exact hgT
  have hPn : noEmptyF (if (extraneousDiff K (flattenedKeysOf T)).length > 0 then removeKeysFromObject T (extraneousDiff K (flattenedKeysOf T)) else T) = true := by
    by_cases he : (extraneousDiff K (flattenedKeysOf T)).length > 0
    · rw [if_pos he]; exact noEmptyF_removeKeys hnT
    · rw [if_neg he]; exact hnT
  have hkept : ∀ qw : List Key × Json, qw ∈ leavesF (if (extraneousDiff K (flattenedKeysOf T)).length > 0 then removeKeysFromObject T (extraneousDiff K (flattenedKeysOf T)) else T) ↔
      (qw ∈ leavesF T ∧ joinDot qw.1 ∈ K) := by
    intro qw
    rw [hPleaves, List.mem_filter]
    constructor
    · rintro ⟨hmem, hf⟩
      have hnotin := not_containsK.mp hf
      refine ⟨hmem, ?_⟩
      have htgtm : joinDot qw.1 ∈ flattenedKeysOf T := (mem_flattenedKeysOf hgT hwT).mpr
        ⟨qw.1, List.mem_map.mpr ⟨qw, hmem, rfl⟩, rfl⟩
      by_contra hnK
      exact hnotin (mem_extraneousDiff.mpr ⟨htgtm, hnK⟩)
    · rintro ⟨hmem, hK2⟩
      refine ⟨hmem, not_containsK.mpr ?_⟩
      intro hin
      exact (mem_extraneousDiff.mp hin).2 hK2
  have hmiss_mem : ∀ k ∈ missingDiff K (flattenedKeysOf T), k ∈ K ∧ k ∉ flattenedKeysOf T :=
    fun k hk => mem_missingDiff.mp hk
  have hmiss_good : ∀ k ∈ missingDiff K (flattenedKeysOf T), ∀ s ∈ splitDot k, goodKey s = true :=
    fun k hk => (hKgood k (hmiss_mem k hk).1).1
  have hmiss_pw : (missingDiff K (flattenedKeysOf T)).Pairwise
      (fun a b => ¬ splitDot a <+: splitDot b ∧ ¬ splitDot b <+: splitDot a) := by
    have h1 : K.Pairwise
        (fun a b => ¬ splitDot a <+: splitDot b ∧ ¬ splitDot b <+: splitDot a) := by
      refine List.Pairwise.imp_of_mem ?_ hKnd
      intro a b ha hb hne
      exact ⟨hKinc a ha b hb hne, hKinc b hb a ha (Ne.symm hne)⟩
    exact h1.sublist (missingDiff_sublist K (flattenedKeysOf T))
  have hmiss_inc : ∀ k ∈ missingDiff K (flattenedKeysOf T), ∀ qw : List Key × Json, qw ∈ leavesF (if (extraneousDiff K (flattenedKeysOf T)).length > 0 then removeKeysFromObject T (extraneousDiff K (flattenedKeysOf T)) else T) →
      ¬ qw.1 <+: splitDot k ∧ ¬ splitDot k <+: qw.1 := by
    intro k hk qw hqw
    obtain ⟨hmemT, hinK⟩ := (hkept qw).mp hqw
    obtain ⟨hkK, hknt⟩ := hmiss_mem k hk
    have htgtm : joinDot qw.1 ∈ flattenedKeysOf T := (mem_flattenedKeysOf hgT hwT).mpr
      ⟨qw.1, List.mem_map.mpr ⟨qw, hmemT, rfl⟩, rfl⟩
    have hne : joinDot qw.1 ≠ k := fun he => hknt (he ▸ htgtm)
    have hsq : splitDot (joinDot qw.1) = qw.1 := splitDot_joinDot qw.1
      (leaves_ne_nil T qw hmemT)
      (fun x hx => dotFree_of_goodKey (leaves_good T hgT qw hmemT x hx))
    constructor
    · intro hp
      exact hKinc (joinDot qw.1) hinK k hkK hne (by rw [hsq]; exact hp)
    · intro hp
      exact hKinc k hkK (joinDot qw.1) hinK (Ne.symm hne) (by rw [hsq]; exact hp)
  obtain ⟨fs2, hfold, hiff2, hw2, hn2, hg2⟩ := addMissingKeys_clean (missingDiff K (flattenedKeysOf T)) (if (extraneousDiff K (flattenedKeysOf T)).length > 0 then removeKeysFromObject T (extraneousDiff K (flattenedKeysOf T)) else T) refFlat
    hPw hPn hPg hmiss_good hmiss_inc hmiss_pw
  have hleaves2 : ∀ qw : List Key × Json, qw ∈ leavesF fs2 ↔
      ((qw ∈ leavesF T ∧ joinDot qw.1 ∈ K) ∨
        ∃ k ∈ missingDiff K (flattenedKeysOf T), qw = (splitDot k, mkPlaceholder refFlat k)) := by
    intro qw
    rw [hiff2 qw, hkept qw]
  have hkeys2 : ∀ s : List Char, s ∈ flattenedKeysOf fs2 ↔ s ∈ K := by
    intro s
    rw [mem_flattenedKeysOf hg2 hw2]
    constructor
    · rintro ⟨q, hq, rfl⟩
      obtain ⟨qw, hqw, rfl⟩ := List.mem_map.mp hq
      rcases (hleaves2 qw).mp hqw with ⟨hmemT, hinK⟩ | ⟨k, hk, heq⟩
      · exact hinK
      · rw [heq]
        rw [show ((splitDot k, mkPlaceholder refFlat k) : List Key × Json).1
          = splitDot k from rfl]
        rw [(hKgood k (hmiss_mem k hk).1).2]
        exact (hmiss_mem k hk).1
    · intro hsK
      by_cases hst : s ∈ flattenedKeysOf T
      · obtain ⟨q, hq, hqe⟩ := (mem_flattenedKeysOf hgT hwT).mp hst
        obtain ⟨qw, hqw, rfl⟩ := List.mem_map.mp hq
        refine ⟨qw.1, List.mem_map.mpr
          ⟨qw, (hleaves2 qw).mpr (Or.inl ⟨hqw, hqe ▸ hsK⟩), rfl⟩, hqe⟩
      · have hmk : s ∈ missingDiff K (flattenedKeysOf T) := mem_missingDiff.mpr ⟨hsK, hst⟩
        refine ⟨splitDot s, List.mem_map.mpr
          ⟨(splitDot s, mkPlaceholder refFlat s),
            (hleaves2 _).mpr (Or.inr ⟨s, hmk, rfl⟩), rfl⟩, ?_⟩
        exact ((hKgood s hsK).2).symm
  by_cases hm : (missingDiff K (flattenedKeysOf T)).length > 0
  · refine ⟨⟨missingDiff K (flattenedKeysOf T), extraneousDiff K (flattenedKeysOf T), missingDiff K (flattenedKeysOf T), some fs2⟩, ?_, rfl, rfl, rfl, ?_, ?_, ?_, ?_, ?_⟩
    · show processLocale T K refFlat true = _
      simp only [processLocale]
      rw [Bool.true_and, decide_eq_true hm, if_pos rfl]
      rw [show (if (extraneousDiff K (flattenedKeysOf T)).length > 0 then (removeKeysFromObject T (extraneousDiff K (flattenedKeysOf T)) , true) else (T, false)).1
        = (if (extraneousDiff K (flattenedKeysOf T)).length > 0 then removeKeysFromObject T (extraneousDiff K (flattenedKeysOf T)) else T) from by split <;> rfl]
      rw [hfold, Option.map_some', Option.map_some']
      rfl
    · intro qw
      exact hleaves2 qw
    · intro s
      exact hkeys2 s
    · exact hw2
    · exact hg2
    · exact hn2
  · have hm0 : missingDiff K (flattenedKeysOf T) = [] := List.length_eq_zero.mp (Nat.eq_zero_of_not_pos hm)
    have hfs2P : (if (extraneousDiff K (flattenedKeysOf T)).length > 0 then removeKeysFromObject T (extraneousDiff K (flattenedKeysOf T)) else T) = fs2 := by
      rw [hm0, addMissingKeys_nil] at hfold
      exact Option.some.inj hfold
    by_cases he : (extraneousDiff K (flattenedKeysOf T)).length > 0
    · have hfd : finalDoc ⟨missingDiff K (flattenedKeysOf T), extraneousDiff K (flattenedKeysOf T), missingDiff K (flattenedKeysOf T),
          some (removeKeysFromObject T (extraneousDiff K (flattenedKeysOf T)))⟩ T = fs2 := by
        show removeKeysFromObject T (extraneousDiff K (flattenedKeysOf T)) = fs2
        rw [← hfs2P, if_pos he]
      refine ⟨⟨missingDiff K (flattenedKeysOf T), extraneousDiff K (flattenedKeysOf T), missingDiff K (flattenedKeysOf T),
        some (removeKeysFromObject T (extraneousDiff K (flattenedKeysOf T)))⟩, ?_, rfl, rfl, rfl, ?_, ?_, ?_, ?_, ?_⟩
      · show processLocale T K refFlat true = _
        simp only [processLocale]
        rw [Bool.true_and, decide_eq_false hm, if_neg Bool.false_ne_true]
        rw [if_pos he, Option.map_some']
        rfl
      · intro qw
        rw [hfd]
        exact hleaves2 qw
      · intro s
        rw [hfd]
        exact hkeys2 s
      · rw [hfd]; exact hw2
      · rw [hfd]; exact hg2
      · rw [hfd]; exact hn2
    · have hfd : finalDoc ⟨missingDiff K (flattenedKeysOf T), extraneousDiff K (flattenedKeysOf T), missingDiff K (flattenedKeysOf T), none⟩ T = fs2 := by
        show T = fs2
        rw [← hfs2P, if_neg he]
      refine ⟨⟨missingDiff K (flattenedKeysOf T), extraneousDiff K (flattenedKeysOf T), missingDiff K (flattenedKeysOf T), none⟩, ?_, rfl, rfl, rfl, ?_, ?_, ?_, ?_, ?_⟩
      · show processLocale T K refFlat true = _
        simp only [processLocale]
        rw [Bool.true_and, decide_eq_false hm, if_neg Bool.false_ne_true]
        rw [if_neg he, Option.map_some']
        rfl
      · intro qw
        rw [hfd]
        exact hleaves2 qw
      · intro s
        rw [hfd]
        exact hkeys2 s
      · rw [hfd]; exact hw2
      · rw [hfd]; exact hg2
      · rw [hfd]; exact hn2

theorem prunedPair_fst (T : Fields) (E : List (List Char)) :
    (if E.length > 0 then (removeKeysFromObject T E, true) else (T, false)).1
      = (if E.length > 0 then removeKeysFromObject T E else T) := by
  split <;> rfl

theorem finalDoc_some {res : ProcessResult} {loaded w : Fields}
    (h : res.written = some w) : finalDoc res loaded = w := by
  rw [finalDoc, h]
  rfl

theorem finalDoc_none {res : ProcessResult} {loaded : Fields}
    (h : res.written = none) : finalDoc res loaded = loaded := by
  rw [finalDoc, h]
  rfl

/-- Whatever a processLocale call returns: the reported lists are the
two diffs, and the written document (if any) is either the pruned tree
or the pruned-then-injected tree. -/
theorem processLocale_written (T : Fields) (K : List (List Char)) (refFlat : Fields)
    (fix : Bool) (res : ProcessResult)
    (h : processLocale T K refFlat fix = some res) :
    res.missing = missingDiff K (flattenedKeysOf T) ∧
    res.removed = extraneousDiff K (flattenedKeysOf T) ∧
    res.added = (if fix then missingDiff K (flattenedKeysOf T) else []) ∧
    (res.written = none ∨
      res.written = some (removeKeysFromObject T (extraneousDiff K (flattenedKeysOf T))) ∨
      ∃ w : Fields, addMissingKeys (if (extraneousDiff K (flattenedKeysOf T)).length > 0 then removeKeysFromObject T (extraneousDiff K (flattenedKeysOf T)) else T) (missingDiff K (flattenedKeysOf T)) refFlat = some w ∧
        res.written = some w) := by
  simp only [processLocale] at h
  by_cases hb : (fix && decide ((missingDiff K (flattenedKeysOf T)).length > 0)) = true
  · rw [if_pos hb, prunedPair_fst] at h
    cases ha : addMissingKeys (if (extraneousDiff K (flattenedKeysOf T)).length > 0 then removeKeysFromObject T (extraneousDiff K (flattenedKeysOf T)) else T) (missingDiff K (flattenedKeysOf T)) refFlat with
    | none =>
      rw [ha] at h
      simp at h
    | some w =>
      rw [ha, Option.map_some', Option.map_some'] at h
      injection h with h
      rw [← h]
      exact ⟨rfl, rfl, rfl, Or.inr (Or.inr ⟨w, rfl, rfl⟩)⟩
  · rw [if_neg hb] at h
    by_cases he : (extraneousDiff K (flattenedKeysOf T)).length > 0
    · rw [if_pos he, Option.map_some'] at h
      injection h with h
      rw [← h]
      exact ⟨rfl, rfl, rfl, Or.inr (Or.inl rfl)⟩
    · rw [if_neg he, Option.map_some'] at h
      injection h with h
      rw [← h]
      exact ⟨rfl, rfl, rfl, Or.inl rfl⟩

theorem runSingleLocale_nomiss (T : Fields) (K : List (List Char)) (refFlat : Fields)
    (fix : Bool) (h : (missingDiff K (flattenedKeysOf T)).length = 0) :
    runSingleLocale T K refFlat fix = some none := by
  simp only [runSingleLocale]
  rw [if_pos h]

theorem runSingleLocale_nofix (T : Fields) (K : List (List Char)) (refFlat : Fields) :
    runSingleLocale T K refFlat false = some none := by
  simp only [runSingleLocale]
  by_cases h : (missingDiff K (flattenedKeysOf T)).length = 0
  · rw [if_pos h]
  · rw [if_neg h, if_neg Bool.false_ne_true]

theorem runSingleLocale_fix_miss (T : Fields) (K : List (List Char)) (refFlat : Fields)
    (h : ¬ (missingDiff K (flattenedKeysOf T)).length = 0) :
    runSingleLocale T K refFlat true
      = (addMissingKeys T (missingDiff K (flattenedKeysOf T)) refFlat).map some := by
  simp only [runSingleLocale]
  rw [if_neg h, if_pos trivial]

theorem processLocale_noop (T : Fields) (K : List (List Char)) (refFlat : Fields)
    (fix : Bool) (h1 : missingDiff K (flattenedKeysOf T) = []) (h2 : extraneousDiff K (flattenedKeysOf T) = []) :
    processLocale T K refFlat fix
      = some { missing := [], removed := [], added := [], written := none } := by
  simp only [processLocale]
  rw [h1, h2]
  simp

theorem processLocale_nofix_eq (T : Fields) (K : List (List Char)) (refFlat : Fields) :
    processLocale T K refFlat false = some
      { missing := missingDiff K (flattenedKeysOf T),
        removed := extraneousDiff K (flattenedKeysOf T),
        added := [],
        written := if (extraneousDiff K (flattenedKeysOf T)).length > 0
          then some (removeKeysFromObject T (extraneousDiff K (flattenedKeysOf T))) else none } := by
  simp only [processLocale]
  rw [Bool.false_and, if_neg Bool.false_ne_true, if_neg Bool.false_ne_true]
  by_cases he : (extraneousDiff K (flattenedKeysOf T)).length > 0
  · rw [if_pos he, Option.map_some', if_pos he]
    rfl
  · rw [if_neg he, Option.map_some', if_neg he]
    rfl

/-- Pruning a good well-formed document by keys that name no branch
removes exactly those flat keys. -/
theorem flattenedKeysOf_removeKeys {T : Fields} (hg : goodF T = true)
    (hw : wfF T = true) {K2 : List (List Char)} (hnb : noBranchNamed T K2) :
    ∀ s : List Char, s ∈ flattenedKeysOf (removeKeysFromObject T K2)
      ↔ (s ∈ flattenedKeysOf T ∧ s ∉ K2) := by
  intro s
  rw [mem_flattenedKeysOf (goodF_removeKeys hg) (wfF_removeKeys hw)]
  constructor
  · rintro ⟨q, hq, rfl⟩
    obtain ⟨qw, hqw, rfl⟩ := List.mem_map.mp hq
    rw [leaves_removeKeys T K2 hg hw hnb, List.mem_filter] at hqw
    exact ⟨(mem_flattenedKeysOf hg hw).mpr
        ⟨qw.1, List.mem_map.mpr ⟨qw, hqw.1, rfl⟩, rfl⟩,
      not_containsK.mp hqw.2⟩
  · rintro ⟨hmem, hnot⟩
    obtain ⟨q, hq, rfl⟩ := (mem_flattenedKeysOf hg hw).mp hmem
    obtain ⟨qw, hqw, rfl⟩ := List.mem_map.mp hq
    refine ⟨qw.1, List.mem_map.mpr ⟨qw, ?_, rfl⟩, rfl⟩
    rw [leaves_removeKeys T K2 hg hw hnb, List.mem_filter]
    exact ⟨hqw, not_containsK.mpr hnot⟩

/-- A leaf shared with the reference is path-incomparable with every
missing key's segment path. -/
theorem shared_leaf_facts {R T : Fields} (hgR : goodF R = true) (hwR : wfF R = true)
    (hgT : goodF T = true) (hwT : wfF T = true) {q : List Key} {w : Json}
    (hleaf : (q, w) ∈ leavesF T) (hshared : joinDot q ∈ flattenedKeysOf R) :
    ∀ k ∈ missingDiff (flattenedKeysOf R) (flattenedKeysOf T),
      ¬ q <+: splitDot k ∧ ¬ splitDot k <+: q := by
  intro k hk
  obtain ⟨hkK, hknt⟩ := mem_missingDiff.mp hk
  have htgtm : joinDot q ∈ flattenedKeysOf T := (mem_flattenedKeysOf hgT hwT).mpr
    ⟨q, List.mem_map.mpr ⟨(q, w), hleaf, rfl⟩, rfl⟩
  have hne : joinDot q ≠ k := fun he => hknt (he ▸ htgtm)
  have hsq : splitDot (joinDot q) = q := splitDot_joinDot q
    (leaves_ne_nil T ((q, w)) hleaf)
    (fun x hx => dotFree_of_goodKey (leaves_good T hgT ((q, w)) hleaf x hx))
  constructor
  · intro hp
    exact flatKeys_incomp hgR hwR hshared hkK hne (by rw [hsq]; exact hp)
  · intro hp
    exact flatKeys_incomp hgR hwR hkK hshared (Ne.symm hne) (by rw [hsq]; exact hp)

/-! ## The claims -/

/-- C8: for every pair of flat indexes, the diff reported by
processLocale computes missingKeys as exactly the reference key paths
absent from the target key set, in reference enumeration order
(a sublist of the reference keys), and extraneousKeys as exactly the
target key paths absent from the reference key set, in target
enumeration order.  Full-path equality only: membership is list
membership of whole key strings. -/
theorem C8_diff_exact (T : Fields) (K : List (List Char)) (refFlat : Fields)
    (fix : Bool) (res : ProcessResult) (h : processLocale T K refFlat fix = some res) :
    (∀ s : List Char, s ∈ res.missing ↔ (s ∈ K ∧ s ∉ flattenedKeysOf T)) ∧
    (∀ s : List Char, s ∈ res.removed ↔ (s ∈ flattenedKeysOf T ∧ s ∉ K)) ∧
    List.Sublist res.missing K ∧ List.Sublist res.removed (flattenedKeysOf T) := by
  obtain ⟨h1, h2, -, -⟩ := processLocale_written T K refFlat fix res h
  refine ⟨?_, ?_, ?_, ?_⟩
  · intro s
    rw [h1]
    exact mem_missingDiff
  · intro s
    rw [h2]
    exact mem_extraneousDiff
  · rw [h1]
    exact missingDiff_sublist K _
  · rw [h2]
    exact extraneousDiff_sublist K _

theorem C8_witness :
    List.Sublist (ProcessResult.mk [['a']] [] [] none).missing [['a']] :=
  (C8_diff_exact [] [['a']] [] false ⟨[['a']], [], [], none⟩ (by decide)).2.2.1

/-- C9: when recursively pruning a branch removes every one of its
children, removeKeysFromObject omits the branch from its parent
entirely: the output equals the output for the remaining fields, and
the key is absent from it. -/
theorem C9_empty_branch_dropped {k : Key} {cs : Fields} {rest : Fields}
    {K : List (List Char)} (hnc : K.contains k = false)
    (hnest : (K.any fun s => (k ++ ['.']).isPrefixOf s) = true)
    (hall : removeKeysFromObject cs (nestedKeysToRemove K k) = [])
    (hrest : hasKeyF rest k = false) :
    removeKeysFromObject ((k, .obj cs) :: rest) K = removeKeysFromObject rest K ∧
    hasKeyF (removeKeysFromObject ((k, .obj cs) :: rest) K) k = false := by
  have h := @removeKeys_cons_rec k cs rest K hnc hnest
  rw [hall] at h
  rw [if_neg (by simp)] at h
  refine ⟨h, ?_⟩
  rw [h, Bool.eq_false_iff]
  intro hx
  have := hasKeyF_removeKeys hx
  rw [hrest] at this
  exact Bool.false_ne_true this

theorem C9_witness :
    removeKeysFromObject [(['a'], .obj [(['b'], Json.str [])])] [['a', '.', 'b']]
      = removeKeysFromObject [] [['a', '.', 'b']] ∧
    hasKeyF (removeKeysFromObject [(['a'], .obj [(['b'], Json.str [])])]
      [['a', '.', 'b']]) ['a'] = false :=
  C9_empty_branch_dropped (by decide) (by decide) (by decide) (by decide)

/-- C10: flattening assigns no key path to an empty branch: an empty
object contributes nothing to the flat accumulator wherever it sits,
a top-level empty branch leaves the flat key list unchanged, and the
two diffs cannot see it. -/
theorem C10_empty_branch_invisible :
    (∀ pre : List Char, ∀ acc : Fields, flattenValue (Json.obj []) pre acc = acc) ∧
    (∀ k : Key, ∀ fs : Fields,
      flattenedKeysOf ((k, Json.obj []) :: fs) = flattenedKeysOf fs) ∧
    (∀ K : List (List Char), ∀ k : Key, ∀ fs : Fields,
      missingDiff K (flattenedKeysOf ((k, Json.obj []) :: fs))
          = missingDiff K (flattenedKeysOf fs) ∧
        extraneousDiff K (flattenedKeysOf ((k, Json.obj []) :: fs))
          = extraneousDiff K (flattenedKeysOf fs)) :=
  ⟨fun _ _ => rfl, fun _ _ => rfl, fun _ _ _ => ⟨rfl, rfl⟩⟩

/-- C2: when an intermediate segment of the path holds a string,
number or boolean (typeof not "object"), addMissingKeys overwrites
that position with a fresh branch carrying the rest of the path; but a
null there makes the walk die (typeof null is "object", and "part in
null" throws), and an array there is descended into, not replaced. -/
theorem C2_scalar_overwrite (fs : Fields) (p : Key) (v : Json) (r : List Char)
    (rs : List (List Char)) (plh : Json) (hl : lookupF fs p = some v)
    (hplh : plh.isPlainObject = false) (hwplh : wfV plh = true)
    (hgs : (r :: rs).all goodKey = true) :
    (v.isObjectType = false →
      ∃ fresh : Fields,
        addOneKey fs (p :: r :: rs) plh = some (setKeyF fs p (.obj fresh)) ∧
        lookupF (setKeyF fs p (.obj fresh)) p = some (.obj fresh) ∧
        leavesF fresh = [(r :: rs, plh)]) ∧
    (v = .null → addOneKey fs (p :: r :: rs) plh = none) ∧
    (∀ es : List Json, v = .arr es → addOneKey fs (p :: r :: rs) plh
        = (addIntoArray es (r :: rs) plh).map (fun es2 => setKeyF fs p (.arr es2))) := by
  refine ⟨?_, ?_, ?_⟩
  · intro hv
    obtain ⟨fresh, hfeq, -, hflv, -, -, -, -⟩ :=
      addOneKey_fresh (r :: rs) (by simp) (List.all_eq_true.mp hgs) plh hplh hwplh
    refine ⟨fresh, ?_, ?_, hflv⟩
    · rw [addOneKey_cons_scalar r rs plh hl hv, hfeq, Option.map_some']
    · rw [lookupF_setKeyF fs p (Json.obj fresh) p (Or.inl (hasKeyF_of_lookup hl)),
        if_pos rfl]
  · intro hv
    rw [hv] at hl
    exact addOneKey_cons_null r rs plh hl
  · intro es hv
    rw [hv] at hl
    exact addOneKey_cons_arr r rs plh hl

theorem C2_witness :
    ∃ fresh : Fields,
      addOneKey [(['a'], Json.num 1)] [['a'], ['b']] (Json.str [])
        = some (setKeyF [(['a'], Json.num 1)] ['a'] (.obj fresh)) ∧
      lookupF (setKeyF [(['a'], Json.num 1)] ['a'] (.obj fresh)) ['a']
        = some (.obj fresh) ∧
      leavesF fresh = [([['b']], Json.str [])] :=
  (C2_scalar_overwrite [(['a'], Json.num 1)] ['a'] (Json.num 1) ['b'] [] (Json.str [])
    (by decide) (by decide) (by decide) (by decide)).1 (by decide)

theorem C2_counterexample :
    addOneKey [(['a'], Json.null)] [['a'], ['b']] (Json.str []) = none := by decide

/-- C6: in single-locale mode, when the run completes, the target is
written iff the fix toggle is set and at least one key is missing; and
without the fix toggle the run never writes, whatever keys are
extraneous (it never prunes). -/
theorem C6_write_iff (T : Fields) (K : List (List Char)) (refFlat : Fields)
    (fix : Bool) (r : Option Fields) (h : runSingleLocale T K refFlat fix = some r) :
    (r.isSome = true ↔ (fix = true ∧ missingDiff K (flattenedKeysOf T) ≠ [])) ∧
    runSingleLocale T K refFlat false = some none := by
  refine ⟨?_, runSingleLocale_nofix T K refFlat⟩
  by_cases h0 : (missingDiff K (flattenedKeysOf T)).length = 0
  · rw [runSingleLocale_nomiss T K refFlat fix h0] at h
    injection h with h
    rw [← h]
    constructor
    · intro hx
      exact absurd hx (by simp)
    · rintro ⟨-, hne⟩
      exact absurd (List.length_eq_zero.mp h0) hne
  · cases fix with
    | false =>
      rw [runSingleLocale_nofix T K refFlat] at h
      injection h with h
      rw [← h]
      constructor
      · intro hx
        exact absurd hx (by simp)
      · rintro ⟨hx, -⟩
        exact absurd hx (by simp)
    | true =>
      rw [runSingleLocale_fix_miss T K refFlat h0] at h
      cases ha : addMissingKeys T (missingDiff K (flattenedKeysOf T)) refFlat with
      | none =>
        rw [ha] at h
        exact absurd h (by simp)
      | some w =>
        rw [ha, Option.map_some'] at h
        injection h with h
        rw [← h]
        constructor
        · intro _
          exact ⟨rfl, fun hx => h0 (by rw [hx]; rfl)⟩
        · intro _
          rfl

theorem C6_witness :
    (Option.isSome (none : Option Fields) = true
      ↔ (false = true ∧ missingDiff [['a']] (flattenedKeysOf ([] : Fields)) ≠ [])) ∧
    runSingleLocale [] [['a']] [] false = some none :=
  C6_write_iff [] [['a']] [] false none (by decide)

theorem C6_counterexample :
    runSingleLocale [(['a'], Json.null)] [['a', '.', 'b']] [] true = none ∧
    missingDiff [['a', '.', 'b']] (flattenedKeysOf [(['a'], Json.null)]) ≠ [] := by
  decide

/-- C7: in all-locales mode with the fix toggle off, the run always
completes; extraneous keys are reported, and when there are any they
are pruned from the tree and the pruned tree is persisted, its flat
key set losing exactly those keys; missing keys are reported but
nothing is added. -/
theorem C7_nofix_prune (T : Fields) (K : List (List Char)) (refFlat : Fields)
    (hgT : goodF T = true) (hwT : wfF T = true) :
    ∃ res : ProcessResult, processLocale T K refFlat false = some res ∧
      res.missing = missingDiff K (flattenedKeysOf T) ∧
      res.added = [] ∧
      res.removed = extraneousDiff K (flattenedKeysOf T) ∧
      ((extraneousDiff K (flattenedKeysOf T)).length > 0 →
        res.written = some (removeKeysFromObject T (extraneousDiff K (flattenedKeysOf T))) ∧
        ∀ s : List Char, s ∈ flattenedKeysOf (finalDoc res T) ↔
          (s ∈ flattenedKeysOf T ∧ s ∉ extraneousDiff K (flattenedKeysOf T))) := by
  refine ⟨_, processLocale_nofix_eq T K refFlat, rfl, rfl, rfl, ?_⟩
  intro he
  have hwrit : (ProcessResult.mk (missingDiff K (flattenedKeysOf T)) (extraneousDiff K (flattenedKeysOf T)) []
      (if (extraneousDiff K (flattenedKeysOf T)).length > 0 then some (removeKeysFromObject T (extraneousDiff K (flattenedKeysOf T))) else none)).written
      = some (removeKeysFromObject T (extraneousDiff K (flattenedKeysOf T))) := by
    show (if (extraneousDiff K (flattenedKeysOf T)).length > 0
      then some (removeKeysFromObject T (extraneousDiff K (flattenedKeysOf T))) else none)
      = some (removeKeysFromObject T (extraneousDiff K (flattenedKeysOf T)))
    rw [if_pos he]
  refine ⟨hwrit, ?_⟩
  intro s
  rw [finalDoc_some hwrit]
  exact flattenedKeysOf_removeKeys hgT hwT
    (noBranchNamed_of_flat hgT hwT (fun x hx => (mem_extraneousDiff.mp hx).1)) s

theorem C7_witness :
    ∃ res : ProcessResult, processLocale [(['a'], Json.num 1)] [] [] false = some res ∧
      res.missing = missingDiff [] (flattenedKeysOf [(['a'], Json.num 1)]) ∧
      res.added = [] ∧
      res.removed = extraneousDiff [] (flattenedKeysOf [(['a'], Json.num 1)]) ∧
      ((extraneousDiff [] (flattenedKeysOf [(['a'], Json.num 1)])).length > 0 →
        res.written = some (removeKeysFromObject [(['a'], Json.num 1)]
          (extraneousDiff [] (flattenedKeysOf [(['a'], Json.num 1)]))) ∧
        ∀ s : List Char, s ∈ flattenedKeysOf (finalDoc res [(['a'], Json.num 1)]) ↔
          (s ∈ flattenedKeysOf [(['a'], Json.num 1)] ∧
            s ∉ extraneousDiff [] (flattenedKeysOf [(['a'], Json.num 1)]))) :=
  C7_nofix_prune [(['a'], Json.num 1)] [] [] (by decide) (by decide)

theorem C7_counterexample :
    processLocale [(['c'], Json.num 1), (['a'], Json.null)] [['a'], ['a', '.', 'b']]
      [] true = none ∧
    extraneousDiff [['a'], ['a', '.', 'b']]
      (flattenedKeysOf [(['c'], Json.num 1), (['a'], Json.null)]) ≠ [] := by
  decide

/-- C3: a run on a locale tree that itself has no empty branch never
persists one: in either mode, any document handed to the write is
empty-branch-free. -/
theorem C3_no_empty_persisted (T : Fields) (K : List (List Char)) (refFlat : Fields)
    (fix : Bool) (hnT : noEmptyF T = true)
    (hgs : K.all (fun k => (splitDot k).all goodKey) = true) :
    (∀ res : ProcessResult, processLocale T K refFlat fix = some res →
      ∀ w : Fields, res.written = some w → noEmptyF w = true) ∧
    (∀ r : Option Fields, ∀ w : Fields, runSingleLocale T K refFlat fix = some r →
      r = some w → noEmptyF w = true) := by
  have hgs2 : ∀ k ∈ missingDiff K (flattenedKeysOf T), ∀ s ∈ splitDot k, goodKey s = true :=
    fun k hk s hs =>
      List.all_eq_true.mp (List.all_eq_true.mp hgs k (mem_missingDiff.mp hk).1) s hs
  have hPn : noEmptyF (if (extraneousDiff K (flattenedKeysOf T)).length > 0 then removeKeysFromObject T (extraneousDiff K (flattenedKeysOf T)) else T) = true := by
    by_cases he : (extraneousDiff K (flattenedKeysOf T)).length > 0
    · rw [if_pos he]
      exact noEmptyF_removeKeys hnT
    · rw [if_neg he]
      exact hnT
  constructor
  · intro res hres w hw
    obtain ⟨-, -, -, hcases⟩ := processLocale_written T K refFlat fix res hres
    rcases hcases with h0 | h0 | ⟨w2, ha, h0⟩
    · rw [h0] at hw
      exact absurd hw (by simp)
    · rw [h0] at hw
      injection hw with hw
      rw [← hw]
      exact noEmptyF_removeKeys hnT
    · rw [h0] at hw
      injection hw with hw
      rw [← hw]
      exact addMissingKeys_noEmpty (missingDiff K (flattenedKeysOf T)) (if (extraneousDiff K (flattenedKeysOf T)).length > 0 then removeKeysFromObject T (extraneousDiff K (flattenedKeysOf T)) else T) refFlat w2 ha hgs2 hPn
  · intro r w hr hw
    rw [hw] at hr
    by_cases h0 : (missingDiff K (flattenedKeysOf T)).length = 0
    · rw [runSingleLocale_nomiss T K refFlat fix h0] at hr
      injection hr with hr
      exact absurd hr (by simp)
    · cases fix with
      | false =>
        rw [runSingleLocale_nofix T K refFlat] at hr
        injection hr with hr
        exact absurd hr (by simp)
      | true =>
        rw [runSingleLocale_fix_miss T K refFlat h0] at hr
        cases ha : addMissingKeys T (missingDiff K (flattenedKeysOf T)) refFlat with
        | none =>
          rw [ha] at hr
          exact absurd hr (by simp)
        | some w2 =>
          rw [ha, Option.map_some'] at hr
          injection hr with hr
          injection hr with hr
          rw [← hr]
          exact addMissingKeys_noEmpty (missingDiff K (flattenedKeysOf T)) T refFlat w2 ha hgs2 hnT

theorem C3_witness :
    noEmptyF [(['a'], mkPlaceholder [(['a'], Json.str ['x'])] ['a'])] = true :=
  (C3_no_empty_persisted [] [['a']] [(['a'], Json.str ['x'])] true (by decide) (by decide)).1
    ⟨[['a']], [], [['a']], some [(['a'], mkPlaceholder [(['a'], Json.str ['x'])] ['a'])]⟩
    (by decide) [(['a'], mkPlaceholder [(['a'], Json.str ['x'])] ['a'])] rfl

theorem C3_counterexample :
    (processLocale [(['a'], Json.obj [])] [['b']] [(['b'], Json.str ['y'])] true).map
      (fun r => r.written.map noEmptyF) = some (some false) := by
  decide

/-- C4: on good well-formed documents (dot-free keys at every level),
a key path present in both the reference and the locale flat index
keeps its leaf value through any run, in either mode and for either
state of the fix toggle. -/
theorem C4_shared_preserved (R T refFlat : Fields) (fix : Bool)
    (hgR : goodF R = true) (hwR : wfF R = true)
    (hgT : goodF T = true) (hwT : wfF T = true)
    (q : List Key) (w : Json) (hleaf : (q, w) ∈ leavesF T)
    (hshared : joinDot q ∈ flattenedKeysOf R) :
    (∀ res : ProcessResult,
      processLocale T (flattenedKeysOf R) refFlat fix = some res →
      getPath (.obj (finalDoc res T)) q = some w) ∧
    (∀ w2 : Fields,
      runSingleLocale T (flattenedKeysOf R) refFlat fix = some (some w2) →
      getPath (.obj w2) q = some w) := by
  have hinc := shared_leaf_facts hgR hwR hgT hwT hleaf hshared
  have hgs : ∀ k ∈ missingDiff (flattenedKeysOf R) (flattenedKeysOf T), ∀ s ∈ splitDot k, goodKey s = true :=
    fun k hk => (flatKey_facts hgR hwR (mem_missingDiff.mp hk).1).2.1
  have hnb : noBranchNamed T (extraneousDiff (flattenedKeysOf R) (flattenedKeysOf T)) :=
    noBranchNamed_of_flat hgT hwT (fun x hx => (mem_extraneousDiff.mp hx).1)
  have hkeptP : (q, w) ∈ leavesF (removeKeysFromObject T (extraneousDiff (flattenedKeysOf R) (flattenedKeysOf T))) := by
    rw [leaves_removeKeys T (extraneousDiff (flattenedKeysOf R) (flattenedKeysOf T)) hgT hwT hnb, List.mem_filter]
    exact ⟨hleaf, not_containsK.mpr (fun hin => (mem_extraneousDiff.mp hin).2 hshared)⟩
  have hPl : (q, w) ∈ leavesF (if (extraneousDiff (flattenedKeysOf R) (flattenedKeysOf T)).length > 0 then removeKeysFromObject T (extraneousDiff (flattenedKeysOf R) (flattenedKeysOf T)) else T) := by
    by_cases he : (extraneousDiff (flattenedKeysOf R) (flattenedKeysOf T)).length > 0
    · rw [if_pos he]
      exact hkeptP
    · rw [if_neg he]
      exact hleaf
  have hPw : wfF (if (extraneousDiff (flattenedKeysOf R) (flattenedKeysOf T)).length > 0 then removeKeysFromObject T (extraneousDiff (flattenedKeysOf R) (flattenedKeysOf T)) else T) = true := by
    by_cases he : (extraneousDiff (flattenedKeysOf R) (flattenedKeysOf T)).length > 0
    · rw [if_pos he]; exact wfF_removeKeys hwT
    · rw [if_neg he]; exact hwT
  have hPg : goodF (if (extraneousDiff (flattenedKeysOf R) (flattenedKeysOf T)).length > 0 then removeKeysFromObject T (extraneousDiff (flattenedKeysOf R) (flattenedKeysOf T)) else T) = true := by
    by_cases he : (extraneousDiff (flattenedKeysOf R) (flattenedKeysOf T)).length > 0
    · rw [if_pos he]; exact goodF_removeKeys hgT
    · rw [if_neg he]; exact hgT
  constructor
  · intro res hres
    obtain ⟨-, -, -, hcases⟩ :=
      processLocale_written T (flattenedKeysOf R) refFlat fix res hres
    rcases hcases with h0 | h0 | ⟨w2, ha, h0⟩
    · rw [finalDoc_none h0]
      exact getPath_of_leaves T hwT ((q, w)) hleaf
    · rw [finalDoc_some h0]
      exact getPath_of_leaves _ (wfF_removeKeys hwT) ((q, w)) hkeptP
    · rw [finalDoc_some h0]
      have hmem2 := addMissingKeys_frame (missingDiff (flattenedKeysOf R) (flattenedKeysOf T)) (if (extraneousDiff (flattenedKeysOf R) (flattenedKeysOf T)).length > 0 then removeKeysFromObject T (extraneousDiff (flattenedKeysOf R) (flattenedKeysOf T)) else T) refFlat w2 ha hPw hPg hgs
        ((q, w)) hPl hinc
      obtain ⟨hw2, -⟩ := addMissingKeys_preserve (missingDiff (flattenedKeysOf R) (flattenedKeysOf T)) (if (extraneousDiff (flattenedKeysOf R) (flattenedKeysOf T)).length > 0 then removeKeysFromObject T (extraneousDiff (flattenedKeysOf R) (flattenedKeysOf T)) else T) refFlat w2 ha hPw hPg hgs
      exact getPath_of_leaves _ hw2 ((q, w)) hmem2
  · intro w2 hr
    by_cases h0 : (missingDiff (flattenedKeysOf R) (flattenedKeysOf T)).length = 0
    · rw [runSingleLocale_nomiss T (flattenedKeysOf R) refFlat fix h0] at hr
      injection hr with hr
      exact absurd hr (by simp)
    · cases fix with
      | false =>
        rw [runSingleLocale_nofix T (flattenedKeysOf R) refFlat] at hr
        injection hr with hr
        exact absurd hr (by simp)
      | true =>
        rw [runSingleLocale_fix_miss T (flattenedKeysOf R) refFlat h0] at hr
        cases ha : addMissingKeys T (missingDiff (flattenedKeysOf R) (flattenedKeysOf T)) refFlat with
        | none =>
          rw [ha] at hr
          exact absurd hr (by simp)
        | some w3 =>
          rw [ha, Option.map_some'] at hr
          injection hr with hr
          injection hr with hr
          rw [← hr]
          have hmem2 := addMissingKeys_frame (missingDiff (flattenedKeysOf R) (flattenedKeysOf T)) T refFlat w3 ha hwT hgT hgs
            ((q, w)) hleaf hinc
          obtain ⟨hw3, -⟩ := addMissingKeys_preserve (missingDiff (flattenedKeysOf R) (flattenedKeysOf T)) T refFlat w3 ha hwT hgT hgs
          exact getPath_of_leaves _ hw3 ((q, w)) hmem2

theorem C4_witness :
    getPath (.obj (finalDoc ⟨[], [], [], none⟩ [(['a'], Json.str ['z'])])) [['a']]
      = some (Json.str ['z']) :=
  (C4_shared_preserved [(['a'], Json.str ['x'])] [(['a'], Json.str ['z'])]
    [(['a'], Json.str ['x'])] true (by decide) (by decide) (by decide) (by decide)
    [['a']] (Json.str ['z']) (by decide) (by decide)).1 ⟨[], [], [], none⟩ (by decide)

theorem C4_counterexample :
    ([['a']], Json.str ['z']) ∈ leavesF [(['a'], Json.str ['z'])] ∧
    joinDot [['a']] ∈ flattenedKeysOf [(['a'], Json.str ['u']), (['a', '.', 'b'], Json.str ['v'])] ∧
    (processLocale [(['a'], Json.str ['z'])] (flattenedKeysOf [(['a'], Json.str ['u']), (['a', '.', 'b'], Json.str ['v'])])
      [(['a'], Json.str ['u']), (['a', '.', 'b'], Json.str ['v'])] true).isSome = true ∧
    (processLocale [(['a'], Json.str ['z'])] (flattenedKeysOf [(['a'], Json.str ['u']), (['a', '.', 'b'], Json.str ['v'])])
        [(['a'], Json.str ['u']), (['a', '.', 'b'], Json.str ['v'])] true).map
      (fun r => getPath (.obj (finalDoc r [(['a'], Json.str ['z'])])) [['a']])
      ≠ some (some (Json.str ['z'])) := by
  refine ⟨by decide, by decide, by decide, by decide⟩

/-- C1: on good well-formed documents with no empty branch in the
locale, a fix-mode processLocale run succeeds and the flat key set of
the document on disk afterwards equals the reference flat key set
exactly. -/
theorem C1_exact_convergence (R T refFlat : Fields)
    (hgR : goodF R = true) (hwR : wfF R = true)
    (hgT : goodF T = true) (hwT : wfF T = true) (hnT : noEmptyF T = true) :
    ∃ res : ProcessResult,
      processLocale T (flattenedKeysOf R) refFlat true = some res ∧
      ∀ s : List Char, s ∈ flattenedKeysOf (finalDoc res T) ↔ s ∈ flattenedKeysOf R := by
  obtain ⟨res, hp, -, -, -, -, hkeys, -, -, -⟩ :=
    fix_pipeline T refFlat (flattenedKeysOf R) hgT hwT hnT
      (fun k hk => ⟨(flatKey_facts hgR hwR hk).2.1, (flatKey_facts hgR hwR hk).2.2⟩)
      (fun a ha b hb hne => flatKeys_incomp hgR hwR ha hb hne)
      (flattenedKeysOf_nodup hgR hwR)
  exact ⟨res, hp, hkeys⟩

theorem C1_witness :
    ∃ res : ProcessResult,
      processLocale [] (flattenedKeysOf [(['a'], Json.str ['x'])])
        [(['a'], Json.str ['x'])] true = some res ∧
      ∀ s : List Char, s ∈ flattenedKeysOf (finalDoc res []) ↔
        s ∈ flattenedKeysOf [(['a'], Json.str ['x'])] :=
  C1_exact_convergence [(['a'], Json.str ['x'])] [] [(['a'], Json.str ['x'])]
    (by decide) (by decide) (by decide) (by decide) (by decide)

theorem C1_counterexample :
    processLocale [(['a'], Json.obj [])] (flattenedKeysOf [(['a'], Json.str ['x'])])
      [(['a'], Json.str ['x'])] true
      = some ⟨[['a']], [], [['a']], some [(['a'], Json.obj [])]⟩ ∧
    ['a'] ∈ flattenedKeysOf [(['a'], Json.str ['x'])] ∧
    ['a'] ∉ flattenedKeysOf (finalDoc ⟨[['a']], [], [['a']], some [(['a'], Json.obj [])]⟩
      [(['a'], Json.obj [])]) := by
  refine ⟨by decide, by decide, by decide⟩

/-- C5: on good well-formed documents with no empty branch in the
locale, the fix-and-sync pass is idempotent: after one pass the two
diff lists of a second pass are empty, and the second pass leaves the
tree untouched and performs no write. -/
theorem C5_idempotent (R T refFlat : Fields)
    (hgR : goodF R = true) (hwR : wfF R = true)
    (hgT : goodF T = true) (hwT : wfF T = true) (hnT : noEmptyF T = true) :
    ∃ res : ProcessResult,
      processLocale T (flattenedKeysOf R) refFlat true = some res ∧
      missingDiff (flattenedKeysOf R) (flattenedKeysOf (finalDoc res T)) = [] ∧
      extraneousDiff (flattenedKeysOf R) (flattenedKeysOf (finalDoc res T)) = [] ∧
      processLocale (finalDoc res T) (flattenedKeysOf R) refFlat true
        = some { missing := [], removed := [], added := [], written := none } := by
  obtain ⟨res, hp, -, -, -, -, hkeys, -, -, -⟩ :=
    fix_pipeline T refFlat (flattenedKeysOf R) hgT hwT hnT
      (fun k hk => ⟨(flatKey_facts hgR hwR hk).2.1, (flatKey_facts hgR hwR hk).2.2⟩)
      (fun a ha b hb hne => flatKeys_incomp hgR hwR ha hb hne)
      (flattenedKeysOf_nodup hgR hwR)
  have hm2 : missingDiff (flattenedKeysOf R) (flattenedKeysOf (finalDoc res T)) = [] := by
    rw [missingDiff]
    apply List.filter_eq_nil_iff.mpr
    intro k hkK
    intro hx
    exact (not_containsK.mp hx) ((hkeys k).mpr hkK)
  have he2 : extraneousDiff (flattenedKeysOf R) (flattenedKeysOf (finalDoc res T)) = [] := by
    rw [extraneousDiff]
    apply List.filter_eq_nil_iff.mpr
    intro s hs
    intro hx
    exact (not_containsK.mp hx) ((hkeys s).mp hs)
  exact ⟨res, hp, hm2, he2, processLocale_noop (finalDoc res T) (flattenedKeysOf R)
    refFlat true hm2 he2⟩

theorem C5_witness :
    ∃ res : ProcessResult,
      processLocale [] (flattenedKeysOf [(['b'], Json.str ['x'])])
        [(['b'], Json.str ['x'])] true = some res ∧
      missingDiff (flattenedKeysOf [(['b'], Json.str ['x'])])
        (flattenedKeysOf (finalDoc res [])) = [] ∧
      extraneousDiff (flattenedKeysOf [(['b'], Json.str ['x'])])
        (flattenedKeysOf (finalDoc res [])) = [] ∧
      processLocale (finalDoc res []) (flattenedKeysOf [(['b'], Json.str ['x'])])
        [(['b'], Json.str ['x'])] true
        = some { missing := [], removed := [], added := [], written := none } :=
  C5_idempotent [(['b'], Json.str ['x'])] [] [(['b'], Json.str ['x'])]
    (by decide) (by decide) (by decide) (by decide) (by decide)

theorem C5_counterexample :
    processLocale [(['a'], Json.obj [])] (flattenedKeysOf [(['a'], Json.str ['x'])])
      [(['a'], Json.str ['x'])] true
      = some ⟨[['a']], [], [['a']], some [(['a'], Json.obj [])]⟩ ∧
    processLocale (finalDoc ⟨[['a']], [], [['a']], some [(['a'], Json.obj [])]⟩
        [(['a'], Json.obj [])]) (flattenedKeysOf [(['a'], Json.str ['x'])])
      [(['a'], Json.str ['x'])] true
      = some ⟨[['a']], [], [['a']], some [(['a'], Json.obj [])]⟩ := by
  refine ⟨by decide, by decide⟩

end LocaleSync
